import Mathlib

/-!
# Shortest-path engine of `map.cpp`

A shallow embedding of the graph, the binary min-heap and the Dijkstra driver of
`src/map.cpp`, and the properties of them that hold or fail.

* A `Vertex*` is the index of the vertex in `Graph::vertices`; vertices are only ever
  appended, so the index is a stable identity.  The query fields (`shortestDistance`,
  `visited`, `settled`, `shortestPath`) live in the vertex objects, as in the source.
* In the graph, the heap and the engine `float` values are exact rationals.  The function
  `haversine` is given twice: `haversine` is its formula in exact arithmetic, and
  `haversineFloat` rounds every operation to binary32 and lets `sqrt` return NaN; the
  engine over edge weights that may be NaN is `getShortestPathFloat`.
* `haversine` calls `sin`, `cos`, `atan2` and `sqrt` of the C math library; `haversine m`
  is its formula over a math library `m`.  The graph algorithms take the distance function
  as a parameter `hav`.  `axisHaversine` is the closed form of `haversine` for two points
  on one meridian or on the equator, used for concrete runs.
* The recursive sift operations and the `while` loop take a fuel argument.  The fuel that
  the top-level functions pass is enough: see `heapifyUpAux_fuel`, `heapifyDownAux_fuel`
  and `calculateShortestPath_queue_empty`.
* The city list of `main` is the list of its nodes from `head` on; `loadCities` is the loop
  of `main` that copies it into the graph.
-/

namespace Map

/-! ## Constants and the distance function -/

/-- The constant `infinity` of the source: `const float infinity = 1e6`. -/
def infinity : ℚ := 1000000

/-- Degrees to radians, `deg * (3.14159 / 180.0)`. -/
def deg2rad (deg : ℚ) : ℚ := deg * ((314159 / 100000) / 180)

/-- Type of the great-circle distance function `haversine lat1 lon1 lat2 lon2`. -/
abbrev Haversine := ℚ → ℚ → ℚ → ℚ → ℚ

/-- The functions of the C math library that `haversine` calls. -/
structure MathLib where
  sin : ℚ → ℚ
  cos : ℚ → ℚ
  sqrt : ℚ → ℚ
  atan2 : ℚ → ℚ → ℚ

/-- The formula of `haversine` in exact arithmetic, over a math library `m` that returns a
number for every argument.  `haversineFloat` is the function in the arithmetic of the
source. -/
def haversine (m : MathLib) : Haversine := fun lat1 lon1 lat2 lon2 =>
  let r : ℚ := 6371
  let dLat := deg2rad (lat2 - lat1)
  let dLon := deg2rad (lon2 - lon1)
  let a := m.sin (dLat / 2) * m.sin (dLat / 2) +
    m.cos (deg2rad lat1) * m.cos (deg2rad lat2) *
    m.sin (dLon / 2) * m.sin (dLon / 2)
  let c := 2 * m.atan2 (m.sqrt a) (m.sqrt (1 - a))
  r * c

/-- Closed form of `haversine` on the two axes on which it needs no trigonometry.  On one
meridian (`lon1 = lon2`, latitudes at most 180 degrees apart) `a = sin² (dLat / 2)`, the
central angle is `|dLat|` and the result is `r * |dLat|` with `r = 6371`; on the equator
(`lat1 = lat2 = 0`, longitudes at most 180 degrees apart) it is `r * |dLon|` likewise.
Concrete runs only use points of these two kinds; elsewhere the value is a placeholder. -/
def axisHaversine : Haversine := fun lat1 lon1 lat2 lon2 =>
  let dLat := deg2rad (lat2 - lat1)
  let dLon := deg2rad (lon2 - lon1)
  if lon1 = lon2 then 6371 * (if 0 ≤ dLat then dLat else -dLat)
  else if lat1 = 0 ∧ lat2 = 0 then 6371 * (if 0 ≤ dLon then dLon else -dLon)
  else 0

/-- A rational stand-in for the math library: the series of `sin` and `cos` cut after two
terms, one Newton step from 1 for `sqrt`, and for `atan2` the angle of the point on the
unit diamond, scaled to radians.  It has the library properties that the theorems on
`haversine` assume, and serves as their instance. -/
def seriesMath : MathLib where
  sin x := x - x ^ 3 / 6
  cos x := 1 - x ^ 2 / 2
  sqrt x := if x ≤ 0 then 0 else (x + 1) / 2
  atan2 y x :=
    if y = 0 ∧ 0 ≤ x then 0
    else if 0 ≤ y then
      (if 0 ≤ x then y / (x + y) else 1 + (-x) / (y - x)) * (314159 / 200000)
    else
      -((if 0 ≤ x then (-y) / (x - y) else 1 + (-x) / (-y - x)) * (314159 / 200000))

/-! ## Vertices and the graph -/

/-- A `Vertex` object; `neighbors` and `shortestPath` hold vertex handles. -/
structure Vertex where
  city : String
  latitude : ℚ
  longitude : ℚ
  neighbors : List Nat
  shortestDistance : ℚ
  visited : Bool
  settled : Bool
  shortestPath : List Nat
deriving DecidableEq

/-- The constructor `Vertex(city, latitude, longitude)`. -/
def Vertex.new (city : String) (latitude longitude : ℚ) : Vertex :=
  { city := city, latitude := latitude, longitude := longitude, neighbors := [],
    shortestDistance := infinity, visited := false, settled := false, shortestPath := [] }

instance : Inhabited Vertex := ⟨Vertex.new "" 0 0⟩

/-- Method `Vertex::addNeighbor`: append the handle unless it is already in the list. -/
def Vertex.addNeighbor (v : Vertex) (neighbor : Nat) : Vertex :=
  if neighbor ∈ v.neighbors then v else { v with neighbors := v.neighbors ++ [neighbor] }

/-- Method `Vertex::calculateDistance`. -/
def Vertex.calculateDistance (hav : Haversine) (v other : Vertex) : ℚ :=
  hav v.latitude v.longitude other.latitude other.longitude

/-- The vertex store `Graph::vertices`. -/
abbrev Graph := List Vertex

/-- Dereference of a vertex handle. -/
def vtx (g : Graph) (i : Nat) : Vertex := g.getD i default

/-- Write through a vertex handle. -/
def modify (g : Graph) (i : Nat) (f : Vertex → Vertex) : Graph :=
  g.set i (f (vtx g i))

/-- Method `Graph::addVertex`. -/
def addVertex (g : Graph) (city : String) (latitude longitude : ℚ) : Graph :=
  g ++ [Vertex.new city latitude longitude]

/-- The scan of `Graph::getVertex` over the vertices from position `i` on. -/
def getVertexFrom (city : String) : List Vertex → Nat → Option Nat
  | [], _ => none
  | v :: rest, i => if v.city = city then some i else getVertexFrom city rest (i + 1)

/-- Method `Graph::getVertex`: the handle of the first vertex with that name, `none` for `NULL`. -/
def getVertex (g : Graph) (city : String) : Option Nat := getVertexFrom city g 0

/-- Method `Graph::addEdge`. -/
def addEdge (g : Graph) (city1 city2 : String) : Graph :=
  match getVertex g city1, getVertex g city2 with
  | some v1, some v2 =>
      let g1 := modify g v1 (fun v => v.addNeighbor v2)
      modify g1 v2 (fun v => v.addNeighbor v1)
  | _, _ => g

/-! ## Binary min-heap -/

/-- Method `MinHeap::getParent`. -/
def getParent (index : Nat) : Nat := (index - 1) / 2

/-- Method `MinHeap::getLeftChild`. -/
def getLeftChild (index : Nat) : Nat := 2 * index + 1

/-- Method `MinHeap::getRightChild`. -/
def getRightChild (index : Nat) : Nat := 2 * index + 2

/-- The key of a heap slot: `heap[i]->shortestDistance`. -/
def key (g : Graph) (heap : List Nat) (i : Nat) : ℚ := (vtx g (heap.getD i 0)).shortestDistance

/-- Exchange of two heap slots. -/
def swap (heap : List Nat) (i j : Nat) : List Nat :=
  (heap.set i (heap.getD j 0)).set j (heap.getD i 0)

/-- Method `MinHeap::heapifyUp`, with a bound on the recursion depth. -/
def heapifyUpAux (g : Graph) : Nat → List Nat → Nat → List Nat
  | 0, heap, _ => heap
  | fuel + 1, heap, index =>
      if index = 0 then heap
      else
        let parentIndex := getParent index
        if key g heap index < key g heap parentIndex then
          heapifyUpAux g fuel (swap heap index parentIndex) parentIndex
        else heap

/-- Method `MinHeap::heapifyUp`. -/
def heapifyUp (g : Graph) (heap : List Nat) (index : Nat) : List Nat :=
  heapifyUpAux g (index + 1) heap index

/-- Method `MinHeap::heapifyDown`, with a bound on the recursion depth. -/
def heapifyDownAux (g : Graph) : Nat → List Nat → Nat → List Nat
  | 0, heap, _ => heap
  | fuel + 1, heap, index =>
      let leftChild := getLeftChild index
      let rightChild := getRightChild index
      let smallest := index
      let smallest :=
        if leftChild < heap.length ∧ key g heap leftChild < key g heap smallest then leftChild
        else smallest
      let smallest :=
        if rightChild < heap.length ∧ key g heap rightChild < key g heap smallest then rightChild
        else smallest
      if smallest ≠ index then heapifyDownAux g fuel (swap heap index smallest) smallest
      else heap

/-- Method `MinHeap::heapifyDown`. -/
def heapifyDown (g : Graph) (heap : List Nat) (index : Nat) : List Nat :=
  heapifyDownAux g (heap.length + 1) heap index

/-- Method `MinHeap::insert`. -/
def insert (g : Graph) (heap : List Nat) (element : Nat) : List Nat :=
  heapifyUp g (heap ++ [element]) heap.length

/-- Method `MinHeap::extractMin`: the extracted handle and the remaining heap.  On an empty heap
the source prints a message and then reads `heap[0]` of an empty vector, which is
undefined; that outcome is `none`. -/
def extractMin (g : Graph) (heap : List Nat) : Option (Nat × List Nat) :=
  match heap with
  | [] => none
  | minElement :: _ =>
      let heap1 := heap.set 0 (heap.getLast?.getD 0)
      let heap2 := heap1.dropLast
      some (minElement, heapifyDown g heap2 0)

/-- Method `MinHeap::isEmpty`. -/
def isEmpty (heap : List Nat) : Bool := heap.isEmpty

/-- What one statement of `MinHeap::extractMin` does with the vector `heap`. -/
inductive HeapOp
  | print (text : String)
  | readSlot (i : Nat)
  | readBack
  | writeSlot (i : Nat)
  | popBack
  | heapifyDown (i : Nat)
  | returnMin
deriving DecidableEq

/-- The statements of `MinHeap::extractMin` in program order.  The `if (heap.empty())`
branch holds the print statement alone: it has no `return`, so the statements after it run
on an empty heap as well. -/
def extractMinOps (heap : List Nat) : List HeapOp :=
  (if isEmpty heap then [HeapOp.print "Heap is empty"] else []) ++
    [HeapOp.readSlot 0, HeapOp.readBack, HeapOp.writeSlot 0, HeapOp.popBack,
      HeapOp.heapifyDown 0, HeapOp.returnMin]

/-- Whether a statement is defined on a vector of `size` elements: `heap[i]` needs
`i < size`, `back()` and `pop_back()` need a non-empty vector. -/
def HeapOp.inBounds (size : Nat) : HeapOp → Bool
  | HeapOp.readSlot i => decide (i < size)
  | HeapOp.writeSlot i => decide (i < size)
  | HeapOp.readBack => decide (0 < size)
  | HeapOp.popBack => decide (0 < size)
  | _ => true

/-! ## Dijkstra -/

/-- Method `Dijkstra::evaluateDistanceAndPath`. -/
def evaluateDistanceAndPath (g : Graph) (adjacentVertex sourceVertex : Nat)
    (edgeDistance : ℚ) : Graph :=
  let newDistance := (vtx g sourceVertex).shortestDistance + edgeDistance
  if newDistance < (vtx g adjacentVertex).shortestDistance then
    modify g adjacentVertex (fun v =>
      { v with shortestDistance := newDistance,
               shortestPath := (vtx g sourceVertex).shortestPath ++ [sourceVertex] })
  else g

/-- The state of a run: the vertex objects and the queue `unsettledVertices`. -/
structure Run where
  graph : Graph
  heap : List Nat
deriving DecidableEq

/-- One pass through the body of the `for` loop over `currentVertex->neighbors`. -/
def relaxNeighbor (hav : Haversine) (currentVertex : Nat) (s : Run) (adjacentVertex : Nat) : Run :=
  if (vtx s.graph adjacentVertex).visited then s
  else
    let edgeDistance :=
      (vtx s.graph currentVertex).calculateDistance hav (vtx s.graph adjacentVertex)
    let g1 := evaluateDistanceAndPath s.graph adjacentVertex currentVertex edgeDistance
    if (vtx g1 adjacentVertex).settled then { s with graph := g1 }
    else
      { graph := modify g1 adjacentVertex (fun v => { v with settled := true }),
        heap := insert g1 s.heap adjacentVertex }

/-- One pass through the body of the `while` loop; `none` if `extractMin` is called on an
empty queue. -/
def step (hav : Haversine) (s : Run) : Option Run :=
  match extractMin s.graph s.heap with
  | none => none
  | some (currentVertex, heap1) =>
      if (vtx s.graph currentVertex).visited then some { s with heap := heap1 }
      else
        let g1 := modify s.graph currentVertex (fun v => { v with visited := true })
        some ((vtx g1 currentVertex).neighbors.foldl (relaxNeighbor hav currentVertex)
          { graph := g1, heap := heap1 })

/-- The `while (!unsettledVertices.isEmpty())` loop, at most `fuel` passes. -/
def loop (hav : Haversine) : Nat → Run → Run
  | 0, s => s
  | fuel + 1, s =>
      if isEmpty s.heap then s
      else
        match step hav s with
        | none => s
        | some s1 => loop hav fuel s1

/-- The state in which `calculateShortestPath` enters its loop. -/
def initRun (g : Graph) (source : Nat) : Run :=
  let g0 := modify g source (fun v => { v with shortestDistance := 0 })
  { graph := g0, heap := insert g0 [] source }

/-- Method `Dijkstra::calculateShortestPath`; each pass removes one queue entry and every vertex
enters the queue at most once, so `g.length + 1` passes empty the queue. -/
def calculateShortestPath (hav : Haversine) (g : Graph) (source : Nat) : Graph :=
  (loop hav (g.length + 1) (initRun g source)).graph

/-- Method `Dijkstra::getPath`. -/
def getPath (g : Graph) (destination : Nat) : List Nat :=
  (vtx g destination).shortestPath ++ [destination]

/-- Method `Dijkstra::getShortestPath`: the vertex objects after the run and the returned path. -/
def getShortestPath (hav : Haversine) (g : Graph) (src dst : Nat) : Graph × List Nat :=
  let g1 := calculateShortestPath hav g src
  (g1, getPath g1 dst)

/-- How the pathfinding query of `main` ends. -/
inductive QueryOutcome
  | answered (g : Graph) (path : List Nat)
  | nullSource
  | nullDestination (g : Graph)
deriving DecidableEq

/-- The pathfinding query of `main`: `src = getVertex(source)`, `dest =
getVertex(destination)`, `getShortestPath(src, dest)`, with no check of the two handles.
With `src == NULL` the first statement of `calculateShortestPath` writes
`source->shortestDistance` through the null pointer (`nullSource`).  With `dest == NULL`
the run from `src` is carried out and `getPath` then reads `destination->shortestPath`
through the null pointer (`nullDestination`, with the vertex objects as the run left
them). -/
def pathQuery (hav : Haversine) (g : Graph) (source destination : String) : QueryOutcome :=
  let src := getVertex g source
  let dest := getVertex g destination
  match src with
  | none => QueryOutcome.nullSource
  | some s =>
      let g1 := calculateShortestPath hav g s
      match dest with
      | none => QueryOutcome.nullDestination g1
      | some d => QueryOutcome.answered g1 (getPath g1 d)

/-! ## Vocabulary of the claims -/

/-- The graphs that calls of `addVertex` and `addEdge` build from the empty graph. -/
inductive Built : Graph → Prop
  | empty : Built []
  | addVertex {g : Graph} (city : String) (latitude longitude : ℚ) :
      Built g → Built (addVertex g city latitude longitude)
  | addEdge {g : Graph} (city1 city2 : String) : Built g → Built (addEdge g city1 city2)

/-- The graphs that `addVertex` calls and `addEdge` calls with two different names build
from the empty graph. -/
inductive BuiltDistinct : Graph → Prop
  | empty : BuiltDistinct []
  | addVertex {g : Graph} (city : String) (latitude longitude : ℚ) :
      BuiltDistinct g → BuiltDistinct (addVertex g city latitude longitude)
  | addEdge {g : Graph} (city1 city2 : String) :
      city1 ≠ city2 → BuiltDistinct g → BuiltDistinct (addEdge g city1 city2)

/-- The query fields of a vertex are as the constructor leaves them. -/
def Fresh (v : Vertex) : Prop :=
  v.shortestDistance = infinity ∧ v.visited = false ∧ v.settled = false ∧ v.shortestPath = []

instance (v : Vertex) : Decidable (Fresh v) :=
  inferInstanceAs (Decidable (v.shortestDistance = infinity ∧ v.visited = false ∧
    v.settled = false ∧ v.shortestPath = []))

/-- Every vertex of the graph is in fresh state. -/
def FreshGraph (g : Graph) : Prop := ∀ v ∈ g, Fresh v

instance (g : Graph) : Decidable (FreshGraph g) :=
  inferInstanceAs (Decidable (∀ v ∈ g, Fresh v))

/-- Every neighbor handle stored in the graph points to a vertex of the graph. -/
def WellFormed (g : Graph) : Prop := ∀ v ∈ g, ∀ j ∈ v.neighbors, j < g.length

instance (g : Graph) : Decidable (WellFormed g) :=
  inferInstanceAs (Decidable (∀ v ∈ g, ∀ j ∈ v.neighbors, j < g.length))

/-- The relation `b ∈ a.neighbors`. -/
def Adj (g : Graph) (a b : Nat) : Prop := b ∈ (vtx g a).neighbors

instance (g : Graph) (a b : Nat) : Decidable (Adj g a b) :=
  inferInstanceAs (Decidable (b ∈ (vtx g a).neighbors))

/-- Vertex `b` is connected to vertex `a`: a chain of neighbor links leads from `a` to `b`. -/
def Connected (g : Graph) (a b : Nat) : Prop := Relation.ReflTransGen (Adj g) a b

/-- Adjacency is symmetric. -/
def Symmetric (g : Graph) : Prop := ∀ a b, Adj g a b → Adj g b a

/-- Every vertex of the list is in the neighbor list of the vertex before it. -/
def IsWalk (g : Graph) : List Nat → Prop
  | a :: b :: rest => Adj g a b ∧ IsWalk g (b :: rest)
  | _ => True

/-- Decision procedure for `IsWalk`. -/
def decIsWalk (g : Graph) : (p : List Nat) → Decidable (IsWalk g p)
  | [] => isTrue trivial
  | [_] => isTrue trivial
  | a :: b :: rest =>
      match (inferInstance : Decidable (Adj g a b)), decIsWalk g (b :: rest) with
      | isTrue h1, isTrue h2 => isTrue ⟨h1, h2⟩
      | isFalse h1, _ => isFalse (fun h => h1 h.1)
      | _, isFalse h2 => isFalse (fun h => h2 h.2)

instance (g : Graph) (p : List Nat) : Decidable (IsWalk g p) := decIsWalk g p

/-- Sum of the edge weights (`calculateDistance`) between consecutive vertices of a path. -/
def pathWeight (hav : Haversine) (g : Graph) : List Nat → ℚ
  | a :: b :: rest =>
      (vtx g a).calculateDistance hav (vtx g b) + pathWeight hav g (b :: rest)
  | _ => 0

/-- The edge weight that the run computes for the link from `a` to `b`. -/
def weight (hav : Haversine) (g : Graph) (a b : Nat) : ℚ :=
  (vtx g a).calculateDistance hav (vtx g b)

/-- A simple path from `src` to `dst`: it starts at `src`, ends at `dst`, follows neighbor
links and repeats no vertex. -/
def SimplePath (g : Graph) (src dst : Nat) (p : List Nat) : Prop :=
  p.head? = some src ∧ p.getLast? = some dst ∧ IsWalk g p ∧ p.Nodup

instance (g : Graph) (src dst : Nat) (p : List Nat) : Decidable (SimplePath g src dst p) :=
  inferInstanceAs (Decidable (p.head? = some src ∧ p.getLast? = some dst ∧
    IsWalk g p ∧ p.Nodup))

/-- The min-heap order: no slot has a smaller key than its parent slot. -/
def IsHeap (g : Graph) (heap : List Nat) : Prop :=
  ∀ i, 0 < i → i < heap.length → key g heap (getParent i) ≤ key g heap i

/-- The heaps that `insert` and `extractMin` produce from the empty heap while the vertex
objects `g` stay as they are. -/
inductive HeapReach (g : Graph) : List Nat → Prop
  | empty : HeapReach g []
  | insert {heap : List Nat} (element : Nat) : HeapReach g heap → HeapReach g (insert g heap element)
  | extractMin {heap rest : List Nat} {m : Nat} :
      HeapReach g heap → extractMin g heap = some (m, rest) → HeapReach g rest

/-! ## Invariants used in the proofs -/

/-- The slot that `heapifyDown` selects among `index` and its two children. -/
def smallestSlot (g : Graph) (heap : List Nat) (index : Nat) : Nat :=
  let leftChild := getLeftChild index
  let rightChild := getRightChild index
  let smallest := index
  let smallest :=
    if leftChild < heap.length ∧ key g heap leftChild < key g heap smallest then leftChild
    else smallest
  if rightChild < heap.length ∧ key g heap rightChild < key g heap smallest then rightChild
  else smallest

/-- Heap order everywhere except between slot `k` and its parent, as `heapifyUp k` finds
it: the children of `k` are already no smaller than the parent of `k`. -/
def UpInv (g : Graph) (heap : List Nat) (k : Nat) : Prop :=
  (∀ i, 0 < i → i < heap.length → i ≠ k → key g heap (getParent i) ≤ key g heap i) ∧
  (∀ i, 0 < i → i < heap.length → getParent i = k → 0 < k →
    key g heap (getParent k) ≤ key g heap i)

/-- Heap order everywhere except between slot `k` and its children, as `heapifyDown k`
finds it: the children of `k` are already no smaller than the parent of `k`. -/
def DownInv (g : Graph) (heap : List Nat) (k : Nat) : Prop :=
  (∀ i, 0 < i → i < heap.length → getParent i ≠ k → key g heap (getParent i) ≤ key g heap i) ∧
  (∀ i, 0 < i → i < heap.length → getParent i = k → 0 < k →
    key g heap (getParent k) ≤ key g heap i)

/-- Every neighbor handle of every vertex object points into the store (the form of
`WellFormed` that is indexed by handle). -/
def NeighborsValid (g : Graph) : Prop := ∀ i, ∀ j ∈ (vtx g i).neighbors, j < g.length

/-- What a run may change between two states of the vertex objects: nothing of the graph
itself (size, names, coordinates, neighbor lists), nothing of a vertex already visited, no
`settled` flag back to false, and no distance upwards. -/
structure Evolves (g g' : Graph) : Prop where
  length_eq : g'.length = g.length
  city_eq : ∀ i, (vtx g' i).city = (vtx g i).city
  latitude_eq : ∀ i, (vtx g' i).latitude = (vtx g i).latitude
  longitude_eq : ∀ i, (vtx g' i).longitude = (vtx g i).longitude
  neighbors_eq : ∀ i, (vtx g' i).neighbors = (vtx g i).neighbors
  visited_frozen : ∀ i, (vtx g i).visited = true → vtx g' i = vtx g i
  settled_mono : ∀ i, (vtx g i).settled = true → (vtx g' i).settled = true
  distance_mono : ∀ i, (vtx g' i).shortestDistance ≤ (vtx g i).shortestDistance

/-- The quantity that every pass of the `while` loop decreases: the queue length plus the
number of vertices not yet marked `settled`. -/
def measure (s : Run) : Nat := s.heap.length + s.graph.countP (fun v => !v.settled)

/-- The vertex `v` has entered the queue at some time of the run from `src`: it is the
source or it is marked `settled`. -/
def Known (cur : Graph) (src v : Nat) : Prop := (vtx cur v).settled = true ∨ v = src

/-- The route stored for `v` (its `shortestPath` followed by `v`) is a simple path of the
graph `g` from `src` through visited vertices, and `shortestDistance` is its weight. -/
def GoodPath (hav : Haversine) (g : Graph) (src : Nat) (cur : Graph) (v : Nat) : Prop :=
  ((vtx cur v).shortestPath ++ [v]).head? = some src ∧
  IsWalk g ((vtx cur v).shortestPath ++ [v]) ∧
  (∀ x ∈ (vtx cur v).shortestPath, (vtx cur x).visited = true) ∧
  ((vtx cur v).shortestPath ++ [v]).Nodup ∧
  (vtx cur v).shortestDistance = pathWeight hav g ((vtx cur v).shortestPath ++ [v])

/-- The vertex objects `cur` describe the graph `g`: same size, coordinates and links. -/
def SameGraph (g cur : Graph) : Prop :=
  cur.length = g.length ∧
  ∀ i, (vtx cur i).latitude = (vtx g i).latitude ∧
    (vtx cur i).longitude = (vtx g i).longitude ∧
    (vtx cur i).neighbors = (vtx g i).neighbors

/-- The invariant of the `for` loop over the neighbors, for a run from `src` on `g`. -/
structure RelaxInv (hav : Haversine) (g : Graph) (src : Nat) (s : Run) : Prop where
  same : SameGraph g s.graph
  heap_known : ∀ x ∈ s.heap, Known s.graph src x
  visited_known : ∀ v, (vtx s.graph v).visited = true → Known s.graph src v
  known_good : ∀ v, Known s.graph src v → GoodPath hav g src s.graph v
  unknown_far : ∀ v, ¬ Known s.graph src v → (vtx s.graph v).shortestDistance = infinity
  queued : ∀ v, Known s.graph src v → (vtx s.graph v).visited = true ∨ v ∈ s.heap

/-- The invariant of the `while` loop: in addition every neighbor of a visited vertex has
entered the queue. -/
structure RunInv (hav : Haversine) (g : Graph) (src : Nat) (s : Run) : Prop where
  relax : RelaxInv hav g src s
  closure : ∀ u, (vtx s.graph u).visited = true → ∀ v ∈ (vtx g u).neighbors,
    Known s.graph src v

/-- The stored routes are consistent with each other: when the route of `v` ends in `u`,
then `u` is visited, the route of `u` is the rest of the route of `v`, and the distance of
`u` is at most that of `v`. -/
def PrefixInv (cur : Graph) : Prop :=
  ∀ v p u, (vtx cur v).shortestPath = p ++ [u] →
    (vtx cur u).visited = true ∧ (vtx cur u).shortestPath = p ∧
    (vtx cur u).shortestDistance ≤ (vtx cur v).shortestDistance

/-- What steps of a run may do to the stored routes: no distance grows, and a stored path
that differs from the earlier one comes with a strictly smaller distance. -/
def Improves (g g' : Graph) : Prop :=
  ∀ i, (vtx g' i).shortestDistance ≤ (vtx g i).shortestDistance ∧
    ((vtx g' i).shortestPath ≠ (vtx g i).shortestPath →
      (vtx g' i).shortestDistance < (vtx g i).shortestDistance)

/-- The stored distances account for the stored paths, in a run from `src` on `g`: no
distance exceeds `infinity`; a vertex with an empty path is at `infinity`, or is the source
at 0; and when the path of `v` ends in `u`, then `u` is below `infinity`, `v` is a neighbor
of `u` in `g`, and the distance of `v` is that of `u` plus the weight of the edge. -/
def WeightInv (hav : Haversine) (g : Graph) (src : Nat) (cur : Graph) : Prop :=
  ∀ v, (vtx cur v).shortestDistance ≤ infinity ∧
    ((vtx cur v).shortestPath = [] →
      (vtx cur v).shortestDistance = infinity ∨
        (v = src ∧ (vtx cur v).shortestDistance = 0)) ∧
    (∀ p u, (vtx cur v).shortestPath = p ++ [u] →
      (vtx cur u).shortestDistance < infinity ∧ Adj g u v ∧
      (vtx cur v).shortestDistance = (vtx cur u).shortestDistance + weight hav g u v)

/-! ## Concrete graphs -/

/-- Two cities joined by one edge. -/
def gAB : Graph := addEdge (addVertex (addVertex [] "A" 0 0) "B" 1 0) "A" "B"

/-- Two cities registered under one name. -/
def gAA : Graph := addVertex (addVertex [] "A" 0 0) "A" 1 1

/-- One city with a road to itself: `addEdge` called with the same name twice. -/
def gLoop : Graph := addEdge (addVertex [] "A" 0 0) "A" "A"

/-- Three vertex objects with tentative distances 5, 3 and 4. -/
def gDist : Graph :=
  [{ Vertex.new "A" 0 0 with shortestDistance := 5 },
   { Vertex.new "B" 1 0 with shortestDistance := 3 },
   { Vertex.new "C" 2 0 with shortestDistance := 4 }]

/-- Three cities of which the third has no road: `A(0,0)`, `B(0,1)`, `C(0,2)`, edge `A-B`. -/
def gIso : Graph :=
  addEdge (addVertex (addVertex (addVertex [] "A" 0 0) "B" 0 1) "C" 0 2) "A" "B"

/-- The spec's scenario: `A(0,0)`, `B(0,1)`, `C(0,2)` with the edges `A-B` and `B-C`. -/
def gABC : Graph :=
  addEdge (addEdge (addVertex (addVertex (addVertex [] "A" 0 0) "B" 0 1) "C" 0 2) "A" "B")
    "B" "C"

/-- Five cities on the meridian of longitude 0, at latitudes 3, 9, 7, 0 and 10 degrees, with
the roads `A-D`, `C-E`, `A-C`, `B-E`, `B-D` and `E-D`. -/
def g5 : Graph :=
  addEdge (addEdge (addEdge (addEdge (addEdge (addEdge (addVertex (addVertex (addVertex
    (addVertex (addVertex [] "A" 3 0) "B" 9 0) "C" 7 0) "D" 0 0) "E" 10 0)
    "A" "D") "C" "E") "A" "C") "B" "E") "B" "D") "E" "D"

/-- City names `x`, `xx`, `xxx`, ... -/
def cityName (i : Nat) : String := String.mk (List.replicate (i + 1) 'x')

/-- The first `n` cities of a chain that alternates between the two poles. -/
def poleVertices : Nat → Graph
  | 0 => []
  | n + 1 => addVertex (poleVertices n) (cityName n) (if n % 2 = 0 then 90 else -90) 0

/-- Fifty-one cities alternating between the poles, the first `n` consecutive pairs of
which are joined by an edge. -/
def poleChain : Nat → Graph
  | 0 => poleVertices 51
  | n + 1 => addEdge (poleChain n) (cityName n) (cityName (n + 1))

/-! ## The city list and the loading loop of `main` -/

/-- A `Node` of the city list; the `next` pointer is the position in the list. -/
structure Node where
  city : String
  latitude : ℚ
  longitude : ℚ
deriving DecidableEq

/-- The nodes of a `LinkedList` from `head` on; the empty list is `head == NULL`. -/
abbrev LinkedList := List Node

/-- Method `LinkedList::addNode`: walk to the node whose `next` is `NULL` and hang the new
node behind it. -/
def addNode : LinkedList → String → ℚ → ℚ → LinkedList
  | [], city, latitude, longitude =>
      [{ city := city, latitude := latitude, longitude := longitude }]
  | temp :: rest, city, latitude, longitude => temp :: addNode rest city latitude longitude

/-- The loop of `main` that copies the city list into the graph, with `head` at the first
node of the list: while `head->next != NULL`, call `graph.addVertex(head->city,
head->latitude, head->longitude)` and move `head` to `head->next`.  On an empty list `head`
is `NULL` and the test `head->next` is undefined; that outcome is `none`. -/
def loadCities : LinkedList → Graph → Option Graph
  | [], _ => none
  | [_], graph => some graph
  | head :: next :: rest, graph =>
      loadCities (next :: rest) (addVertex graph head.city head.latitude head.longitude)

/-- The arguments of the `ll.addNode` calls of `main`, in program order. -/
def mainAddNodeCalls : List (String × ℚ × ℚ) :=
  [("Badin", 24.6558, 68.8383), ("Thatta", 24.7461, 67.9243), ("Karachi", 24.86, 67.01),
   ("Gwadar", 25.1264, 62.3225), ("Pasni", 25.251, 63.4154), ("Ormara", 25.2666, 64.6096),
   ("Hyderabad", 25.3792, 68.3683), ("Tando Allahyar", 25.4667, 68.7167),
   ("Lasbela", 25.87, 66.7129), ("Turbat", 26.0031, 63.0544), ("Sanghar", 26.0464, 68.9481),
   ("Nawabshah", 26.2442, 68.41), ("Panjgur", 26.9706, 64.0887),
   ("Khairpur", 27.5295, 68.7592), ("Larkana", 27.56, 68.2264), ("Sukkur", 27.6995, 68.8673),
   ("Khuzdar", 27.8, 66.6167), ("Basima", 27.9094, 65.8739), ("Shikarpur", 27.9556, 68.6382),
   ("Jacobabad", 28.2769, 68.4514), ("Rahim Yar Khan", 28.4202, 70.2952),
   ("Kashmore", 28.4482, 69.5857), ("Surab", 28.4901, 66.2635), ("Kharan", 28.5855, 65.4163),
   ("Dalbandin", 28.8854, 64.3964), ("Kalat", 29.0258, 66.59),
   ("Dera Bugti", 29.0362, 69.1585), ("Rajanpur", 29.1041, 70.3297),
   ("Bahawalpur", 29.3956, 71.6722), ("Sibi", 29.543, 67.8773), ("Noshki", 29.5514, 66.0107),
   ("Dera Ghazi Khan", 30.05, 70.6333), ("Muzaffargarh", 30.0703, 71.1933),
   ("Quetta", 30.192, 67.007), ("Multan", 30.1978, 71.4711), ("Khanewal", 30.3017, 71.9321),
   ("Pashin", 30.5833, 67), ("Sahiwal", 30.6706, 73.1064), ("Okara", 30.81, 73.4597),
   ("Chaman", 30.921, 66.4597), ("Toba Tek Singh", 30.9667, 72.4833),
   ("Jhang", 31.2681, 72.3181), ("Zhob", 31.3417, 69.4486), ("Faisalabad", 31.418, 73.079),
   ("Lahore", 31.5497, 74.3436), ("Sheikhupura", 31.7083, 74),
   ("Dera Ismail Khan", 31.8167, 70.9167), ("Hafizabad", 32.0709, 73.688),
   ("Sargodha", 32.0836, 72.6711), ("Gujranwala", 32.15, 74.1833), ("Khushab", 32.2917, 72.35),
   ("Sialkot", 32.5, 74.5333), ("Gujrat", 32.5736, 74.0789), ("Mianwali", 32.5853, 71.5436),
   ("Mandi Bahauddin", 32.5861, 73.4917), ("Chakwal", 32.93, 72.85),
   ("Jhelum", 32.9333, 73.7333), ("Bannu", 32.9889, 70.6056), ("Karak", 33.1167, 71.0833),
   ("Kohat", 33.5869, 71.4414), ("Rawalpindi", 33.6007, 73.0679),
   ("Islamabad", 33.6989, 73.0369), ("Attock", 33.7667, 72.3667), ("Murree", 33.907, 73.3943),
   ("Peshawar", 34, 71.5), ("Nowshera", 34.0153, 71.9747), ("Charsadda", 34.1453, 71.7308),
   ("Abbottabad", 34.15, 73.2167), ("Mardan", 34.1958, 72.0447), ("Mohmand", 34.5356, 71.2874),
   ("Malakand", 34.5656, 71.9304), ("Dir", 35.1977, 71.8749), ("Swat", 35.2227, 72.4258)]

/-- The city list of `main` after its `ll.addNode` calls. -/
def mainCities : LinkedList :=
  mainAddNodeCalls.foldl (fun ll c => addNode ll c.1 c.2.1 c.2.2) []

/-! ## Binary32 arithmetic and the distance function in it -/

/-- Two to the power `e`, for an integer exponent. -/
def twoPow (e : ℤ) : ℚ :=
  if 0 ≤ e then ((2 ^ e.toNat : Nat) : ℚ) else 1 / ((2 ^ (-e).toNat : Nat) : ℚ)

/-- The number of halvings that bring `n` below 2 (the position of its leading bit), with a
bound on the recursion depth. -/
def log2Aux : Nat → Nat → Nat
  | 0, _ => 0
  | fuel + 1, n => if 2 ≤ n then log2Aux fuel (n / 2) + 1 else 0

/-- The binary exponent of a positive number `x`: the `e` with `2^e ≤ x < 2^(e+1)`. -/
def exponent (x : ℚ) : ℤ :=
  let e0 : ℤ := (log2Aux x.num.natAbs x.num.natAbs : ℤ) - (log2Aux x.den x.den : ℤ)
  if twoPow e0 ≤ x then e0 else e0 - 1

/-- Rounding to the nearest number with a significand of `p` bits, ties to the even
significand: the rounding of every IEEE 754 operation.  The exponent range is not modelled
(no overflow, no subnormal numbers). -/
def roundTo (p : Nat) (x : ℚ) : ℚ :=
  if x = 0 then 0
  else
    let ax := if x < 0 then -x else x
    let ulp := twoPow (exponent ax - (p - 1 : Nat))
    let n := (ax / ulp).floor
    let rest := ax / ulp - n
    let m : ℤ :=
      if rest < 1 / 2 then n else if 1 / 2 < rest then n + 1
      else if n % 2 = 0 then n else n + 1
    if x < 0 then -(m * ulp) else m * ulp

/-- The `float` (binary32) nearest to a real number. -/
def toFloat (x : ℚ) : ℚ := roundTo 24 x

/-- The `double` (binary64) nearest to a real number. -/
def toDouble (x : ℚ) : ℚ := roundTo 53 x

/-- A value of type `float`: a number, or `none` for NaN. -/
abbrev FloatVal := Option ℚ

/-- The comparison `x <= y` of two `float` values: false when either is NaN. -/
def floatLe : FloatVal → FloatVal → Bool
  | some x, some y => decide (x ≤ y)
  | _, _ => false

/-- The comparison `x == y` of two `float` values: false when either is NaN. -/
def floatEq : FloatVal → FloatVal → Bool
  | some x, some y => decide (x = y)
  | _, _ => false

/-- The `float` overloads of the C math library that `haversine` calls.  `sin`, `cos` and
`atan2` return a number for numbers; `sqrt` may return NaN. -/
structure FloatLib where
  sin : ℚ → ℚ
  cos : ℚ → ℚ
  sqrt : ℚ → FloatVal
  atan2 : ℚ → ℚ → ℚ

/-- Function `deg2rad` in the arithmetic of the source: the constant `3.14159 / 180.0` and
the product are formed in `double`, the `return` converts to `float`. -/
def deg2radFloat (deg : ℚ) : ℚ :=
  toFloat (toDouble (deg * toDouble (toDouble (314159 / 100000) / 180)))

/-- The variable `a` of `haversine`.  The operands are `float`, so every operation is
rounded to `float` (no wider intermediate precision, no fused multiply-add), and `sin` and
`cos` are the `float` overloads. -/
def haversineA (m : FloatLib) (lat1 lon1 lat2 lon2 : ℚ) : ℚ :=
  let dLat := deg2radFloat (toFloat (lat2 - lat1))
  let dLon := deg2radFloat (toFloat (lon2 - lon1))
  toFloat (toFloat (m.sin (toFloat (dLat / 2)) * m.sin (toFloat (dLat / 2))) +
    toFloat (toFloat (toFloat (m.cos (deg2radFloat lat1) * m.cos (deg2radFloat lat2)) *
      m.sin (toFloat (dLon / 2))) * m.sin (toFloat (dLon / 2))))

/-- Function `haversine` in binary32 arithmetic, over the math library `m`.  A NaN from
`sqrt` goes through `atan2` and the two products to the result. -/
def haversineFloat (m : FloatLib) (lat1 lon1 lat2 lon2 : ℚ) : FloatVal :=
  let r : ℚ := 6371
  let a := haversineA m lat1 lon1 lat2 lon2
  match m.sqrt a, m.sqrt (toFloat (1 - a)) with
  | some x, some y =>
      let c := toFloat (2 * m.atan2 x y)
      some (toFloat (r * c))
  | _, _ => none

/-- The values that a correctly rounding math library returns where the calls of
`haversine` between the points `(-78, -180)`, `(78, 0)` and `(-78, 180)` reach it:
`sin` at plus and minus half of `deg2rad(156)` and of `deg2rad(180)`, `cos` at
`deg2rad(78)` and `deg2rad(-78)`; and `sqrt` returns NaN below zero. -/
def AntipodeValues (m : FloatLib) : Prop :=
  m.sin (11419879 / 8388608) = 8205295 / 8388608 ∧
  m.sin (-(11419879 / 8388608)) = -(8205295 / 8388608) ∧
  m.sin (823549 / 524288) = 1 ∧
  m.sin (-(823549 / 524288)) = -1 ∧
  m.cos (11419879 / 8388608) = 13952793 / 67108864 ∧
  m.cos (-(11419879 / 8388608)) = 13952793 / 67108864 ∧
  ∀ x, x < 0 → m.sqrt x = none

/-- A math library with the values of `AntipodeValues`, as an instance of them.  Away
from those arguments it is a crude stand-in that only makes the functions total. -/
def antipodeLib : FloatLib where
  sin x :=
    if x = 11419879 / 8388608 then 8205295 / 8388608
    else if x = -(11419879 / 8388608) then -(8205295 / 8388608)
    else if x = 823549 / 524288 then 1
    else if x = -(823549 / 524288) then -1
    else toFloat x
  cos x :=
    if x = 11419879 / 8388608 ∨ x = -(11419879 / 8388608) then 13952793 / 67108864 else 1
  sqrt x := if x < 0 then none else some (toFloat ((x + 1) / 2))
  atan2 y x := if 0 < x then toFloat (y / x) else 0

/-! ## The engine with an edge weight that may be NaN -/

/-- The distance function as the engine calls it: a number, or NaN. -/
abbrev FloatHaversine := ℚ → ℚ → ℚ → ℚ → FloatVal

/-- Method `Vertex::calculateDistance` with its `float` result. -/
def Vertex.calculateDistanceFloat (hav : FloatHaversine) (v other : Vertex) : FloatVal :=
  hav v.latitude v.longitude other.latitude other.longitude

/-- Method `Dijkstra::evaluateDistanceAndPath` for a `float` edge distance.  With NaN the
sum `newDistance` is NaN, the test `newDistance < adjacentVertex->shortestDistance` is
false and nothing is written; with a number it is `evaluateDistanceAndPath`. -/
def evaluateDistanceAndPathFloat (g : Graph) (adjacentVertex sourceVertex : Nat)
    (edgeDistance : FloatVal) : Graph :=
  match edgeDistance with
  | none => g
  | some w => evaluateDistanceAndPath g adjacentVertex sourceVertex w

/-- One pass of the `for` loop over the neighbors, with a `float` edge distance. -/
def relaxNeighborFloat (hav : FloatHaversine) (currentVertex : Nat) (s : Run)
    (adjacentVertex : Nat) : Run :=
  if (vtx s.graph adjacentVertex).visited then s
  else
    let edgeDistance :=
      (vtx s.graph currentVertex).calculateDistanceFloat hav (vtx s.graph adjacentVertex)
    let g1 := evaluateDistanceAndPathFloat s.graph adjacentVertex currentVertex edgeDistance
    if (vtx g1 adjacentVertex).settled then { s with graph := g1 }
    else
      { graph := modify g1 adjacentVertex (fun v => { v with settled := true }),
        heap := insert g1 s.heap adjacentVertex }

/-- One pass of the `while` loop, with `float` edge distances. -/
def stepFloat (hav : FloatHaversine) (s : Run) : Option Run :=
  match extractMin s.graph s.heap with
  | none => none
  | some (currentVertex, heap1) =>
      if (vtx s.graph currentVertex).visited then some { s with heap := heap1 }
      else
        let g1 := modify s.graph currentVertex (fun v => { v with visited := true })
        some ((vtx g1 currentVertex).neighbors.foldl (relaxNeighborFloat hav currentVertex)
          { graph := g1, heap := heap1 })

/-- The `while` loop, with `float` edge distances and a bound on the number of passes. -/
def loopFloat (hav : FloatHaversine) : Nat → Run → Run
  | 0, s => s
  | fuel + 1, s =>
      if isEmpty s.heap then s
      else
        match stepFloat hav s with
        | none => s
        | some s1 => loopFloat hav fuel s1

/-- Method `Dijkstra::calculateShortestPath`, with `float` edge distances. -/
def calculateShortestPathFloat (hav : FloatHaversine) (g : Graph) (source : Nat) : Graph :=
  (loopFloat hav (g.length + 1) (initRun g source)).graph

/-- Method `Dijkstra::getShortestPath`, with `float` edge distances. -/
def getShortestPathFloat (hav : FloatHaversine) (g : Graph) (src dst : Nat) :
    Graph × List Nat :=
  let g1 := calculateShortestPathFloat hav g src
  (g1, getPath g1 dst)

/-- Three cities, the second antipodal to the other two: `A(-78, -180)`, `B(78, 0)`,
`C(-78, 180)`, with the roads `A-B` and `B-C`. -/
def gAntipodes : Graph :=
  addEdge (addEdge (addVertex (addVertex (addVertex [] "A" (-78) (-180)) "B" 78 0)
    "C" (-78) 180) "A" "B") "B" "C"

end Map

namespace Map

/-! ## Handles and writes -/

theorem vtx_eq_getElem {g : Graph} {i : Nat} (h : i < g.length) : vtx g i = g[i] := by
  unfold vtx; exact List.getD_eq_getElem _ _ h

theorem vtx_mem {g : Graph} {i : Nat} (h : i < g.length) : vtx g i ∈ g := by
  rw [vtx_eq_getElem h]; exact List.getElem_mem h

theorem vtx_of_le {g : Graph} {i : Nat} (h : g.length ≤ i) : vtx g i = default := by
  unfold vtx; exact List.getD_eq_default _ _ h

theorem exists_vtx_of_mem {g : Graph} {v : Vertex} (h : v ∈ g) :
    ∃ i, i < g.length ∧ vtx g i = v := by
  obtain ⟨i, hi, rfl⟩ := List.mem_iff_getElem.mp h
  exact ⟨i, hi, vtx_eq_getElem hi⟩

theorem length_modify (g : Graph) (i : Nat) (f : Vertex → Vertex) :
    (modify g i f).length = g.length := by
  simp [modify]

theorem vtx_modify (g : Graph) (i j : Nat) (f : Vertex → Vertex) :
    vtx (modify g i f) j = if i = j ∧ i < g.length then f (vtx g j) else vtx g j := by
  unfold modify vtx
  rw [List.getD_eq_getElem?_getD, List.getElem?_set, List.getD_eq_getElem?_getD,
    List.getD_eq_getElem?_getD]
  by_cases hij : i = j
  · subst hij
    by_cases hi : i < g.length
    · simp [hi]
    · simp [hi, List.getElem?_eq_none (Nat.le_of_not_lt hi)]
  · simp [hij]

theorem vtx_modify_same {g : Graph} {i : Nat} (f : Vertex → Vertex) (h : i < g.length) :
    vtx (modify g i f) i = f (vtx g i) := by
  simp [vtx_modify, h]

theorem vtx_modify_ne {g : Graph} {i j : Nat} (f : Vertex → Vertex) (h : i ≠ j) :
    vtx (modify g i f) j = vtx g j := by
  simp [vtx_modify, h]

theorem graph_ext {g g' : Graph} (hlen : g.length = g'.length)
    (h : ∀ i, i < g.length → vtx g i = vtx g' i) : g = g' := by
  apply List.ext_getElem hlen
  intro i h1 h2
  have := h i h1
  rwa [vtx_eq_getElem h1, vtx_eq_getElem h2] at this

theorem modify_eq_self {g : Graph} {i : Nat} {f : Vertex → Vertex}
    (h : f (vtx g i) = vtx g i) : modify g i f = g := by
  apply graph_ext (length_modify g i f)
  intro j _
  rw [vtx_modify]
  split
  · rename_i hc; rw [← hc.1, h]
  · rfl

theorem length_addVertex (g : Graph) (city : String) (lat lon : ℚ) :
    (addVertex g city lat lon).length = g.length + 1 := by
  simp [addVertex]

theorem vtx_addVertex_lt {g : Graph} {i : Nat} (city : String) (lat lon : ℚ)
    (h : i < g.length) : vtx (addVertex g city lat lon) i = vtx g i := by
  unfold vtx addVertex; exact List.getD_append _ _ _ _ h

theorem vtx_addVertex_new (g : Graph) (city : String) (lat lon : ℚ) :
    vtx (addVertex g city lat lon) g.length = Vertex.new city lat lon := by
  simp [vtx, addVertex, List.getD_append_right]

/-! ## Lookup by name -/

theorem getVertexFrom_some {city : String} :
    ∀ (l : List Vertex) (i k : Nat), getVertexFrom city l i = some k →
      i ≤ k ∧ k < i + l.length ∧ (l.getD (k - i) default).city = city
  | [], _, _, h => by simp [getVertexFrom] at h
  | v :: rest, i, k, h => by
      unfold getVertexFrom at h
      split at h
      · rename_i hc
        have hk : i = k := by simpa using h
        subst hk
        simp [hc]
      · obtain ⟨h1, h2, h3⟩ := getVertexFrom_some rest (i + 1) k h
        refine ⟨by omega, by simp; omega, ?_⟩
        have : k - i = (k - (i + 1)) + 1 := by omega
        rw [this]
        simpa using h3

theorem getVertex_lt {g : Graph} {city : String} {k : Nat} (h : getVertex g city = some k) :
    k < g.length := by
  have := (getVertexFrom_some g 0 k h).2.1
  omega

theorem getVertex_city {g : Graph} {city : String} {k : Nat} (h : getVertex g city = some k) :
    (vtx g k).city = city := by
  simpa [vtx] using (getVertexFrom_some g 0 k h).2.2

theorem getVertexFrom_congr {city : String} :
    ∀ (l l' : List Vertex) (i : Nat), l.map (fun v => v.city) = l'.map (fun v => v.city) →
      getVertexFrom city l i = getVertexFrom city l' i
  | [], [], _, _ => rfl
  | [], _ :: _, _, h => by simp at h
  | _ :: _, [], _, h => by simp at h
  | v :: rest, v' :: rest', i, h => by
      simp only [List.map_cons, List.cons.injEq] at h
      unfold getVertexFrom
      rw [h.1, getVertexFrom_congr rest rest' (i + 1) h.2]

theorem cities_modify (g : Graph) (i : Nat) (f : Vertex → Vertex)
    (hf : ∀ v, (f v).city = v.city) :
    (modify g i f).map (fun v => v.city) = g.map (fun v => v.city) := by
  apply List.ext_getElem?
  intro j
  simp only [List.getElem?_map, modify, List.getElem?_set]
  by_cases hij : i = j
  · subst hij
    by_cases hi : i < g.length
    · simp [hi, hf, vtx_eq_getElem hi, List.getElem?_eq_getElem hi]
    · simp [hi, List.getElem?_eq_none (Nat.le_of_not_lt hi)]
  · simp [hij]

theorem addNeighbor_city (v : Vertex) (n : Nat) : (v.addNeighbor n).city = v.city := by
  unfold Vertex.addNeighbor; split <;> rfl

theorem cities_addEdge (g : Graph) (a b : String) :
    (addEdge g a b).map (fun v => v.city) = g.map (fun v => v.city) := by
  unfold addEdge
  split
  · simp only
    rw [cities_modify _ _ _ (fun v => addNeighbor_city v _),
      cities_modify _ _ _ (fun v => addNeighbor_city v _)]
  · rfl

theorem getVertex_addEdge (g : Graph) (a b c : String) :
    getVertex (addEdge g a b) c = getVertex g c :=
  getVertexFrom_congr _ _ 0 (cities_addEdge g a b)

theorem length_addEdge (g : Graph) (a b : String) : (addEdge g a b).length = g.length := by
  have := congrArg List.length (cities_addEdge g a b)
  simpa using this

theorem getVertexFrom_append {city : String} (l2 : List Vertex) :
    ∀ (l : List Vertex) (i k : Nat), getVertexFrom city l i = some k →
      getVertexFrom city (l ++ l2) i = some k
  | [], _, _, h => by simp [getVertexFrom] at h
  | v :: rest, i, k, h => by
      unfold getVertexFrom at h
      simp only [List.cons_append]
      unfold getVertexFrom
      split
      · rename_i hc; simpa [hc] using h
      · rename_i hc
        rw [if_neg hc] at h
        exact getVertexFrom_append l2 rest (i + 1) k h

/-! ## Effect of `addVertex` and `addEdge` on adjacency -/

theorem default_neighbors : (default : Vertex).neighbors = [] := rfl

theorem fresh_default : Fresh (default : Vertex) := ⟨rfl, rfl, rfl, rfl⟩

theorem fresh_new (city : String) (lat lon : ℚ) : Fresh (Vertex.new city lat lon) :=
  ⟨rfl, rfl, rfl, rfl⟩

theorem mem_addNeighbor (v : Vertex) (n j : Nat) :
    j ∈ (v.addNeighbor n).neighbors ↔ j ∈ v.neighbors ∨ j = n := by
  unfold Vertex.addNeighbor
  split
  · rename_i h
    constructor
    · exact Or.inl
    · rintro (h1 | rfl)
      · exact h1
      · exact h
  · simp

theorem nodup_addNeighbor (v : Vertex) (n : Nat) (h : v.neighbors.Nodup) :
    (v.addNeighbor n).neighbors.Nodup := by
  unfold Vertex.addNeighbor
  split
  · exact h
  · rename_i hn
    simp only
    rw [List.nodup_append]
    refine ⟨h, List.nodup_singleton n, ?_⟩
    intro a ha hb
    simp only [List.mem_singleton] at hb
    subst hb
    exact hn ha

theorem fresh_addNeighbor (v : Vertex) (n : Nat) (h : Fresh v) : Fresh (v.addNeighbor n) := by
  unfold Vertex.addNeighbor
  split
  · exact h
  · exact h

theorem addNeighbor_of_mem {v : Vertex} {n : Nat} (h : n ∈ v.neighbors) :
    v.addNeighbor n = v := by
  unfold Vertex.addNeighbor
  rw [if_pos h]

theorem vtx_addVertex (g : Graph) (city : String) (lat lon : ℚ) (i : Nat) :
    vtx (addVertex g city lat lon) i =
      if i < g.length then vtx g i
      else if i = g.length then Vertex.new city lat lon else default := by
  by_cases h1 : i < g.length
  · rw [if_pos h1, vtx_addVertex_lt _ _ _ h1]
  · rw [if_neg h1]
    by_cases h2 : i = g.length
    · rw [if_pos h2, h2, vtx_addVertex_new]
    · rw [if_neg h2]
      apply vtx_of_le
      rw [length_addVertex]
      omega

theorem adj_lt_left {g : Graph} {i j : Nat} (h : Adj g i j) : i < g.length := by
  by_contra hc
  unfold Adj at h
  rw [vtx_of_le (Nat.le_of_not_lt hc)] at h
  simp [default_neighbors] at h

theorem adj_addVertex (g : Graph) (city : String) (lat lon : ℚ) (i j : Nat) :
    Adj (addVertex g city lat lon) i j ↔ Adj g i j := by
  unfold Adj
  rw [vtx_addVertex]
  by_cases h1 : i < g.length
  · rw [if_pos h1]
  · rw [if_neg h1, vtx_of_le (Nat.le_of_not_lt h1)]
    split <;> simp [Vertex.new, default_neighbors]

theorem vtx_addEdge_some {g : Graph} {a b : String} {v1 v2 : Nat}
    (h1 : getVertex g a = some v1) (h2 : getVertex g b = some v2) (i : Nat) :
    vtx (addEdge g a b) i =
      if i = v2 then ((if i = v1 then (vtx g i).addNeighbor v2 else vtx g i).addNeighbor v1)
      else if i = v1 then (vtx g i).addNeighbor v2 else vtx g i := by
  have hv1 := getVertex_lt h1
  have hv2 := getVertex_lt h2
  unfold addEdge
  simp only [h1, h2]
  rw [vtx_modify, vtx_modify, length_modify]
  by_cases e2 : i = v2
  · subst e2
    by_cases e1 : i = v1
    · subst e1; simp [hv1]
    · have e1' : ¬ v1 = i := fun h => e1 h.symm
      simp [hv2, e1, e1']
  · have e2' : ¬ v2 = i := fun h => e2 h.symm
    by_cases e1 : i = v1
    · subst e1; simp [hv1, e2, e2']
    · have e1' : ¬ v1 = i := fun h => e1 h.symm
      simp [e1, e2, e1', e2']

theorem addEdge_of_none {g : Graph} {a b : String}
    (h : getVertex g a = none ∨ getVertex g b = none) : addEdge g a b = g := by
  unfold addEdge
  split
  · rename_i v1 v2 e1 e2
    rcases h with h | h
    · rw [h] at e1; cases e1
    · rw [h] at e2; cases e2
  · rfl

theorem adj_addEdge (g : Graph) (a b : String) (i j : Nat) :
    Adj (addEdge g a b) i j ↔
      Adj g i j ∨ ∃ v1 v2, getVertex g a = some v1 ∧ getVertex g b = some v2 ∧
        ((i = v1 ∧ j = v2) ∨ (i = v2 ∧ j = v1)) := by
  cases h1 : getVertex g a with
  | none => rw [addEdge_of_none (Or.inl h1)]; simp
  | some v1 =>
    cases h2 : getVertex g b with
    | none => rw [addEdge_of_none (Or.inr h2)]; simp
    | some v2 =>
      unfold Adj
      rw [vtx_addEdge_some h1 h2]
      have key : (∃ w1 w2, some v1 = some w1 ∧ some v2 = some w2 ∧
          ((i = w1 ∧ j = w2) ∨ (i = w2 ∧ j = w1))) ↔ ((i = v1 ∧ j = v2) ∨ (i = v2 ∧ j = v1)) := by
        constructor
        · rintro ⟨w1, w2, e1, e2, h⟩
          cases e1; cases e2; exact h
        · intro h
          exact ⟨v1, v2, rfl, rfl, h⟩
      rw [key]
      by_cases e2 : i = v2
      · rw [if_pos e2]
        by_cases e1 : i = v1
        · rw [if_pos e1, mem_addNeighbor, mem_addNeighbor]; tauto
        · rw [if_neg e1, mem_addNeighbor]; tauto
      · rw [if_neg e2]
        by_cases e1 : i = v1
        · rw [if_pos e1, mem_addNeighbor]; tauto
        · rw [if_neg e1]; tauto

theorem built_symmetric {g : Graph} (h : Built g) : Symmetric g := by
  induction h with
  | empty => intro a b hab; simp [Adj, vtx, default_neighbors] at hab
  | addVertex city lat lon _ ih =>
      intro a b hab
      rw [adj_addVertex] at hab ⊢
      exact ih a b hab
  | addEdge c1 c2 _ ih =>
      intro a b hab
      rw [adj_addEdge] at hab ⊢
      rcases hab with hab | ⟨v1, v2, e1, e2, hc⟩
      · exact Or.inl (ih a b hab)
      · exact Or.inr ⟨v1, v2, e1, e2, hc.symm.imp (fun h => ⟨h.2, h.1⟩) (fun h => ⟨h.2, h.1⟩)⟩

theorem built_adj_lt {g : Graph} (h : Built g) : ∀ a b, Adj g a b → b < g.length := by
  induction h with
  | empty => intro a b hab; simp [Adj, vtx, default_neighbors] at hab
  | addVertex city lat lon _ ih =>
      intro a b hab
      rw [adj_addVertex] at hab
      rw [length_addVertex]
      exact Nat.lt_succ_of_lt (ih a b hab)
  | addEdge c1 c2 _ ih =>
      intro a b hab
      rw [adj_addEdge] at hab
      rw [length_addEdge]
      rcases hab with hab | ⟨v1, v2, e1, e2, hc⟩
      · exact ih a b hab
      · rcases hc with ⟨_, rfl⟩ | ⟨_, rfl⟩
        · exact getVertex_lt e2
        · exact getVertex_lt e1

theorem built_wellFormed {g : Graph} (h : Built g) : WellFormed g := by
  intro v hv j hj
  obtain ⟨i, _, rfl⟩ := exists_vtx_of_mem hv
  exact built_adj_lt h i j hj

theorem built_vtx {g : Graph} (h : Built g) :
    ∀ i, Fresh (vtx g i) ∧ (vtx g i).neighbors.Nodup := by
  induction h with
  | empty => intro i; exact ⟨fresh_default, by simp [vtx, default_neighbors]⟩
  | addVertex city lat lon _ ih =>
      intro i
      rw [vtx_addVertex]
      split
      · exact ih i
      · split
        · exact ⟨fresh_new _ _ _, by simp [Vertex.new]⟩
        · exact ⟨fresh_default, by simp [default_neighbors]⟩
  | @addEdge g c1 c2 _ ih =>
      intro i
      cases h1 : getVertex g c1 with
      | none => rw [addEdge_of_none (Or.inl h1)]; exact ih i
      | some v1 =>
        cases h2 : getVertex g c2 with
        | none => rw [addEdge_of_none (Or.inr h2)]; exact ih i
        | some v2 =>
          rw [vtx_addEdge_some h1 h2]
          have hi := ih i
          split
          · split
            · exact ⟨fresh_addNeighbor _ _ (fresh_addNeighbor _ _ hi.1),
                nodup_addNeighbor _ _ (nodup_addNeighbor _ _ hi.2)⟩
            · exact ⟨fresh_addNeighbor _ _ hi.1, nodup_addNeighbor _ _ hi.2⟩
          · split
            · exact ⟨fresh_addNeighbor _ _ hi.1, nodup_addNeighbor _ _ hi.2⟩
            · exact hi

theorem built_freshGraph {g : Graph} (h : Built g) : FreshGraph g := by
  intro v hv
  obtain ⟨i, _, rfl⟩ := exists_vtx_of_mem hv
  exact (built_vtx h i).1

/-! ## Claims on graph construction -/

/-- C8: adjacency is symmetric in every graph that `addVertex` and `addEdge` calls build
from the empty graph: whenever `b` is in the neighbor list of `a`, `a` is in the neighbor
list of `b`. -/
theorem adjacency_symmetric (g : Graph) (hg : Built g) (a b : Nat)
    (hab : b ∈ (vtx g a).neighbors) : a ∈ (vtx g b).neighbors :=
  built_symmetric hg a b hab

theorem adjacency_symmetric_witness :
    1 ∈ (vtx gAB 0).neighbors ∧ 0 ∈ (vtx gAB 1).neighbors :=
  ⟨by decide, adjacency_symmetric gAB
    (Built.addEdge _ _ (Built.addVertex _ _ _ (Built.addVertex _ _ _ Built.empty))) 0 1
    (by decide)⟩

theorem addEdge_again {g : Graph} {a b : String} {v1 v2 : Nat}
    (h1 : getVertex g a = some v1) (h2 : getVertex g b = some v2)
    (h12 : Adj g v1 v2) (h21 : Adj g v2 v1) : addEdge g a b = g := by
  unfold addEdge
  simp only [h1, h2]
  have e1 : modify g v1 (fun v => v.addNeighbor v2) = g :=
    modify_eq_self (addNeighbor_of_mem h12)
  rw [e1]
  exact modify_eq_self (addNeighbor_of_mem h21)

/-- C9: `addEdge` is idempotent and creates no duplicates: a second `addEdge a b`, or an
`addEdge b a` afterwards, leaves the graph (so every neighbor list) unchanged, and in every
graph built by `addVertex` and `addEdge` calls no neighbor list holds a vertex twice. -/
theorem addEdge_idempotent_nodup (g : Graph) (a b : String) :
    addEdge (addEdge g a b) a b = addEdge g a b ∧
    addEdge (addEdge g a b) b a = addEdge g a b ∧
    (Built g → ∀ i, (vtx g i).neighbors.Nodup) := by
  refine ⟨?_, ?_, fun hg i => (built_vtx hg i).2⟩
  · cases h1 : getVertex g a with
    | none => rw [addEdge_of_none (Or.inl h1), addEdge_of_none (Or.inl h1)]
    | some v1 =>
      cases h2 : getVertex g b with
      | none => rw [addEdge_of_none (Or.inr h2), addEdge_of_none (Or.inr h2)]
      | some v2 =>
        refine @addEdge_again _ a b v1 v2 ?_ ?_ ?_ ?_
        · rw [getVertex_addEdge]; exact h1
        · rw [getVertex_addEdge]; exact h2
        · rw [adj_addEdge]; exact Or.inr ⟨v1, v2, h1, h2, Or.inl ⟨rfl, rfl⟩⟩
        · rw [adj_addEdge]; exact Or.inr ⟨v1, v2, h1, h2, Or.inr ⟨rfl, rfl⟩⟩
  · cases h1 : getVertex g a with
    | none =>
      rw [addEdge_of_none (Or.inl h1)]
      exact addEdge_of_none (Or.inr h1)
    | some v1 =>
      cases h2 : getVertex g b with
      | none =>
        rw [addEdge_of_none (Or.inr h2)]
        exact addEdge_of_none (Or.inl h2)
      | some v2 =>
        refine @addEdge_again _ b a v2 v1 ?_ ?_ ?_ ?_
        · rw [getVertex_addEdge]; exact h2
        · rw [getVertex_addEdge]; exact h1
        · rw [adj_addEdge]; exact Or.inr ⟨v1, v2, h1, h2, Or.inr ⟨rfl, rfl⟩⟩
        · rw [adj_addEdge]; exact Or.inr ⟨v1, v2, h1, h2, Or.inl ⟨rfl, rfl⟩⟩

theorem addEdge_idempotent_nodup_witness :
    Built gAB ∧ (vtx gAB 0).neighbors.Nodup :=
  have hb : Built gAB :=
    Built.addEdge _ _ (Built.addVertex _ _ _ (Built.addVertex _ _ _ Built.empty))
  ⟨hb, (addEdge_idempotent_nodup gAB "A" "B").2.2 hb 0⟩

/-- C10, as the claim states it, fails: a second `addVertex` with the name of an existing
vertex is accepted, the store grows to two vertices and both carry the name `A`. -/
theorem addVertex_duplicate_accepted :
    getVertex (addVertex [] "A" 0 0) "A" = some 0 ∧
    addVertex (addVertex [] "A" 0 0) "A" 1 1 ≠ addVertex [] "A" 0 0 ∧
    (addVertex (addVertex [] "A" 0 0) "A" 1 1).map (fun v => v.city) = ["A", "A"] := by
  decide!

/-- C10, amended: `addVertex` reports no failure and always appends one vertex in fresh
state with the given name and coordinates, leaving the vertices already stored as they
are; when the name already exists, `getVertex` keeps returning the earlier vertex. -/
theorem addVertex_appends (g : Graph) (city : String) (lat lon : ℚ) :
    (addVertex g city lat lon).length = g.length + 1 ∧
    (∀ i, i < g.length → vtx (addVertex g city lat lon) i = vtx g i) ∧
    vtx (addVertex g city lat lon) g.length = Vertex.new city lat lon ∧
    (∀ i, getVertex g city = some i → getVertex (addVertex g city lat lon) city = some i) :=
  ⟨length_addVertex g city lat lon, fun _ hi => vtx_addVertex_lt city lat lon hi,
    vtx_addVertex_new g city lat lon, fun i hi => getVertexFrom_append _ g 0 i hi⟩

theorem addVertex_appends_witness :
    getVertex (addVertex [] "A" 0 0) "A" = some 0 ∧ getVertex gAA "A" = some 0 ∧
    vtx gAA 0 = vtx (addVertex [] "A" 0 0) 0 :=
  ⟨by decide, (addVertex_appends (addVertex [] "A" 0 0) "A" 1 1).2.2.2 0 (by decide),
    (addVertex_appends (addVertex [] "A" 0 0) "A" 1 1).2.1 0 (by decide)⟩

/-! ## The binary heap -/

theorem length_swap (heap : List Nat) (i j : Nat) : (swap heap i j).length = heap.length := by
  simp [swap]

theorem getD_swap {heap : List Nat} {i j : Nat} (hi : i < heap.length) (hj : j < heap.length)
    (k : Nat) :
    (swap heap i j).getD k 0 =
      if k = j then heap.getD i 0 else if k = i then heap.getD j 0 else heap.getD k 0 := by
  unfold swap
  simp only [List.getD_eq_getElem?_getD, List.getElem?_set, List.length_set]
  by_cases e1 : j = k
  · subst e1; simp [hj]
  · have e1' : ¬ k = j := fun h => e1 h.symm
    simp only [e1, e1', if_false]
    by_cases e2 : i = k
    · subst e2; simp [hi]
    · have e2' : ¬ k = i := fun h => e2 h.symm
      simp [e2, e2']

theorem key_swap (g : Graph) {heap : List Nat} {i j : Nat} (hi : i < heap.length)
    (hj : j < heap.length) (k : Nat) :
    key g (swap heap i j) k =
      if k = j then key g heap i else if k = i then key g heap j else key g heap k := by
  unfold key
  rw [getD_swap hi hj]
  split
  · rfl
  · split <;> rfl

theorem mem_swap {heap : List Nat} {i j : Nat} (hi : i < heap.length) (hj : j < heap.length)
    (x : Nat) : x ∈ swap heap i j ↔ x ∈ heap := by
  have getD_mem : ∀ (l : List Nat) (k : Nat), k < l.length → l.getD k 0 ∈ l := by
    intro l k hk
    rw [List.getD_eq_getElem _ _ hk]
    exact List.getElem_mem hk
  have mem_getD : ∀ (l : List Nat) (y : Nat), y ∈ l → ∃ k, k < l.length ∧ l.getD k 0 = y := by
    intro l y hy
    obtain ⟨k, hk, rfl⟩ := List.mem_iff_getElem.mp hy
    exact ⟨k, hk, List.getD_eq_getElem _ _ hk⟩
  constructor
  · intro hx
    obtain ⟨k, hk, rfl⟩ := mem_getD _ _ hx
    rw [length_swap] at hk
    rw [getD_swap hi hj]
    split
    · exact getD_mem _ _ hi
    · split
      · exact getD_mem _ _ hj
      · exact getD_mem _ _ hk
  · intro hx
    obtain ⟨k, hk, rfl⟩ := mem_getD _ _ hx
    by_cases e1 : k = i
    · subst e1
      have := getD_mem (swap heap k j) j (by rw [length_swap]; exact hj)
      rwa [getD_swap hi hj, if_pos rfl] at this
    · by_cases e2 : k = j
      · subst e2
        have := getD_mem (swap heap i k) i (by rw [length_swap]; exact hi)
        rw [getD_swap hi hj] at this
        by_cases e3 : i = k
        · subst e3; rw [if_pos rfl] at this; exact this
        · rw [if_neg e3, if_pos rfl] at this; exact this
      · have := getD_mem (swap heap i j) k (by rw [length_swap]; exact hk)
        rwa [getD_swap hi hj, if_neg e2, if_neg e1] at this

theorem getParent_lt {i : Nat} (h : 0 < i) : getParent i < i := by
  unfold getParent; omega

theorem heapifyUpAux_isHeap (g : Graph) :
    ∀ (fuel : Nat) (heap : List Nat) (k : Nat), k < fuel → k < heap.length →
      UpInv g heap k → IsHeap g (heapifyUpAux g fuel heap k)
  | 0, _, _, hf, _, _ => absurd hf (Nat.not_lt_zero _)
  | fuel + 1, heap, k, hf, hk, hinv => by
      unfold heapifyUpAux
      by_cases hk0 : k = 0
      · rw [if_pos hk0]
        intro i hi0 hil
        exact hinv.1 i hi0 hil (by omega)
      · rw [if_neg hk0]
        have hp : getParent k < k := getParent_lt (Nat.pos_of_ne_zero hk0)
        have hpl : getParent k < heap.length := Nat.lt_trans hp hk
        simp only
        by_cases hlt : key g heap k < key g heap (getParent k)
        · rw [if_pos hlt]
          apply heapifyUpAux_isHeap g fuel _ _ (by omega) (by rw [length_swap]; exact hpl)
          constructor
          · intro i hi0 hil hine
            rw [length_swap] at hil
            rw [key_swap g hk hpl, key_swap g hk hpl]
            have hpi : getParent i < i := getParent_lt hi0
            by_cases e1 : i = k
            · subst e1
              rw [if_neg hine, if_pos rfl, if_pos rfl]
              exact le_of_lt hlt
            · rw [if_neg hine, if_neg e1]
              by_cases e2 : getParent i = getParent k
              · rw [if_pos e2]
                exact le_trans (le_of_lt hlt) (e2 ▸ hinv.1 i hi0 hil e1)
              · rw [if_neg e2]
                by_cases e3 : getParent i = k
                · rw [if_pos e3]
                  exact hinv.2 i hi0 hil e3 (Nat.pos_of_ne_zero hk0)
                · rw [if_neg e3]
                  exact hinv.1 i hi0 hil e1
          · intro i hi0 hil hpar hp0
            rw [length_swap] at hil
            rw [key_swap g hk hpl, key_swap g hk hpl]
            have hpp : getParent (getParent k) < getParent k := getParent_lt hp0
            have n1 : ¬ getParent (getParent k) = getParent k := by omega
            have n2 : ¬ getParent (getParent k) = k := by omega
            have hpi : getParent i < i := getParent_lt hi0
            have n3 : ¬ i = getParent k := by omega
            rw [if_neg n1, if_neg n2, if_neg n3]
            have h1 : key g heap (getParent (getParent k)) ≤ key g heap (getParent k) :=
              hinv.1 (getParent k) hp0 hpl (by omega)
            by_cases e1 : i = k
            · rw [if_pos e1]
              exact h1
            · rw [if_neg e1]
              exact le_trans h1 (hpar ▸ hinv.1 i hi0 hil e1)
        · rw [if_neg hlt]
          intro i hi0 hil
          by_cases e1 : i = k
          · subst e1; exact not_lt.mp hlt
          · exact hinv.1 i hi0 hil e1

/-- The recursion of `heapifyUp` never runs out of fuel: any fuel above the index gives the
same result. -/
theorem heapifyUpAux_fuel (g : Graph) :
    ∀ (fuel1 fuel2 : Nat) (heap : List Nat) (k : Nat), k < fuel1 → k < fuel2 →
      heapifyUpAux g fuel1 heap k = heapifyUpAux g fuel2 heap k
  | 0, _, _, _, h1, _ => absurd h1 (Nat.not_lt_zero _)
  | _ + 1, 0, _, _, _, h2 => absurd h2 (Nat.not_lt_zero _)
  | fuel1 + 1, fuel2 + 1, heap, k, h1, h2 => by
      unfold heapifyUpAux
      by_cases hk0 : k = 0
      · rw [if_pos hk0, if_pos hk0]
      · rw [if_neg hk0, if_neg hk0]
        have hp : getParent k < k := getParent_lt (Nat.pos_of_ne_zero hk0)
        simp only
        split
        · exact heapifyUpAux_fuel g fuel1 fuel2 _ _ (by omega) (by omega)
        · rfl

theorem length_heapifyUpAux (g : Graph) :
    ∀ (fuel : Nat) (heap : List Nat) (k : Nat),
      (heapifyUpAux g fuel heap k).length = heap.length
  | 0, _, _ => rfl
  | fuel + 1, heap, k => by
      unfold heapifyUpAux
      split
      · rfl
      · simp only
        split
        · rw [length_heapifyUpAux g fuel, length_swap]
        · rfl

theorem mem_heapifyUpAux (g : Graph) (x : Nat) :
    ∀ (fuel : Nat) (heap : List Nat) (k : Nat), k < heap.length →
      (x ∈ heapifyUpAux g fuel heap k ↔ x ∈ heap)
  | 0, _, _, _ => Iff.rfl
  | fuel + 1, heap, k, hk => by
      unfold heapifyUpAux
      split
      · rfl
      · rename_i hk0
        have hp : getParent k < k := getParent_lt (Nat.pos_of_ne_zero hk0)
        have hpl : getParent k < heap.length := Nat.lt_trans hp hk
        simp only
        split
        · rw [mem_heapifyUpAux g x fuel _ _ (by rw [length_swap]; exact hpl), mem_swap hk hpl]
        · rfl

theorem key_append_lt (g : Graph) (heap : List Nat) (e : Nat) {i : Nat} (h : i < heap.length) :
    key g (heap ++ [e]) i = key g heap i := by
  unfold key
  rw [List.getD_append _ _ _ _ h]

theorem insert_isHeap (g : Graph) (heap : List Nat) (e : Nat) (h : IsHeap g heap) :
    IsHeap g (insert g heap e) := by
  unfold insert heapifyUp
  apply heapifyUpAux_isHeap g _ _ _ (Nat.lt_succ_self _) (by simp)
  constructor
  · intro i hi0 hil hine
    have hil' : i < heap.length := by
      simp only [List.length_append, List.length_singleton] at hil
      omega
    have hp : getParent i < i := getParent_lt hi0
    rw [key_append_lt g heap e hil', key_append_lt g heap e (Nat.lt_trans hp hil')]
    exact h i hi0 hil'
  · intro i hi0 hil hpar _
    have hp : getParent i < i := getParent_lt hi0
    simp only [List.length_append, List.length_singleton] at hil
    omega

theorem length_insert (g : Graph) (heap : List Nat) (e : Nat) :
    (insert g heap e).length = heap.length + 1 := by
  unfold insert heapifyUp
  rw [length_heapifyUpAux]
  simp

theorem mem_insert (g : Graph) (heap : List Nat) (e x : Nat) :
    x ∈ insert g heap e ↔ x ∈ heap ∨ x = e := by
  unfold insert heapifyUp
  rw [mem_heapifyUpAux g x _ _ _ (by simp)]
  simp

theorem heapifyDownAux_succ (g : Graph) (fuel : Nat) (heap : List Nat) (k : Nat) :
    heapifyDownAux g (fuel + 1) heap k =
      if smallestSlot g heap k ≠ k then
        heapifyDownAux g fuel (swap heap k (smallestSlot g heap k)) (smallestSlot g heap k)
      else heap := rfl

theorem smallestSlot_cases (g : Graph) (heap : List Nat) (k : Nat) :
    smallestSlot g heap k = k ∨
    (smallestSlot g heap k = 2 * k + 1 ∧ 2 * k + 1 < heap.length) ∨
    (smallestSlot g heap k = 2 * k + 2 ∧ 2 * k + 2 < heap.length) := by
  unfold smallestSlot getLeftChild getRightChild
  simp only
  by_cases hl : 2 * k + 1 < heap.length ∧ key g heap (2 * k + 1) < key g heap k
  · rw [if_pos hl]
    by_cases hr : 2 * k + 2 < heap.length ∧ key g heap (2 * k + 2) < key g heap (2 * k + 1)
    · rw [if_pos hr]; exact Or.inr (Or.inr ⟨rfl, hr.1⟩)
    · rw [if_neg hr]; exact Or.inr (Or.inl ⟨rfl, hl.1⟩)
  · rw [if_neg hl]
    by_cases hr : 2 * k + 2 < heap.length ∧ key g heap (2 * k + 2) < key g heap k
    · rw [if_pos hr]; exact Or.inr (Or.inr ⟨rfl, hr.1⟩)
    · rw [if_neg hr]; exact Or.inl rfl

theorem smallestSlot_le (g : Graph) (heap : List Nat) (k : Nat) :
    key g heap (smallestSlot g heap k) ≤ key g heap k ∧
    (2 * k + 1 < heap.length → key g heap (smallestSlot g heap k) ≤ key g heap (2 * k + 1)) ∧
    (2 * k + 2 < heap.length → key g heap (smallestSlot g heap k) ≤ key g heap (2 * k + 2)) := by
  unfold smallestSlot getLeftChild getRightChild
  simp only
  by_cases hl : 2 * k + 1 < heap.length ∧ key g heap (2 * k + 1) < key g heap k
  · rw [if_pos hl]
    by_cases hr : 2 * k + 2 < heap.length ∧ key g heap (2 * k + 2) < key g heap (2 * k + 1)
    · rw [if_pos hr]
      exact ⟨le_of_lt (lt_trans hr.2 hl.2), fun _ => le_of_lt hr.2, fun _ => le_refl _⟩
    · rw [if_neg hr]
      refine ⟨le_of_lt hl.2, fun _ => le_refl _, fun h2 => ?_⟩
      exact not_lt.mp (fun hc => hr ⟨h2, hc⟩)
  · rw [if_neg hl]
    by_cases hr : 2 * k + 2 < heap.length ∧ key g heap (2 * k + 2) < key g heap k
    · rw [if_pos hr]
      refine ⟨le_of_lt hr.2, fun h1 => ?_, fun _ => le_refl _⟩
      exact le_trans (le_of_lt hr.2) (not_lt.mp (fun hc => hl ⟨h1, hc⟩))
    · rw [if_neg hr]
      exact ⟨le_refl _, fun h1 => not_lt.mp (fun hc => hl ⟨h1, hc⟩),
        fun h2 => not_lt.mp (fun hc => hr ⟨h2, hc⟩)⟩

theorem smallestSlot_lt (g : Graph) (heap : List Nat) (k : Nat)
    (h : smallestSlot g heap k ≠ k) : key g heap (smallestSlot g heap k) < key g heap k := by
  revert h
  unfold smallestSlot getLeftChild getRightChild
  simp only
  by_cases hl : 2 * k + 1 < heap.length ∧ key g heap (2 * k + 1) < key g heap k
  · rw [if_pos hl]
    by_cases hr : 2 * k + 2 < heap.length ∧ key g heap (2 * k + 2) < key g heap (2 * k + 1)
    · rw [if_pos hr]; intro _; exact lt_trans hr.2 hl.2
    · rw [if_neg hr]; intro _; exact hl.2
  · rw [if_neg hl]
    by_cases hr : 2 * k + 2 < heap.length ∧ key g heap (2 * k + 2) < key g heap k
    · rw [if_pos hr]; intro _; exact hr.2
    · rw [if_neg hr]; intro h; exact absurd rfl h

theorem child_of_parent {i k : Nat} (hi : 0 < i) (h : getParent i = k) :
    i = 2 * k + 1 ∨ i = 2 * k + 2 := by
  unfold getParent at h; omega

theorem heapifyDownAux_isHeap (g : Graph) :
    ∀ (fuel : Nat) (heap : List Nat) (k : Nat), heap.length < fuel + k →
      DownInv g heap k → IsHeap g (heapifyDownAux g fuel heap k)
  | 0, heap, k, hf, hinv => by
      show IsHeap g heap
      intro i hi0 hil
      have hp : getParent i < i := getParent_lt hi0
      exact hinv.1 i hi0 hil (by omega)
  | fuel + 1, heap, k, hf, hinv => by
      rw [heapifyDownAux_succ]
      have hle := smallestSlot_le g heap k
      by_cases hs : smallestSlot g heap k ≠ k
      · rw [if_pos hs]
        have hlt := smallestSlot_lt g heap k hs
        have hcase := smallestSlot_cases g heap k
        generalize smallestSlot g heap k = s at hs hlt hcase hle ⊢
        have hsl : s < heap.length := by
          rcases hcase with h | h | h
          · exact absurd h hs
          · omega
          · omega
        have hks : k < s := by
          rcases hcase with h | h | h
          · exact absurd h hs
          · omega
          · omega
        have hkl : k < heap.length := Nat.lt_trans hks hsl
        have hps : getParent s = k := by
          unfold getParent
          rcases hcase with h | h | h
          · exact absurd h hs
          · omega
          · omega
        apply heapifyDownAux_isHeap g fuel _ _ (by rw [length_swap]; omega)
        constructor
        · intro i hi0 hil hpar
          rw [length_swap] at hil
          rw [key_swap g hkl hsl, key_swap g hkl hsl]
          have hpi : getParent i < i := getParent_lt hi0
          by_cases e1 : i = s
          · subst e1
            have n1 : ¬ getParent i = i := by omega
            rw [hps, if_neg (by omega : ¬ k = i), if_pos rfl, if_pos rfl]
            exact le_of_lt hlt
          · rw [if_neg hpar, if_neg e1]
            by_cases e2 : i = k
            · subst e2
              have n2 : ¬ getParent i = i := by omega
              rw [if_neg n2, if_pos rfl]
              exact hinv.2 s (by omega) hsl hps hi0
            · rw [if_neg e2]
              by_cases e3 : getParent i = k
              · rw [if_pos e3]
                rcases child_of_parent hi0 e3 with h | h
                · exact hle.2.1 (h ▸ hil) |>.trans (le_of_eq (by rw [h]))
                · exact hle.2.2 (h ▸ hil) |>.trans (le_of_eq (by rw [h]))
              · rw [if_neg e3]
                exact hinv.1 i hi0 hil e3
        · intro i hi0 hil hpar hs0
          rw [length_swap] at hil
          rw [key_swap g hkl hsl, key_swap g hkl hsl]
          have hpi : getParent i < i := getParent_lt hi0
          rw [hps, if_neg (by omega : ¬ k = s), if_pos rfl, if_neg (by omega : ¬ i = s),
            if_neg (by omega : ¬ i = k)]
          have := hinv.1 i hi0 hil (by omega)
          rwa [hpar] at this
      · rw [if_neg hs]
        have hs' : smallestSlot g heap k = k := not_not.mp hs
        rw [hs'] at hle
        intro i hi0 hil
        by_cases e3 : getParent i = k
        · rw [e3]
          rcases child_of_parent hi0 e3 with h | h
          · rw [h] at hil ⊢; exact hle.2.1 hil
          · rw [h] at hil ⊢; exact hle.2.2 hil
        · exact hinv.1 i hi0 hil e3

/-- The recursion of `heapifyDown` never runs out of fuel: any fuel above the number of
slots from the index to the end of the heap gives the same result. -/
theorem heapifyDownAux_fuel (g : Graph) :
    ∀ (fuel1 fuel2 : Nat) (heap : List Nat) (k : Nat), heap.length < fuel1 + k →
      heap.length < fuel2 + k → heapifyDownAux g fuel1 heap k = heapifyDownAux g fuel2 heap k
  | 0, 0, _, _, _, _ => rfl
  | 0, fuel2 + 1, heap, k, h1, _ => by
      rw [heapifyDownAux_succ]
      rcases smallestSlot_cases g heap k with h | h | h
      · rw [if_neg (not_not.mpr h)]; rfl
      · omega
      · omega
  | fuel1 + 1, 0, heap, k, _, h2 => by
      rw [heapifyDownAux_succ]
      rcases smallestSlot_cases g heap k with h | h | h
      · rw [if_neg (not_not.mpr h)]; rfl
      · omega
      · omega
  | fuel1 + 1, fuel2 + 1, heap, k, h1, h2 => by
      rw [heapifyDownAux_succ, heapifyDownAux_succ]
      by_cases hs : smallestSlot g heap k ≠ k
      · rw [if_pos hs, if_pos hs]
        have hks : k < smallestSlot g heap k := by
          rcases smallestSlot_cases g heap k with h | h | h
          · exact absurd h hs
          · omega
          · omega
        exact heapifyDownAux_fuel g fuel1 fuel2 _ _ (by rw [length_swap]; omega)
          (by rw [length_swap]; omega)
      · rw [if_neg hs, if_neg hs]

theorem length_heapifyDownAux (g : Graph) :
    ∀ (fuel : Nat) (heap : List Nat) (k : Nat),
      (heapifyDownAux g fuel heap k).length = heap.length
  | 0, _, _ => rfl
  | fuel + 1, heap, k => by
      rw [heapifyDownAux_succ]
      split
      · rw [length_heapifyDownAux g fuel, length_swap]
      · rfl

theorem mem_heapifyDownAux (g : Graph) (x : Nat) :
    ∀ (fuel : Nat) (heap : List Nat) (k : Nat), k < heap.length →
      (x ∈ heapifyDownAux g fuel heap k ↔ x ∈ heap)
  | 0, _, _, _ => Iff.rfl
  | fuel + 1, heap, k, hk => by
      rw [heapifyDownAux_succ]
      split
      · rename_i hs
        have hsl : smallestSlot g heap k < heap.length := by
          rcases smallestSlot_cases g heap k with h | h | h
          · exact absurd h hs
          · omega
          · omega
        rw [mem_heapifyDownAux g x fuel _ _ (by rw [length_swap]; exact hsl), mem_swap hk hsl]
      · rfl

theorem isHeap_root_le {g : Graph} {heap : List Nat} (h : IsHeap g heap) :
    ∀ i, i < heap.length → key g heap 0 ≤ key g heap i := by
  intro i
  induction i using Nat.strong_induction_on with
  | _ i ih =>
    intro hil
    by_cases hi0 : i = 0
    · subst hi0; exact le_refl _
    · have hi : 0 < i := Nat.pos_of_ne_zero hi0
      have hp : getParent i < i := getParent_lt hi
      exact le_trans (ih _ hp (Nat.lt_trans hp hil)) (h i hi hil)

theorem extractMin_cons (g : Graph) (m : Nat) (t : List Nat) :
    extractMin g (m :: t) =
      some (m, heapifyDown g (((m :: t).set 0 ((m :: t).getLast?.getD 0)).dropLast) 0) := rfl

theorem getD_moved_last {heap : List Nat} {x : Nat} (hx0 : x ≠ 0) (hx : x < heap.length - 1) :
    ((heap.set 0 (heap.getLast?.getD 0)).dropLast).getD x 0 = heap.getD x 0 := by
  simp only [List.getD_eq_getElem?_getD, List.getElem?_dropLast, List.length_set,
    List.getElem?_set]
  rw [if_pos hx, if_neg (fun h => hx0 h.symm)]

theorem moved_last_perm (m : Nat) (t : List Nat) :
    List.Perm (((m :: t).set 0 ((m :: t).getLast?.getD 0)).dropLast) t := by
  rcases List.eq_nil_or_concat t with rfl | ⟨t', l, rfl⟩
  · simp
  · rw [List.concat_eq_append]
    have h1 : (m :: (t' ++ [l])).getLast? = some l := by
      rw [← List.cons_append, List.getLast?_append]
      simp
    rw [h1]
    simp only [List.set_cons_zero, Option.getD_some]
    rw [← List.cons_append, List.dropLast_concat]
    exact (List.perm_append_singleton l t').symm

theorem extractMin_isHeap {g : Graph} {heap rest : List Nat} {m : Nat} (h : IsHeap g heap)
    (he : extractMin g heap = some (m, rest)) : IsHeap g rest := by
  cases heap with
  | nil => simp [extractMin] at he
  | cons a t =>
    rw [extractMin_cons] at he
    simp only [Option.some.injEq, Prod.mk.injEq] at he
    rw [← he.2]
    unfold heapifyDown
    apply heapifyDownAux_isHeap g _ _ _ (by omega)
    constructor
    · intro i hi0 hil hpar
      have hlen : (((a :: t).set 0 ((a :: t).getLast?.getD 0)).dropLast).length
          = (a :: t).length - 1 := by simp
      rw [hlen] at hil
      have hp : getParent i < i := getParent_lt hi0
      unfold key
      rw [getD_moved_last (by omega) hil, getD_moved_last hpar (by omega)]
      exact h i hi0 (by omega)
    · intro i _ _ _ h0
      exact absurd h0 (Nat.lt_irrefl 0)

theorem extractMin_mem {g : Graph} {heap rest : List Nat} {m : Nat}
    (he : extractMin g heap = some (m, rest)) (x : Nat) : x ∈ heap ↔ x = m ∨ x ∈ rest := by
  cases heap with
  | nil => simp [extractMin] at he
  | cons a t =>
    rw [extractMin_cons] at he
    simp only [Option.some.injEq, Prod.mk.injEq] at he
    rw [← he.1, ← he.2]
    have hperm := moved_last_perm a t
    by_cases ht : t = []
    · subst ht
      simp [heapifyDown, heapifyDownAux_succ, smallestSlot, getLeftChild, getRightChild]
    · have hpos : 0 < (((a :: t).set 0 ((a :: t).getLast?.getD 0)).dropLast).length := by
        rw [hperm.length_eq]
        exact List.length_pos.mpr ht
      unfold heapifyDown
      rw [mem_heapifyDownAux g x _ _ 0 hpos, hperm.mem_iff]
      simp

theorem extractMin_length {g : Graph} {heap rest : List Nat} {m : Nat}
    (he : extractMin g heap = some (m, rest)) : heap.length = rest.length + 1 := by
  cases heap with
  | nil => simp [extractMin] at he
  | cons a t =>
    rw [extractMin_cons] at he
    simp only [Option.some.injEq, Prod.mk.injEq] at he
    rw [← he.2]
    unfold heapifyDown
    rw [length_heapifyDownAux, (moved_last_perm a t).length_eq]
    simp

theorem extractMin_eq_none {g : Graph} {heap : List Nat} :
    extractMin g heap = none ↔ heap = [] := by
  cases heap with
  | nil => simp [extractMin]
  | cons a t => simp [extractMin_cons]

theorem heapReach_isHeap {g : Graph} {heap : List Nat} (h : HeapReach g heap) :
    IsHeap g heap := by
  induction h with
  | empty => intro i _ hil; simp at hil
  | insert e _ ih => exact insert_isHeap g _ e ih
  | extractMin _ he ih => exact extractMin_isHeap ih he

/-! ## Claim on the heap -/

/-- C7: on a non-empty heap obtained from the empty heap by `insert` and `extractMin` calls
(the vertices' distances staying as they are), `extractMin` returns an entry whose
`shortestDistance` is at most that of every entry in the heap. -/
theorem extractMin_returns_minimum (g : Graph) (heap : List Nat) (hr : HeapReach g heap)
    (hne : heap ≠ []) :
    ∃ m rest, extractMin g heap = some (m, rest) ∧
      ∀ x ∈ heap, (vtx g m).shortestDistance ≤ (vtx g x).shortestDistance := by
  cases heap with
  | nil => exact absurd rfl hne
  | cons a t =>
    refine ⟨a, _, extractMin_cons g a t, ?_⟩
    intro x hx
    obtain ⟨i, hi, rfl⟩ := List.mem_iff_getElem.mp hx
    have := isHeap_root_le (heapReach_isHeap hr) i hi
    unfold key at this
    rw [List.getD_eq_getElem _ _ hi] at this
    simpa using this

theorem extractMin_returns_minimum_witness :
    insert gDist (insert gDist (insert gDist [] 0) 1) 2 ≠ [] ∧
    ∃ m rest, extractMin gDist (insert gDist (insert gDist (insert gDist [] 0) 1) 2)
        = some (m, rest) ∧
      ∀ x ∈ insert gDist (insert gDist (insert gDist [] 0) 1) 2,
        (vtx gDist m).shortestDistance ≤ (vtx gDist x).shortestDistance :=
  ⟨by decide!, extractMin_returns_minimum gDist _
    (HeapReach.insert 2 (HeapReach.insert 1 (HeapReach.insert 0 HeapReach.empty)))
    (by decide!)⟩

/-! ## Frame properties of a run -/

theorem Evolves.refl (g : Graph) : Evolves g g :=
  ⟨rfl, fun _ => rfl, fun _ => rfl, fun _ => rfl, fun _ => rfl, fun _ _ => rfl,
    fun _ h => h, fun _ => le_refl _⟩

theorem Evolves.trans {g1 g2 g3 : Graph} (h12 : Evolves g1 g2) (h23 : Evolves g2 g3) :
    Evolves g1 g3 where
  length_eq := h23.length_eq.trans h12.length_eq
  city_eq i := (h23.city_eq i).trans (h12.city_eq i)
  latitude_eq i := (h23.latitude_eq i).trans (h12.latitude_eq i)
  longitude_eq i := (h23.longitude_eq i).trans (h12.longitude_eq i)
  neighbors_eq i := (h23.neighbors_eq i).trans (h12.neighbors_eq i)
  visited_frozen i h := by
    have e := h12.visited_frozen i h
    rw [h23.visited_frozen i (by rw [e]; exact h), e]
  settled_mono i h := h23.settled_mono i (h12.settled_mono i h)
  distance_mono i := le_trans (h23.distance_mono i) (h12.distance_mono i)

theorem Evolves.visited_mono {g g' : Graph} (h : Evolves g g') (i : Nat)
    (hv : (vtx g i).visited = true) : (vtx g' i).visited = true := by
  rw [h.visited_frozen i hv]; exact hv

theorem evolves_modify (g : Graph) (i : Nat) (f : Vertex → Vertex)
    (hc : ∀ v, (f v).city = v.city) (hla : ∀ v, (f v).latitude = v.latitude)
    (hlo : ∀ v, (f v).longitude = v.longitude) (hn : ∀ v, (f v).neighbors = v.neighbors)
    (hs : ∀ v, v.settled = true → (f v).settled = true)
    (hd : (f (vtx g i)).shortestDistance ≤ (vtx g i).shortestDistance)
    (hv : (vtx g i).visited = false) : Evolves g (modify g i f) where
  length_eq := length_modify g i f
  city_eq j := by rw [vtx_modify]; split <;> simp [hc]
  latitude_eq j := by rw [vtx_modify]; split <;> simp [hla]
  longitude_eq j := by rw [vtx_modify]; split <;> simp [hlo]
  neighbors_eq j := by rw [vtx_modify]; split <;> simp [hn]
  visited_frozen j h := by
    rw [vtx_modify]
    split
    · rename_i hc; rw [← hc.1, hv] at h; cases h
    · rfl
  settled_mono j h := by
    rw [vtx_modify]
    split
    · exact hs _ h
    · exact h
  distance_mono j := by
    rw [vtx_modify]
    split
    · rename_i hc; rw [← hc.1]; exact hd
    · exact le_refl _

theorem evaluateDistanceAndPath_evolves (g : Graph) (adj src : Nat) (w : ℚ)
    (hv : (vtx g adj).visited = false) :
    Evolves g (evaluateDistanceAndPath g adj src w) := by
  unfold evaluateDistanceAndPath
  simp only
  split
  · rename_i hlt
    exact evolves_modify g adj _ (fun _ => rfl) (fun _ => rfl) (fun _ => rfl) (fun _ => rfl)
      (fun _ h => h) (le_of_lt hlt) hv
  · exact Evolves.refl g

theorem evaluateDistanceAndPath_visited (g : Graph) (adj src : Nat) (w : ℚ) (i : Nat) :
    (vtx (evaluateDistanceAndPath g adj src w) i).visited = (vtx g i).visited := by
  unfold evaluateDistanceAndPath
  simp only
  split
  · rw [vtx_modify]; split <;> rfl
  · rfl

theorem evaluateDistanceAndPath_settled (g : Graph) (adj src : Nat) (w : ℚ) (i : Nat) :
    (vtx (evaluateDistanceAndPath g adj src w) i).settled = (vtx g i).settled := by
  unfold evaluateDistanceAndPath
  simp only
  split
  · rw [vtx_modify]; split <;> rfl
  · rfl

theorem relaxNeighbor_evolves (hav : Haversine) (cur : Nat) (s : Run) (adj : Nat) :
    Evolves s.graph (relaxNeighbor hav cur s adj).graph := by
  unfold relaxNeighbor
  split
  · exact Evolves.refl _
  · rename_i hv
    have hv' : (vtx s.graph adj).visited = false := by simpa using hv
    have h1 := evaluateDistanceAndPath_evolves s.graph adj cur
      ((vtx s.graph cur).calculateDistance hav (vtx s.graph adj)) hv'
    simp only
    split
    · exact h1
    · refine h1.trans (evolves_modify _ adj (fun v => { v with settled := true })
        (fun _ => rfl) (fun _ => rfl) (fun _ => rfl) (fun _ => rfl) (fun _ _ => rfl)
        (le_refl _) ?_)
      rw [evaluateDistanceAndPath_visited]; exact hv'

theorem foldl_relaxNeighbor_evolves (hav : Haversine) (cur : Nat) :
    ∀ (l : List Nat) (s : Run), Evolves s.graph (l.foldl (relaxNeighbor hav cur) s).graph
  | [], s => Evolves.refl _
  | a :: l, s => by
      rw [List.foldl_cons]
      exact (relaxNeighbor_evolves hav cur s a).trans
        (foldl_relaxNeighbor_evolves hav cur l _)

theorem markVisited_evolves (g : Graph) (cur : Nat) (hv : (vtx g cur).visited = false) :
    Evolves g (modify g cur (fun v => { v with visited := true })) :=
  evolves_modify g cur _ (fun _ => rfl) (fun _ => rfl) (fun _ => rfl) (fun _ => rfl)
    (fun _ h => h) (le_refl _) hv

theorem step_evolves (hav : Haversine) {s s' : Run} (h : step hav s = some s') :
    Evolves s.graph s'.graph := by
  unfold step at h
  split at h
  · cases h
  · rename_i cur heap1 he
    split at h
    · cases h; exact Evolves.refl _
    · rename_i hv
      have hv' : (vtx s.graph cur).visited = false := by simpa using hv
      cases h
      exact (markVisited_evolves s.graph cur hv').trans
        (foldl_relaxNeighbor_evolves hav cur _ { graph := _, heap := heap1 })

theorem step_eq_none {hav : Haversine} {s : Run} : step hav s = none ↔ s.heap = [] := by
  unfold step
  constructor
  · intro h
    split at h
    · rename_i he; exact extractMin_eq_none.mp he
    · split at h <;> cases h
  · intro h
    rw [extractMin_eq_none.mpr h]

theorem loop_succ (hav : Haversine) (fuel : Nat) (s : Run) :
    loop hav (fuel + 1) s =
      match step hav s with
      | none => s
      | some s1 => loop hav fuel s1 := by
  rw [loop]
  by_cases h : isEmpty s.heap = true
  · have he : s.heap = [] := by simpa [isEmpty] using h
    rw [if_pos h, step_eq_none.mpr he]
  · rw [if_neg h]

theorem loop_evolves (hav : Haversine) :
    ∀ (fuel : Nat) (s : Run), Evolves s.graph (loop hav fuel s).graph
  | 0, s => Evolves.refl _
  | fuel + 1, s => by
      rw [loop_succ]
      split
      · exact Evolves.refl _
      · rename_i s1 h1
        exact (step_evolves hav h1).trans (loop_evolves hav fuel s1)

/-! ## Termination of the `while` loop -/

theorem wellFormed_neighborsValid {g : Graph} (h : WellFormed g) : NeighborsValid g := by
  intro i j hj
  by_cases hi : i < g.length
  · exact h _ (vtx_mem hi) j hj
  · rw [vtx_of_le (Nat.le_of_not_lt hi)] at hj
    simp [default_neighbors] at hj

theorem Evolves.neighborsValid {g g' : Graph} (h : Evolves g g') (hg : NeighborsValid g) :
    NeighborsValid g' := by
  intro i j hj
  rw [h.neighbors_eq] at hj
  rw [h.length_eq]
  exact hg i j hj

theorem countP_modify_same (p : Vertex → Bool) (g : Graph) (i : Nat) (f : Vertex → Vertex)
    (h : p (f (vtx g i)) = p (vtx g i)) : (modify g i f).countP p = g.countP p := by
  unfold modify
  by_cases hi : i < g.length
  · rw [List.countP_set p g i _ hi, h, vtx_eq_getElem hi]
    by_cases hp : p g[i] = true
    · have hpos : 0 < g.countP p := List.countP_pos_iff.mpr ⟨g[i], List.getElem_mem hi, hp⟩
      simp only [hp, if_true]
      omega
    · simp [hp]
  · rw [List.set_eq_of_length_le (Nat.le_of_not_lt hi)]

theorem countP_modify_drop (p : Vertex → Bool) (g : Graph) (i : Nat) (f : Vertex → Vertex)
    (hi : i < g.length) (h1 : p (vtx g i) = true) (h2 : p (f (vtx g i)) = false) :
    (modify g i f).countP p + 1 = g.countP p := by
  unfold modify
  rw [List.countP_set p g i _ hi, h2]
  rw [vtx_eq_getElem hi] at h1
  have hpos : 0 < g.countP p := List.countP_pos_iff.mpr ⟨g[i], List.getElem_mem hi, h1⟩
  simp only [h1, if_true]
  simp
  omega

theorem evaluateDistanceAndPath_countP (g : Graph) (adj src : Nat) (w : ℚ) :
    (evaluateDistanceAndPath g adj src w).countP (fun v => !v.settled)
      = g.countP (fun v => !v.settled) := by
  unfold evaluateDistanceAndPath
  simp only
  split
  · exact countP_modify_same _ g adj _ rfl
  · rfl

theorem evaluateDistanceAndPath_length (g : Graph) (adj src : Nat) (w : ℚ) :
    (evaluateDistanceAndPath g adj src w).length = g.length := by
  unfold evaluateDistanceAndPath
  simp only
  split
  · exact length_modify _ _ _
  · rfl

theorem relaxNeighbor_measure (hav : Haversine) (cur : Nat) (s : Run) (adj : Nat)
    (hadj : adj < s.graph.length) : measure (relaxNeighbor hav cur s adj) = measure s := by
  unfold relaxNeighbor
  split
  · rfl
  · simp only
    split
    · unfold measure
      simp only [evaluateDistanceAndPath_countP]
    · rename_i hs
      unfold measure
      simp only [length_insert]
      have := countP_modify_drop (fun v => !v.settled)
        (evaluateDistanceAndPath s.graph adj cur
          ((vtx s.graph cur).calculateDistance hav (vtx s.graph adj))) adj
        (fun v => { v with settled := true })
        (by rw [evaluateDistanceAndPath_length]; exact hadj) (by simpa using hs) rfl
      rw [evaluateDistanceAndPath_countP] at this
      omega

theorem foldl_relaxNeighbor_measure (hav : Haversine) (cur : Nat) :
    ∀ (l : List Nat) (s : Run), (∀ a ∈ l, a < s.graph.length) →
      measure (l.foldl (relaxNeighbor hav cur) s) = measure s
  | [], _, _ => rfl
  | a :: l, s, h => by
      rw [List.foldl_cons, foldl_relaxNeighbor_measure hav cur l]
      · exact relaxNeighbor_measure hav cur s a (h a (List.mem_cons_self a l))
      · intro b hb
        rw [(relaxNeighbor_evolves hav cur s a).length_eq]
        exact h b (List.mem_cons_of_mem a hb)

theorem step_measure (hav : Haversine) {s s' : Run} (hg : NeighborsValid s.graph)
    (h : step hav s = some s') : measure s' + 1 = measure s := by
  unfold step at h
  split at h
  · cases h
  · rename_i cur heap1 he
    have hl := extractMin_length he
    split at h
    · cases h
      unfold measure
      simp only
      omega
    · rename_i hv
      have hv' : (vtx s.graph cur).visited = false := by simpa using hv
      cases h
      have hev := markVisited_evolves s.graph cur hv'
      rw [foldl_relaxNeighbor_measure hav cur _ { graph := _, heap := heap1 }]
      · unfold measure
        simp only
        rw [countP_modify_same _ s.graph cur _ rfl]
        omega
      · intro a ha
        exact hev.neighborsValid hg cur a ha

theorem loop_heap_empty (hav : Haversine) :
    ∀ (fuel : Nat) (s : Run), NeighborsValid s.graph → measure s ≤ fuel →
      (loop hav fuel s).heap = []
  | 0, s, _, hm => by
      show s.heap = []
      unfold measure at hm
      exact List.length_eq_zero.mp (by omega)
  | fuel + 1, s, hg, hm => by
      rw [loop_succ]
      split
      · rename_i h; exact step_eq_none.mp h
      · rename_i s1 h1
        have := step_measure hav hg h1
        exact loop_heap_empty hav fuel s1 ((step_evolves hav h1).neighborsValid hg) (by omega)

theorem initRun_heap (g : Graph) (src : Nat) : (initRun g src).heap = [src] := rfl

theorem initRun_graph (g : Graph) (src : Nat) :
    (initRun g src).graph = modify g src (fun v => { v with shortestDistance := 0 }) := rfl

/-- The fuel that `calculateShortestPath` passes to the loop is enough: the loop ends with
an empty queue. -/
theorem calculateShortestPath_queue_empty (hav : Haversine) (g : Graph) (src : Nat)
    (hg : WellFormed g) : (loop hav (g.length + 1) (initRun g src)).heap = [] := by
  apply loop_heap_empty
  · intro i j hj
    rw [initRun_graph, length_modify]
    rw [initRun_graph, vtx_modify] at hj
    apply wellFormed_neighborsValid hg i j
    split at hj
    · exact hj
    · exact hj
  · unfold measure
    rw [initRun_heap, initRun_graph]
    have := List.countP_le_length (fun v : Vertex => !v.settled)
      (l := modify g src (fun v => { v with shortestDistance := 0 }))
    rw [length_modify] at this
    simp only [List.length_singleton]
    omega

/-! ## The first pass of the loop -/

theorem extractMin_singleton (g : Graph) (x : Nat) : extractMin g [x] = some (x, []) := rfl

theorem step_initRun (hav : Haversine) (g : Graph) (src : Nat)
    (hv : (vtx g src).visited = false) :
    step hav (initRun g src) =
      some ((vtx (initRun g src).graph src).neighbors.foldl (relaxNeighbor hav src)
        { graph := modify (initRun g src).graph src (fun v => { v with visited := true }),
          heap := [] }) := by
  have hv0 : (vtx (initRun g src).graph src).visited = false := by
    rw [initRun_graph, vtx_modify]
    split
    · exact hv
    · exact hv
  have hn : (vtx (modify (initRun g src).graph src (fun v => { v with visited := true }))
      src).neighbors = (vtx (initRun g src).graph src).neighbors :=
    (markVisited_evolves _ src hv0).neighbors_eq src
  unfold step
  rw [initRun_heap, extractMin_singleton]
  simp only [hv0, hn]
  rfl

/-- After the first pass the source is visited, at distance 0, and keeps the path it had;
no later pass touches it. -/
theorem source_after_run (hav : Haversine) (g : Graph) (src : Nat) (hs : src < g.length)
    (hv : (vtx g src).visited = false) :
    vtx (calculateShortestPath hav g src) src =
      { vtx g src with shortestDistance := 0, visited := true } := by
  unfold calculateShortestPath
  rw [loop_succ]
  rw [step_initRun hav g src hv]
  simp only
  have h0 : src < (initRun g src).graph.length := by
    rw [initRun_graph, length_modify]; exact hs
  have h1 : vtx (modify (initRun g src).graph src (fun v => { v with visited := true })) src
      = { vtx g src with shortestDistance := 0, visited := true } := by
    rw [vtx_modify_same _ h0, initRun_graph, vtx_modify_same _ hs]
  have hvis : (vtx (modify (initRun g src).graph src (fun v => { v with visited := true }))
      src).visited = true := by rw [h1]
  have e1 := foldl_relaxNeighbor_evolves hav src (vtx (initRun g src).graph src).neighbors
    { graph := modify (initRun g src).graph src (fun v => { v with visited := true }),
      heap := [] }
  have e2 := loop_evolves hav g.length
    ((vtx (initRun g src).graph src).neighbors.foldl (relaxNeighbor hav src)
      { graph := modify (initRun g src).graph src (fun v => { v with visited := true }),
        heap := [] })
  rw [(e1.trans e2).visited_frozen src hvis, h1]

/-! ## Claim on a query from a vertex to itself -/

/-- C6: for every vertex `S` in fresh state, `getShortestPath(S, S)` returns the
single-element path `[S]` and leaves `S.shortestDistance` equal to 0. -/
theorem same_source_and_destination (hav : Haversine) (g : Graph) (S : Nat)
    (hS : S < g.length) (hfresh : Fresh (vtx g S)) :
    (getShortestPath hav g S S).2 = [S] ∧
    (vtx (getShortestPath hav g S S).1 S).shortestDistance = 0 := by
  unfold getShortestPath getPath
  simp only
  rw [source_after_run hav g S hS hfresh.2.1]
  simp only [hfresh.2.2.2, List.nil_append, and_self]

theorem same_source_and_destination_witness :
    (getShortestPath axisHaversine gAB 1 1).2 = [1] ∧
    (vtx (getShortestPath axisHaversine gAB 1 1).1 1).shortestDistance = 0 :=
  same_source_and_destination axisHaversine gAB 1 (by decide) (by decide!)

/-! ## What a pass of the loop can touch -/

theorem loop_induct (hav : Haversine) (P : Run → Prop)
    (hstep : ∀ s s', P s → step hav s = some s' → P s') :
    ∀ (fuel : Nat) (s : Run), P s → P (loop hav fuel s)
  | 0, _, h => h
  | fuel + 1, s, h => by
      rw [loop_succ]
      split
      · exact h
      · rename_i s1 h1
        exact loop_induct hav P hstep fuel s1 (hstep s s1 h h1)

theorem evaluateDistanceAndPath_vtx_ne (g : Graph) (adj src : Nat) (w : ℚ) {i : Nat}
    (h : i ≠ adj) : vtx (evaluateDistanceAndPath g adj src w) i = vtx g i := by
  unfold evaluateDistanceAndPath
  simp only
  split
  · exact vtx_modify_ne _ (fun e => h e.symm)
  · rfl

theorem relaxNeighbor_vtx_ne (hav : Haversine) (cur : Nat) (s : Run) (adj : Nat) {i : Nat}
    (h : i ≠ adj) : vtx (relaxNeighbor hav cur s adj).graph i = vtx s.graph i := by
  unfold relaxNeighbor
  split
  · rfl
  · simp only
    split
    · exact evaluateDistanceAndPath_vtx_ne _ _ _ _ h
    · rw [vtx_modify_ne _ (fun e => h e.symm)]
      exact evaluateDistanceAndPath_vtx_ne _ _ _ _ h

theorem relaxNeighbor_heap_mem (hav : Haversine) (cur : Nat) (s : Run) (adj x : Nat)
    (h : x ∈ (relaxNeighbor hav cur s adj).heap) : x ∈ s.heap ∨ x = adj := by
  unfold relaxNeighbor at h
  split at h
  · exact Or.inl h
  · simp only at h
    split at h
    · exact Or.inl h
    · exact (mem_insert _ _ _ _).mp h

theorem relaxNeighbor_heap_mono (hav : Haversine) (cur : Nat) (s : Run) (adj x : Nat)
    (h : x ∈ s.heap) : x ∈ (relaxNeighbor hav cur s adj).heap := by
  unfold relaxNeighbor
  split
  · exact h
  · simp only
    split
    · exact h
    · exact (mem_insert _ _ _ _).mpr (Or.inl h)

theorem foldl_relaxNeighbor_vtx (hav : Haversine) (cur : Nat) {i : Nat} :
    ∀ (l : List Nat) (s : Run), i ∉ l →
      vtx (l.foldl (relaxNeighbor hav cur) s).graph i = vtx s.graph i
  | [], _, _ => rfl
  | a :: l, s, h => by
      rw [List.foldl_cons,
        foldl_relaxNeighbor_vtx hav cur l _ (fun hm => h (List.mem_cons_of_mem a hm))]
      exact relaxNeighbor_vtx_ne hav cur s a (fun e => h (e ▸ List.mem_cons_self a l))

theorem foldl_relaxNeighbor_heap_mem (hav : Haversine) (cur : Nat) {x : Nat} :
    ∀ (l : List Nat) (s : Run), x ∈ (l.foldl (relaxNeighbor hav cur) s).heap →
      x ∈ s.heap ∨ x ∈ l
  | [], _, h => Or.inl h
  | a :: l, s, h => by
      rw [List.foldl_cons] at h
      rcases foldl_relaxNeighbor_heap_mem hav cur l _ h with h1 | h1
      · rcases relaxNeighbor_heap_mem hav cur s a x h1 with h2 | h2
        · exact Or.inl h2
        · exact Or.inr (h2 ▸ List.mem_cons_self a l)
      · exact Or.inr (List.mem_cons_of_mem a h1)

/-- A pass of the loop takes a vertex from the queue and can only change that vertex and
its neighbors; only neighbors of that vertex enter the queue. -/
theorem step_touches (hav : Haversine) {s s' : Run} (h : step hav s = some s') :
    ∃ cur, cur ∈ s.heap ∧
      (∀ x ∈ s'.heap, x ∈ s.heap ∨ x ∈ (vtx s.graph cur).neighbors) ∧
      (∀ i, i ≠ cur → i ∉ (vtx s.graph cur).neighbors → vtx s'.graph i = vtx s.graph i) := by
  unfold step at h
  split at h
  · cases h
  · rename_i cur heap1 he
    have hmem := extractMin_mem he
    refine ⟨cur, (hmem cur).mpr (Or.inl rfl), ?_⟩
    split at h
    · cases h
      exact ⟨fun x hx => Or.inl ((hmem x).mpr (Or.inr hx)), fun _ _ _ => rfl⟩
    · rename_i hv
      have hv' : (vtx s.graph cur).visited = false := by simpa using hv
      cases h
      have hn := (markVisited_evolves s.graph cur hv').neighbors_eq cur
      rw [hn]
      constructor
      · intro x hx
        rcases foldl_relaxNeighbor_heap_mem hav cur _ _ hx with h1 | h1
        · exact Or.inl ((hmem x).mpr (Or.inr h1))
        · exact Or.inr h1
      · intro i hic hin
        rw [foldl_relaxNeighbor_vtx hav cur _ _ hin]
        dsimp only
        exact vtx_modify_ne _ (fun e => hic e.symm)

theorem connected_closed {g : Graph} (S : Nat → Prop)
    (hS : ∀ x y, S x → Adj g x y → S y) {a b : Nat} (ha : S a) (h : Connected g a b) :
    S b := by
  induction h with
  | refl => exact ha
  | tail _ hxy ih => exact hS _ _ ih hxy

/-- A run from `src` leaves every vertex that is not connected to `src` as it was. -/
theorem run_leaves_unconnected (hav : Haversine) (g : Graph) (src v : Nat)
    (hnc : ¬ Connected g src v) : vtx (calculateShortestPath hav g src) v = vtx g v := by
  have hinit_n : ∀ i, (vtx (initRun g src).graph i).neighbors = (vtx g i).neighbors := by
    intro i
    rw [initRun_graph, vtx_modify]
    split <;> rfl
  have key := loop_induct hav
    (fun s => (∀ x ∈ s.heap, Connected g src x) ∧
      (∀ u, ¬ Connected g src u → vtx s.graph u = vtx g u) ∧
      (∀ i, (vtx s.graph i).neighbors = (vtx g i).neighbors))
    (by
      intro s s' ⟨hheap, hun, hnb⟩ hstep
      obtain ⟨cur, hcur, hh, hv⟩ := step_touches hav hstep
      have hc : Connected g src cur := hheap cur hcur
      have hadj : ∀ x, x ∈ (vtx s.graph cur).neighbors → Connected g src x := by
        intro x hx
        rw [hnb] at hx
        exact Relation.ReflTransGen.tail hc hx
      refine ⟨?_, ?_, ?_⟩
      · intro x hx
        rcases hh x hx with h1 | h1
        · exact hheap x h1
        · exact hadj x h1
      · intro u hu
        rw [hv u (fun e => hu (e ▸ hc)) (fun hm => hu (hadj u hm))]
        exact hun u hu
      · intro i
        rw [(step_evolves hav hstep).neighbors_eq i]
        exact hnb i)
    (g.length + 1) (initRun g src)
    (by
      refine ⟨?_, ?_, hinit_n⟩
      · intro x hx
        rw [initRun_heap] at hx
        simp only [List.mem_singleton] at hx
        rw [hx]
        exact Relation.ReflTransGen.refl
      · intro u hu
        rw [initRun_graph]
        exact vtx_modify_ne _ (fun e => hu (e ▸ Relation.ReflTransGen.refl)))
  exact key.2.1 v hnc

/-! ## Claim on a destination that is not connected to the source -/

/-- C4, as the claim states it, fails: city `C` has no road, yet the query from `A` to `C`
yields the one-element path `[C]` and leaves the numeric distance `1000000` in `C`. -/
theorem unreachable_yields_sentinel :
    ¬ Connected gIso 0 2 ∧
    (getShortestPath axisHaversine gIso 0 2).2 = [2] ∧
    (vtx (getShortestPath axisHaversine gIso 0 2).1 2).shortestDistance = 1000000 := by
  refine ⟨?_, by decide!, by decide!⟩
  intro hc
  have h2 : (2 : Nat) < 2 := by
    refine connected_closed (fun x => x < 2) ?_ (by decide) hc
    intro x y hx hxy
    have hall : ∀ x, x < 2 → ∀ y ∈ (vtx gIso x).neighbors, y < 2 := by decide
    exact hall x hx y hxy
  exact absurd h2 (by decide)

/-- C4, amended: for a destination in fresh state that is not connected to the source the
query reports no failure; it returns the one-element path `[destination]` and leaves the
destination's `shortestDistance` at the constant `infinity` (1e6). -/
theorem unreachable_destination (hav : Haversine) (g : Graph) (src dst : Nat)
    (hfresh : Fresh (vtx g dst)) (hnc : ¬ Connected g src dst) :
    (getShortestPath hav g src dst).2 = [dst] ∧
    (vtx (getShortestPath hav g src dst).1 dst).shortestDistance = infinity := by
  unfold getShortestPath getPath
  simp only
  rw [run_leaves_unconnected hav g src dst hnc]
  exact ⟨by rw [hfresh.2.2.2]; rfl, hfresh.1⟩

theorem unreachable_destination_witness :
    (getShortestPath axisHaversine gIso 0 2).2 = [2] ∧
    (vtx (getShortestPath axisHaversine gIso 0 2).1 2).shortestDistance = infinity :=
  unreachable_destination axisHaversine gIso 0 2 (by decide!) (by
    intro hc
    have h2 : (2 : Nat) < 2 := by
      refine connected_closed (fun x => x < 2) ?_ (by decide) hc
      intro x y hx hxy
      have hall : ∀ x, x < 2 → ∀ y ∈ (vtx gIso x).neighbors, y < 2 := by decide
      exact hall x hx y hxy
    exact absurd h2 (by decide))

/-! ## Walks and path weights -/

theorem isWalk_cons_cons (g : Graph) (a b : Nat) (rest : List Nat) :
    IsWalk g (a :: b :: rest) ↔ Adj g a b ∧ IsWalk g (b :: rest) := Iff.rfl

theorem isWalk_snoc (g : Graph) (a b : Nat) :
    ∀ p : List Nat, IsWalk g (p ++ [a]) → Adj g a b → IsWalk g ((p ++ [a]) ++ [b])
  | [], _, hab => ⟨hab, trivial⟩
  | [_], h, hab => ⟨h.1, hab, trivial⟩
  | _ :: y :: rest, h, hab => ⟨h.1, isWalk_snoc g a b (y :: rest) h.2 hab⟩

theorem isWalk_iff_chain (g : Graph) : ∀ p : List Nat, IsWalk g p ↔ List.Chain' (Adj g) p
  | [] => by simp [IsWalk]
  | [_] => by simp [IsWalk]
  | x :: y :: rest => by
      rw [isWalk_cons_cons, List.chain'_cons, isWalk_iff_chain g (y :: rest)]

theorem pathWeight_append_pair (hav : Haversine) (g : Graph) (a b : Nat) :
    ∀ p : List Nat, pathWeight hav g (p ++ [a, b]) = pathWeight hav g (p ++ [a]) + weight hav g a b
  | [] => by simp [pathWeight, weight]
  | [_] => by simp [pathWeight, weight]
  | x :: y :: rest => by
      have ih := pathWeight_append_pair hav g a b (y :: rest)
      simp only [List.cons_append] at ih ⊢
      simp only [pathWeight]
      rw [ih]
      ring

theorem pathWeight_snoc (hav : Haversine) (g : Graph) (p : List Nat) (a b : Nat) :
    pathWeight hav g ((p ++ [a]) ++ [b]) = pathWeight hav g (p ++ [a]) + weight hav g a b := by
  rw [List.append_assoc]
  exact pathWeight_append_pair hav g a b p

theorem SameGraph.weight_eq {g cur : Graph} (h : SameGraph g cur) (hav : Haversine) (a b : Nat) :
    (vtx cur a).calculateDistance hav (vtx cur b) = weight hav g a b := by
  unfold weight Vertex.calculateDistance
  rw [(h.2 a).1, (h.2 a).2.1, (h.2 b).1, (h.2 b).2.1]

theorem SameGraph.evolves {g a b : Graph} (h : SameGraph g a) (e : Evolves a b) :
    SameGraph g b :=
  ⟨e.length_eq.trans h.1, fun i =>
    ⟨(e.latitude_eq i).trans (h.2 i).1, (e.longitude_eq i).trans (h.2 i).2.1,
      (e.neighbors_eq i).trans (h.2 i).2.2⟩⟩

theorem settled_lt {cur : Graph} {v : Nat} (h : (vtx cur v).settled = true) :
    v < cur.length := by
  by_contra hc
  rw [vtx_of_le (Nat.le_of_not_lt hc)] at h
  cases h

theorem visited_lt {cur : Graph} {v : Nat} (h : (vtx cur v).visited = true) :
    v < cur.length := by
  by_contra hc
  rw [vtx_of_le (Nat.le_of_not_lt hc)] at h
  cases h

/-- A stored route stays good when the vertex keeps its route and distance and no vertex
loses its `visited` mark. -/
theorem GoodPath.transfer {hav : Haversine} {g : Graph} {src : Nat} {cur cur' : Graph}
    {v : Nat} (h : GoodPath hav g src cur v)
    (hp : (vtx cur' v).shortestPath = (vtx cur v).shortestPath)
    (hd : (vtx cur' v).shortestDistance = (vtx cur v).shortestDistance)
    (hv : ∀ x, (vtx cur x).visited = true → (vtx cur' x).visited = true) :
    GoodPath hav g src cur' v := by
  unfold GoodPath at h ⊢
  rw [hp, hd]
  exact ⟨h.1, h.2.1, fun x hx => hv x (h.2.2.1 x hx), h.2.2.2.1, h.2.2.2.2⟩

/-! ## The relaxation step keeps the stored routes good -/

theorem evaluateDistanceAndPath_vtx_adj (g : Graph) (adj src : Nat) (w : ℚ)
    (hadj : adj < g.length)
    (hlt : (vtx g src).shortestDistance + w < (vtx g adj).shortestDistance) :
    vtx (evaluateDistanceAndPath g adj src w) adj =
      { vtx g adj with shortestDistance := (vtx g src).shortestDistance + w,
                       shortestPath := (vtx g src).shortestPath ++ [src] } := by
  unfold evaluateDistanceAndPath
  simp only
  rw [if_pos hlt, vtx_modify_same _ hadj]

theorem evaluateDistanceAndPath_of_not_lt (g : Graph) (adj src : Nat) (w : ℚ)
    (hlt : ¬ (vtx g src).shortestDistance + w < (vtx g adj).shortestDistance) :
    evaluateDistanceAndPath g adj src w = g := by
  unfold evaluateDistanceAndPath
  simp only
  rw [if_neg hlt]

theorem simplePath_extend {hav : Haversine} {g : Graph} {src : Nat} {cur : Graph} {c adj : Nat}
    (hgc : GoodPath hav g src cur c) (hc : (vtx cur c).visited = true)
    (hadj : Adj g c adj) (hv : (vtx cur adj).visited = false) :
    SimplePath g src adj (((vtx cur c).shortestPath ++ [c]) ++ [adj]) := by
  obtain ⟨hhead, hchain, hvis, hnodup, _⟩ := hgc
  refine ⟨?_, ?_, ?_, ?_⟩
  · rw [List.head?_append_of_ne_nil _ (by simp)]
    exact hhead
  · simp
  · exact isWalk_snoc g c adj _ hchain hadj
  · rw [List.nodup_append]
    refine ⟨hnodup, List.nodup_singleton adj, ?_⟩
    intro x hx hx'
    simp only [List.mem_singleton] at hx'
    subst hx'
    rw [List.mem_append, List.mem_singleton] at hx
    rcases hx with hx | hx
    · rw [hvis x hx] at hv; cases hv
    · subst hx; rw [hc] at hv; cases hv

/-- After `evaluateDistanceAndPath` on an unvisited neighbor `adj` of the visited vertex
`c`, the route stored in `adj` is good. -/
theorem evaluateDistanceAndPath_good {hav : Haversine} {g : Graph} {src : Nat}
    (hbound : ∀ d p, SimplePath g src d p → pathWeight hav g p < infinity)
    {s : Run} {c adj : Nat} (hinv : RelaxInv hav g src s)
    (hc : (vtx s.graph c).visited = true) (hadj : Adj g c adj) (hlt : adj < g.length)
    (hv : (vtx s.graph adj).visited = false) :
    GoodPath hav g src
      (evaluateDistanceAndPath s.graph adj c
        ((vtx s.graph c).calculateDistance hav (vtx s.graph adj))) adj := by
  have hgc : GoodPath hav g src s.graph c := hinv.known_good c (hinv.visited_known c hc)
  have hsimple := simplePath_extend hgc hc hadj hv
  have hw := hinv.same.weight_eq hav c adj
  have hnew : (vtx s.graph c).shortestDistance + weight hav g c adj
      = pathWeight hav g (((vtx s.graph c).shortestPath ++ [c]) ++ [adj]) := by
    rw [pathWeight_snoc, ← hgc.2.2.2.2]
  have hfin := hbound adj _ hsimple
  rw [hw]
  have hlt' : adj < s.graph.length := by rw [hinv.same.1]; exact hlt
  by_cases hrel : (vtx s.graph c).shortestDistance + weight hav g c adj
      < (vtx s.graph adj).shortestDistance
  · have e := evaluateDistanceAndPath_vtx_adj s.graph adj c _ hlt' hrel
    unfold GoodPath
    rw [e]
    simp only
    refine ⟨hsimple.1, hsimple.2.2.1, ?_, hsimple.2.2.2, hnew⟩
    intro x hx
    rw [evaluateDistanceAndPath_visited]
    rw [List.mem_append, List.mem_singleton] at hx
    rcases hx with hx | hx
    · exact hgc.2.2.1 x hx
    · rw [hx]; exact hc
  · rw [evaluateDistanceAndPath_of_not_lt _ _ _ _ hrel]
    by_cases hk : Known s.graph src adj
    · exact hinv.known_good adj hk
    · exfalso
      apply hrel
      rw [hinv.unknown_far adj hk, hnew]
      exact hfin

theorem relaxNeighbor_inv {hav : Haversine} {g : Graph} {src : Nat}
    (hbound : ∀ d p, SimplePath g src d p → pathWeight hav g p < infinity)
    {s : Run} {c adj : Nat} (hinv : RelaxInv hav g src s)
    (hc : (vtx s.graph c).visited = true) (hadj : Adj g c adj) (hlt : adj < g.length) :
    RelaxInv hav g src (relaxNeighbor hav c s adj) := by
  unfold relaxNeighbor
  split
  · exact hinv
  · rename_i hvb
    simp only
    have hv : (vtx s.graph adj).visited = false := by simpa using hvb
    have hgood := evaluateDistanceAndPath_good hbound hinv hc hadj hlt hv
    have hev := evaluateDistanceAndPath_evolves s.graph adj c
      ((vtx s.graph c).calculateDistance hav (vtx s.graph adj)) hv
    have hvis := evaluateDistanceAndPath_visited s.graph adj c
      ((vtx s.graph c).calculateDistance hav (vtx s.graph adj))
    have hset := evaluateDistanceAndPath_settled s.graph adj c
      ((vtx s.graph c).calculateDistance hav (vtx s.graph adj))
    have hne := fun i (h : i ≠ adj) => evaluateDistanceAndPath_vtx_ne s.graph adj c
      ((vtx s.graph c).calculateDistance hav (vtx s.graph adj)) h
    generalize evaluateDistanceAndPath s.graph adj c
      ((vtx s.graph c).calculateDistance hav (vtx s.graph adj)) = g1 at hgood hev hvis hset hne ⊢
    have hknown1 : ∀ v, Known g1 src v ↔ Known s.graph src v := by
      intro v; unfold Known; rw [hset]
    have hgood1 : ∀ v, Known s.graph src v → GoodPath hav g src g1 v := by
      intro v hk
      by_cases e : v = adj
      · rw [e]; exact hgood
      · refine (hinv.known_good v hk).transfer ?_ ?_ (fun x hx => by rw [hvis]; exact hx)
        · rw [hne v e]
        · rw [hne v e]
    split
    · rename_i hs
      exact {
        same := hinv.same.evolves hev
        heap_known := fun x hx => (hknown1 x).mpr (hinv.heap_known x hx)
        visited_known := fun v h => (hknown1 v).mpr (hinv.visited_known v (by rw [← hvis]; exact h))
        known_good := fun v hk => hgood1 v ((hknown1 v).mp hk)
        unknown_far := fun v hk => by
          have e : v ≠ adj := fun e => hk (e ▸ Or.inl hs)
          rw [hne v e]
          exact hinv.unknown_far v (fun h => hk ((hknown1 v).mpr h))
        queued := fun v hk => by
          rcases hinv.queued v ((hknown1 v).mp hk) with h | h
          · exact Or.inl (by rw [hvis]; exact h)
          · exact Or.inr h }
    · rename_i hs
      have hlen1 : adj < g1.length := by rw [hev.length_eq, hinv.same.1]; exact hlt
      have hv1 : (vtx g1 adj).visited = false := by rw [hvis]; exact hv
      have hev2 : Evolves g1 (modify g1 adj (fun v => { v with settled := true })) :=
        evolves_modify g1 adj (fun v => { v with settled := true }) (fun _ => rfl)
          (fun _ => rfl) (fun _ => rfl) (fun _ => rfl) (fun _ _ => rfl) (le_refl _) hv1
      have hvtx2 : ∀ v, vtx (modify g1 adj (fun v => { v with settled := true })) v
          = if v = adj then { vtx g1 v with settled := true } else vtx g1 v := by
        intro v
        rw [vtx_modify]
        by_cases e : v = adj
        · subst e; simp [hlen1]
        · have e' : ¬ adj = v := fun h => e h.symm
          simp [e, e']
      have hpath2 : ∀ v, (vtx (modify g1 adj (fun v => { v with settled := true })) v).shortestPath
          = (vtx g1 v).shortestPath := by
        intro v; rw [hvtx2]; split <;> rfl
      have hdist2 : ∀ v,
          (vtx (modify g1 adj (fun v => { v with settled := true })) v).shortestDistance
          = (vtx g1 v).shortestDistance := by
        intro v; rw [hvtx2]; split <;> rfl
      have hvis2 : ∀ v, (vtx (modify g1 adj (fun v => { v with settled := true })) v).visited
          = (vtx g1 v).visited := by
        intro v; rw [hvtx2]; split <;> rfl
      have hknown2 : ∀ v, Known (modify g1 adj (fun v => { v with settled := true })) src v ↔
          (Known s.graph src v ∨ v = adj) := by
        intro v
        unfold Known
        rw [hvtx2]
        by_cases e : v = adj
        · simp [e]
        · rw [if_neg e, hset]
          simp [e]
      exact {
        same := (hinv.same.evolves hev).evolves hev2
        heap_known := fun x hx => by
          rcases (mem_insert _ _ _ _).mp hx with h | h
          · exact (hknown2 x).mpr (Or.inl (hinv.heap_known x h))
          · exact (hknown2 x).mpr (Or.inr h)
        visited_known := fun v h => by
          rw [hvis2, hvis] at h
          exact (hknown2 v).mpr (Or.inl (hinv.visited_known v h))
        known_good := fun v hk => by
          have h1 : GoodPath hav g src g1 v := by
            rcases (hknown2 v).mp hk with h | h
            · exact hgood1 v h
            · rw [h]; exact hgood
          exact h1.transfer (hpath2 v) (hdist2 v) (fun x hx => by rw [hvis2]; exact hx)
        unknown_far := fun v hk => by
          have hk' : ¬ (Known s.graph src v ∨ v = adj) := fun h => hk ((hknown2 v).mpr h)
          rw [hdist2, hne v (fun e => hk' (Or.inr e))]
          exact hinv.unknown_far v (fun h => hk' (Or.inl h))
        queued := fun v hk => by
          rcases (hknown2 v).mp hk with h | h
          · rcases hinv.queued v h with h' | h'
            · exact Or.inl (by rw [hvis2, hvis]; exact h')
            · exact Or.inr ((mem_insert _ _ _ _).mpr (Or.inl h'))
          · exact Or.inr ((mem_insert _ _ _ _).mpr (Or.inr h)) }

/-! ## The loop keeps the stored routes good -/

theorem relaxNeighbor_visited (hav : Haversine) (cur : Nat) (s : Run) (adj i : Nat) :
    (vtx (relaxNeighbor hav cur s adj).graph i).visited = (vtx s.graph i).visited := by
  unfold relaxNeighbor
  split
  · rfl
  · simp only
    split
    · exact evaluateDistanceAndPath_visited _ _ _ _ _
    · rw [vtx_modify]
      split
      · exact evaluateDistanceAndPath_visited _ _ _ _ _
      · exact evaluateDistanceAndPath_visited _ _ _ _ _

theorem foldl_relaxNeighbor_visited (hav : Haversine) (cur : Nat) (i : Nat) :
    ∀ (l : List Nat) (s : Run),
      (vtx (l.foldl (relaxNeighbor hav cur) s).graph i).visited = (vtx s.graph i).visited
  | [], _ => rfl
  | a :: l, s => by
      rw [List.foldl_cons, foldl_relaxNeighbor_visited hav cur i l, relaxNeighbor_visited]

theorem relaxNeighbor_marks (hav : Haversine) (cur : Nat) (s : Run) (adj : Nat)
    (hadj : adj < s.graph.length) :
    (vtx (relaxNeighbor hav cur s adj).graph adj).visited = true ∨
    (vtx (relaxNeighbor hav cur s adj).graph adj).settled = true := by
  unfold relaxNeighbor
  split
  · rename_i h; exact Or.inl h
  · simp only
    split
    · rename_i h; exact Or.inr h
    · right
      rw [vtx_modify_same _ (by rw [evaluateDistanceAndPath_length]; exact hadj)]

theorem foldl_relaxNeighbor_marks (hav : Haversine) (cur : Nat) :
    ∀ (l : List Nat) (s : Run), (∀ a ∈ l, a < s.graph.length) → ∀ v ∈ l,
      (vtx (l.foldl (relaxNeighbor hav cur) s).graph v).visited = true ∨
      (vtx (l.foldl (relaxNeighbor hav cur) s).graph v).settled = true
  | [], _, _, v, hv => by simp at hv
  | a :: l, s, h, v, hv => by
      rw [List.foldl_cons]
      have hlen := (relaxNeighbor_evolves hav cur s a).length_eq
      rcases List.mem_cons.mp hv with e | hm
      · subst e
        have hev := foldl_relaxNeighbor_evolves hav cur l (relaxNeighbor hav cur s v)
        rcases relaxNeighbor_marks hav cur s v (h v (List.mem_cons_self v l)) with h1 | h1
        · exact Or.inl (hev.visited_mono v h1)
        · exact Or.inr (hev.settled_mono v h1)
      · exact foldl_relaxNeighbor_marks hav cur l _
          (fun b hb => by rw [hlen]; exact h b (List.mem_cons_of_mem a hb)) v hm

theorem foldl_relaxNeighbor_inv {hav : Haversine} {g : Graph} {src : Nat}
    (hbound : ∀ d p, SimplePath g src d p → pathWeight hav g p < infinity) {c : Nat} :
    ∀ (l : List Nat) (s : Run), RelaxInv hav g src s → (vtx s.graph c).visited = true →
      (∀ a ∈ l, Adj g c a ∧ a < g.length) →
      RelaxInv hav g src (l.foldl (relaxNeighbor hav c) s)
  | [], _, h, _, _ => h
  | a :: l, s, h, hc, hl => by
      rw [List.foldl_cons]
      have ha := hl a (List.mem_cons_self a l)
      apply foldl_relaxNeighbor_inv hbound l _ (relaxNeighbor_inv hbound h hc ha.1 ha.2)
      · rw [relaxNeighbor_visited]; exact hc
      · exact fun b hb => hl b (List.mem_cons_of_mem a hb)

theorem freshGraph_vtx {g : Graph} (h : FreshGraph g) (i : Nat) : Fresh (vtx g i) := by
  by_cases hi : i < g.length
  · exact h _ (vtx_mem hi)
  · rw [vtx_of_le (Nat.le_of_not_lt hi)]; exact fresh_default

theorem Known.lt {cur : Graph} {src v : Nat} (hs : src < cur.length) (h : Known cur src v) :
    v < cur.length := by
  rcases h with h | h
  · exact settled_lt h
  · rw [h]; exact hs

theorem initRun_inv (hav : Haversine) {g : Graph} {src : Nat} (hf : FreshGraph g)
    (hs : src < g.length) : RunInv hav g src (initRun g src) := by
  have hvtx : ∀ v, vtx (initRun g src).graph v
      = if v = src then { vtx g v with shortestDistance := 0 } else vtx g v := by
    intro v
    rw [initRun_graph, vtx_modify]
    by_cases e : v = src
    · subst e; simp [hs]
    · have e' : ¬ src = v := fun h => e h.symm
      simp [e, e']
  have hnv : ∀ v, (vtx (initRun g src).graph v).visited = false := by
    intro v; rw [hvtx]; split <;> exact (freshGraph_vtx hf v).2.1
  have hns : ∀ v, (vtx (initRun g src).graph v).settled = false := by
    intro v; rw [hvtx]; split <;> exact (freshGraph_vtx hf v).2.2.1
  have hk : ∀ v, Known (initRun g src).graph src v → v = src := by
    intro v h
    rcases h with h | h
    · rw [hns] at h; cases h
    · exact h
  refine ⟨⟨?_, ?_, ?_, ?_, ?_, ?_⟩, ?_⟩
  · refine ⟨by rw [initRun_graph, length_modify], fun i => ?_⟩
    rw [hvtx]; split <;> exact ⟨rfl, rfl, rfl⟩
  · intro x hx
    rw [initRun_heap] at hx
    exact Or.inr (List.mem_singleton.mp hx)
  · intro v h; rw [hnv] at h; cases h
  · intro v h
    have e := hk v h
    subst e
    unfold GoodPath
    rw [hvtx, if_pos rfl]
    simp only [(freshGraph_vtx hf v).2.2.2]
    refine ⟨rfl, trivial, by simp, by simp, ?_⟩
    simp [pathWeight]
  · intro v h
    have e : v ≠ src := fun e => h (Or.inr e)
    rw [hvtx, if_neg e]
    exact (freshGraph_vtx hf v).1
  · intro v h
    right
    rw [hk v h, initRun_heap]
    exact List.mem_singleton.mpr rfl
  · intro u h; rw [hnv] at h; cases h

theorem step_inv {hav : Haversine} {g : Graph} {src : Nat}
    (hbound : ∀ d p, SimplePath g src d p → pathWeight hav g p < infinity)
    (hwf : NeighborsValid g) (hsrc : src < g.length) {s s' : Run}
    (hinv : RunInv hav g src s) (h : step hav s = some s') : RunInv hav g src s' := by
  have hev := step_evolves hav h
  unfold step at h
  split at h
  · cases h
  · rename_i c heap1 he
    have hmem := extractMin_mem he
    have hkc : Known s.graph src c := hinv.relax.heap_known c ((hmem c).mpr (Or.inl rfl))
    have hcl : c < s.graph.length := hkc.lt (by rw [hinv.relax.same.1]; exact hsrc)
    split at h
    · rename_i hv
      cases h
      exact {
        relax := {
          same := hinv.relax.same
          heap_known := fun x hx => hinv.relax.heap_known x ((hmem x).mpr (Or.inr hx))
          visited_known := hinv.relax.visited_known
          known_good := hinv.relax.known_good
          unknown_far := hinv.relax.unknown_far
          queued := fun v hk => by
            rcases hinv.relax.queued v hk with h1 | h1
            · exact Or.inl h1
            · rcases (hmem v).mp h1 with h2 | h2
              · exact Or.inl (by rw [h2]; exact hv)
              · exact Or.inr h2 }
        closure := hinv.closure }
    · rename_i hvb
      have hv : (vtx s.graph c).visited = false := by simpa using hvb
      cases h
      have hev1 := markVisited_evolves s.graph c hv
      set g1 := modify s.graph c (fun v => { v with visited := true }) with hg1
      have hvtx1 : ∀ v, vtx g1 v
          = if v = c then { vtx s.graph v with visited := true } else vtx s.graph v := by
        intro v
        rw [hg1, vtx_modify]
        by_cases e : v = c
        · subst e; simp [hcl]
        · have e' : ¬ c = v := fun h => e h.symm
          simp [e, e']
      have hk1 : ∀ v, Known g1 src v ↔ Known s.graph src v := by
        intro v; unfold Known; rw [hvtx1]; split <;> rfl
      have hc1 : (vtx g1 c).visited = true := by rw [hvtx1, if_pos rfl]
      have hvm : ∀ v, (vtx s.graph v).visited = true → (vtx g1 v).visited = true :=
        fun v hx => hev1.visited_mono v hx
      have hv1 : ∀ v, (vtx g1 v).visited = true → (vtx s.graph v).visited = true ∨ v = c := by
        intro v hx
        rw [hvtx1] at hx
        by_cases e : v = c
        · exact Or.inr e
        · rw [if_neg e] at hx; exact Or.inl hx
      have hrel1 : RelaxInv hav g src { graph := g1, heap := heap1 } :=
        { same := hinv.relax.same.evolves hev1
          heap_known := fun x hx =>
            (hk1 x).mpr (hinv.relax.heap_known x ((hmem x).mpr (Or.inr hx)))
          visited_known := fun v hx => by
            rcases hv1 v hx with h1 | h1
            · exact (hk1 v).mpr (hinv.relax.visited_known v h1)
            · rw [h1]; exact (hk1 c).mpr hkc
          known_good := fun v hk =>
            (hinv.relax.known_good v ((hk1 v).mp hk)).transfer
              (by rw [hvtx1]; split <;> rfl) (by rw [hvtx1]; split <;> rfl) hvm
          unknown_far := fun v hk => by
            have := hinv.relax.unknown_far v (fun h => hk ((hk1 v).mpr h))
            show (vtx g1 v).shortestDistance = infinity
            rw [hvtx1]; split <;> exact this
          queued := fun v hk => by
            rcases hinv.relax.queued v ((hk1 v).mp hk) with h1 | h1
            · exact Or.inl (hvm v h1)
            · rcases (hmem v).mp h1 with h2 | h2
              · exact Or.inl (by rw [h2]; exact hc1)
              · exact Or.inr h2 }
      have hnb : (vtx g1 c).neighbors = (vtx g c).neighbors :=
        ((hinv.relax.same.evolves hev1).2 c).2.2
      have hrel : RelaxInv hav g src
          ((vtx g1 c).neighbors.foldl (relaxNeighbor hav c) { graph := g1, heap := heap1 }) :=
        foldl_relaxNeighbor_inv hbound _ _ hrel1 hc1
          (fun a ha => by
            rw [hnb] at ha
            exact ⟨ha, hwf c a ha⟩)
      refine ⟨hrel, ?_⟩
      intro u hu v hv'
      rw [foldl_relaxNeighbor_visited] at hu
      rcases hv1 u hu with h1 | h1
      · rcases hinv.closure u h1 v hv' with h2 | h2
        · exact Or.inl (hev.settled_mono v h2)
        · exact Or.inr h2
      · subst h1
        rw [← hnb] at hv'
        have hm := foldl_relaxNeighbor_marks hav u (vtx g1 u).neighbors
          { graph := g1, heap := heap1 }
          (fun a ha => by
            rw [hnb] at ha
            have := hwf u a ha
            show a < g1.length
            rw [hg1, length_modify, hinv.relax.same.1]
            exact this) v hv'
        rcases hm with h2 | h2
        · exact hrel.visited_known v h2
        · exact Or.inl h2

/-! ## Result of a run on a graph in fresh state -/

/-- On a well-formed graph in fresh state in which no simple path from the source weighs
`infinity` or more, the route returned for a destination connected to the source is a
simple path of the graph from source to destination, and the distance left in the
destination is the weight of that route. -/
theorem run_correct_path (hav : Haversine) (g : Graph) (src dst : Nat)
    (hwf : WellFormed g) (hfresh : FreshGraph g) (hsrc : src < g.length)
    (hconn : Connected g src dst)
    (hbound : ∀ d p, SimplePath g src d p → pathWeight hav g p < infinity) :
    SimplePath g src dst (getPath (calculateShortestPath hav g src) dst) ∧
    (vtx (calculateShortestPath hav g src) dst).shortestDistance
      = pathWeight hav g (getPath (calculateShortestPath hav g src) dst) := by
  have hnv := wellFormed_neighborsValid hwf
  have hinv : RunInv hav g src (loop hav (g.length + 1) (initRun g src)) :=
    loop_induct hav (RunInv hav g src) (fun s s' h hs => step_inv hbound hnv hsrc h hs)
      _ _ (initRun_inv hav hfresh hsrc)
  have hempty := calculateShortestPath_queue_empty hav g src hwf
  have hvis : ∀ v, Known (loop hav (g.length + 1) (initRun g src)).graph src v →
      (vtx (loop hav (g.length + 1) (initRun g src)).graph v).visited = true := by
    intro v hk
    rcases hinv.relax.queued v hk with h | h
    · exact h
    · rw [hempty] at h; simp at h
  have hall : (vtx (loop hav (g.length + 1) (initRun g src)).graph dst).visited = true := by
    refine connected_closed
      (fun v => (vtx (loop hav (g.length + 1) (initRun g src)).graph v).visited = true)
      ?_ (hvis src (Or.inr rfl)) hconn
    intro x y hx hxy
    exact hvis y (hinv.closure x hx y hxy)
  have hgood := hinv.relax.known_good dst (hinv.relax.visited_known dst hall)
  unfold calculateShortestPath getPath
  exact ⟨⟨hgood.1, by simp, hgood.2.1, hgood.2.2.2.1⟩, hgood.2.2.2.2⟩

/-! ## Bounding the weight of simple paths -/

theorem pathWeight_le (hav : Haversine) (g : Graph) (W : ℚ)
    (hW : ∀ a b, Adj g a b → weight hav g a b ≤ W) :
    ∀ p : List Nat, IsWalk g p → pathWeight hav g p ≤ ((p.length - 1 : Nat) : ℚ) * W
  | [], _ => by simp [pathWeight]
  | [x], _ => by simp [pathWeight]
  | x :: y :: rest, h => by
      have hxy : Adj g x y := h.1
      have ih := pathWeight_le hav g W hW (y :: rest) h.2
      simp only [pathWeight]
      have h1 := hW x y hxy
      unfold weight at h1
      simp only [List.length_cons, Nat.add_sub_cancel] at ih ⊢
      push_cast
      linarith

theorem walk_lt_length {g : Graph} (hnv : NeighborsValid g) :
    ∀ (p : List Nat) (a : Nat), a < g.length → IsWalk g (a :: p) → ∀ x ∈ p, x < g.length
  | [], _, _, _, x, hx => by simp at hx
  | b :: p, a, ha, h, x, hx => by
      have hab : Adj g a b := h.1
      have hb : b < g.length := hnv a b hab
      rcases List.mem_cons.mp hx with e | hm
      · rw [e]; exact hb
      · exact walk_lt_length hnv p b hb h.2 x hm

/-- When every edge weighs at most `W` and `(n - 1) * W` is below `infinity` for the number
`n` of vertices, every simple path from `src` weighs less than `infinity`. -/
theorem simplePath_bound (hav : Haversine) (g : Graph) (src : Nat) (W : ℚ)
    (hwf : WellFormed g) (hsrc : src < g.length) (hW0 : 0 ≤ W)
    (hW : ∀ a b, Adj g a b → weight hav g a b ≤ W)
    (hn : ((g.length - 1 : Nat) : ℚ) * W < infinity) :
    ∀ d p, SimplePath g src d p → pathWeight hav g p < infinity := by
  intro d p ⟨hhead, _, hchain, hnodup⟩
  have hnv := wellFormed_neighborsValid hwf
  have hlen : p.length ≤ g.length := by
    have hsub : p ⊆ List.range g.length := by
      intro x hx
      rw [List.mem_range]
      cases p with
      | nil => simp at hx
      | cons a t =>
        simp only [List.head?_cons, Option.some.injEq] at hhead
        subst hhead
        rcases List.mem_cons.mp hx with e | hm
        · rw [e]; exact hsrc
        · exact walk_lt_length hnv t a hsrc hchain x hm
    have := (List.subperm_of_subset hnodup hsub).length_le
    simpa using this
  have h1 := pathWeight_le hav g W hW p hchain
  have h2 : ((p.length - 1 : Nat) : ℚ) * W ≤ ((g.length - 1 : Nat) : ℚ) * W := by
    apply mul_le_mul_of_nonneg_right _ hW0
    exact_mod_cast Nat.sub_le_sub_right hlen 1
  linarith

/-! ## Claims on the result of a query -/

/-- C1 fails on the code: in the five-city graph `g5` the query from `A` to `B` leaves
`B.shortestDistance` at the weight of the route `A, D, B` (12 degrees of arc, 1334 km),
although the simple path `A, C, E, B` is shorter (8 degrees, 890 km).  City `E` is in the
queue when its distance improves; it is neither re-inserted nor moved up, so `B` is
extracted and marked visited before `E`. -/
theorem shortest_distance_not_minimal :
    Built g5 ∧ Connected g5 0 1 ∧
    (loop axisHaversine (g5.length + 1) (initRun g5 0)).heap = [] ∧
    (getShortestPath axisHaversine g5 0 1).2 = [0, 3, 1] ∧
    SimplePath g5 0 1 [0, 2, 4, 1] ∧
    pathWeight axisHaversine g5 [0, 2, 4, 1]
      < (vtx (getShortestPath axisHaversine g5 0 1).1 1).shortestDistance := by
  refine ⟨?_, ?_, by decide!, by decide!, by decide!, by decide!⟩
  · exact Built.addEdge _ _ (Built.addEdge _ _ (Built.addEdge _ _ (Built.addEdge _ _
      (Built.addEdge _ _ (Built.addEdge _ _ (Built.addVertex _ _ _ (Built.addVertex _ _ _
      (Built.addVertex _ _ _ (Built.addVertex _ _ _ (Built.addVertex _ _ _
      Built.empty))))))))))
  · have h03 : Adj g5 0 3 := by decide
    have h31 : Adj g5 3 1 := by decide
    exact Relation.ReflTransGen.tail (Relation.ReflTransGen.single h03) h31

/-- C3 fails on the code: on the spec's three-city graph the query from `C` to `A` that
follows a query from `A` to `C` returns the path `[A]` and the distance 0, where the same
query on a fresh copy returns `[C, B, A]` and a positive distance.  The first query leaves
every vertex visited, so the second run skips the source and changes nothing. -/
theorem second_query_differs :
    (getShortestPath axisHaversine (getShortestPath axisHaversine gABC 0 2).1 2 0).2 = [0] ∧
    (getShortestPath axisHaversine gABC 2 0).2 = [2, 1, 0] ∧
    (vtx (getShortestPath axisHaversine (getShortestPath axisHaversine gABC 0 2).1 2 0).1
      0).shortestDistance = 0 ∧
    0 < (vtx (getShortestPath axisHaversine gABC 2 0).1 0).shortestDistance := by
  decide!

theorem built_poleVertices : ∀ n, Built (poleVertices n)
  | 0 => Built.empty
  | n + 1 => Built.addVertex _ _ _ (built_poleVertices n)

theorem built_poleChain : ∀ n, Built (poleChain n)
  | 0 => built_poleVertices 51
  | n + 1 => Built.addEdge _ _ (built_poleChain n)

set_option maxRecDepth 100000 in
/-- C2, as the claim states it, fails: in a chain of 51 cities that alternate between the
two poles the last city is connected to the first, but the route to it weighs more than
`infinity` (50 legs of 20015 km), the relaxation that would reach it is refused, and the
returned path is the one-element path `[50]`, which does not start with the source. -/
theorem returned_path_misses_source :
    Built (poleChain 50) ∧ Connected (poleChain 50) 0 50 ∧
    infinity < pathWeight axisHaversine (poleChain 50) (List.range 51) ∧
    (getShortestPath axisHaversine (poleChain 50) 0 50).2 = [50] ∧
    (getShortestPath axisHaversine (poleChain 50) 0 50).2.head? ≠ some 0 := by
  have hadj : ∀ i, i < 50 → Adj (poleChain 50) i (i + 1) := by decide!
  have hconn : ∀ k, k ≤ 50 → Connected (poleChain 50) 0 k := by
    intro k
    induction k with
    | zero => intro _; exact Relation.ReflTransGen.refl
    | succ k ih =>
      intro hk
      exact Relation.ReflTransGen.tail (ih (by omega)) (hadj k (by omega))
  have hpath : (getShortestPath axisHaversine (poleChain 50) 0 50).2 = [50] := by decide!
  refine ⟨built_poleChain 50, hconn 50 (le_refl _), by decide!, hpath, ?_⟩
  rw [hpath]
  decide

/-- C2, amended: on a well-formed graph in fresh state with symmetric adjacency in which
every simple path from `from` weighs less than `infinity` (1e6), for `to` connected to
`from` the returned sequence starts with `from`, ends with `to`, and every two consecutive
vertices in it are neighbors of each other. -/
theorem returned_path_valid (hav : Haversine) (g : Graph) (src dst : Nat)
    (hwf : WellFormed g) (hfresh : FreshGraph g) (hsym : Symmetric g) (hsrc : src < g.length)
    (hconn : Connected g src dst)
    (hbound : ∀ d p, SimplePath g src d p → pathWeight hav g p < infinity) :
    (getShortestPath hav g src dst).2.head? = some src ∧
    (getShortestPath hav g src dst).2.getLast? = some dst ∧
    List.Chain' (fun a b => b ∈ (vtx g a).neighbors ∧ a ∈ (vtx g b).neighbors)
      (getShortestPath hav g src dst).2 := by
  obtain ⟨⟨h1, h2, h3, _⟩, _⟩ := run_correct_path hav g src dst hwf hfresh hsrc hconn hbound
  refine ⟨h1, h2, ?_⟩
  have hc := (isWalk_iff_chain g _).mp h3
  exact hc.imp (fun a b hab => ⟨hab, hsym a b hab⟩)

theorem returned_path_valid_witness :
    (getShortestPath axisHaversine gAB 0 1).2.head? = some 0 ∧
    (getShortestPath axisHaversine gAB 0 1).2.getLast? = some 1 ∧
    List.Chain' (fun a b => b ∈ (vtx gAB a).neighbors ∧ a ∈ (vtx gAB b).neighbors)
      (getShortestPath axisHaversine gAB 0 1).2 :=
  returned_path_valid axisHaversine gAB 0 1 (by decide) (by decide!)
    (built_symmetric
      (Built.addEdge _ _ (Built.addVertex _ _ _ (Built.addVertex _ _ _ Built.empty))))
    (by decide)
    (Relation.ReflTransGen.single (by decide))
    (simplePath_bound axisHaversine gAB 0 112 (by decide) (by decide) (by norm_num)
      (by
        intro a b hab
        have hall : ∀ a, a < 2 → ∀ b ∈ (vtx gAB a).neighbors,
            weight axisHaversine gAB a b ≤ 112 := by decide!
        exact hall a (adj_lt_left hab) b hab)
      (by decide!))

/-- The simple paths from `a` in a graph whose only links at `a`, `b`, `c` are `a-b` and
`b-c`. -/
theorem simplePaths_of_line {g : Graph} {a b c : Nat} (hab : a ≠ b) (hbc : b ≠ c)
    (hna : (vtx g a).neighbors = [b])
    (hnb : (vtx g b).neighbors = [a, c] ∨ (vtx g b).neighbors = [c, a])
    (hnc : (vtx g c).neighbors = [b]) {d : Nat} {p : List Nat} (h : SimplePath g a d p) :
    p = [a] ∨ p = [a, b] ∨ p = [a, b, c] := by
  obtain ⟨hhead, _, hwalk, hnodup⟩ := h
  have adj_a : ∀ x, Adj g a x → x = b := by
    intro x hx; unfold Adj at hx; rw [hna] at hx; simpa using hx
  have adj_b : ∀ x, Adj g b x → x = a ∨ x = c := by
    intro x hx
    unfold Adj at hx
    rcases hnb with e | e <;> rw [e] at hx <;> simp at hx <;> tauto
  have adj_c : ∀ x, Adj g c x → x = b := by
    intro x hx; unfold Adj at hx; rw [hnc] at hx; simpa using hx
  cases p with
  | nil => simp at hhead
  | cons x t =>
    simp only [List.head?_cons, Option.some.injEq] at hhead
    subst hhead
    cases t with
    | nil => exact Or.inl rfl
    | cons y t2 =>
      have ey := adj_a y hwalk.1
      subst ey
      cases t2 with
      | nil => exact Or.inr (Or.inl rfl)
      | cons z t3 =>
        rcases adj_b z hwalk.2.1 with ez | ez
        · subst ez
          simp at hnodup
        · subst ez
          cases t3 with
          | nil => exact Or.inr (Or.inr rfl)
          | cons u t4 =>
            have eu := adj_c u hwalk.2.2.1
            subst eu
            simp at hnodup

/-- With edge weights that are numbers of at most half the circumference (20016 km), three
distinct vertices `A`, `B`, `C` of a well-formed graph in fresh state with exactly the
links `A-B` and `B-C` are answered as the spec's scenario reads: `getShortestPath(A, C)`
returns `[A, B, C]` and leaves `C.shortestDistance` equal to `weight(A,B) + weight(B,C)`.
Edge weights that are NaN are treated with `getShortestPathFloat`. -/
theorem line_of_three_cities (hav : Haversine) (g : Graph) (a b c : Nat)
    (hwf : WellFormed g) (hfresh : FreshGraph g) (ha : a < g.length)
    (hab : a ≠ b) (hbc : b ≠ c) (hac : a ≠ c)
    (hna : (vtx g a).neighbors = [b])
    (hnb : (vtx g b).neighbors = [a, c] ∨ (vtx g b).neighbors = [c, a])
    (hnc : (vtx g c).neighbors = [b])
    (hwab : weight hav g a b ≤ 20016) (hwbc : weight hav g b c ≤ 20016) :
    (getShortestPath hav g a c).2 = [a, b, c] ∧
    (vtx (getShortestPath hav g a c).1 c).shortestDistance
      = weight hav g a b + weight hav g b c := by
  have hconn : Connected g a c := by
    have h1 : Adj g a b := by unfold Adj; rw [hna]; simp
    have h2 : Adj g b c := by unfold Adj; rcases hnb with e | e <;> rw [e] <;> simp
    exact Relation.ReflTransGen.tail (Relation.ReflTransGen.single h1) h2
  have hbound : ∀ d p, SimplePath g a d p → pathWeight hav g p < infinity := by
    intro d p hp
    unfold infinity
    rcases simplePaths_of_line hab hbc hna hnb hnc hp with e | e | e <;> rw [e] <;>
      simp only [pathWeight] <;> unfold weight at hwab hwbc <;> linarith
  obtain ⟨hsp, hd⟩ := run_correct_path hav g a c hwf hfresh ha hconn hbound
  have hp : getPath (calculateShortestPath hav g a) c = [a, b, c] := by
    rcases simplePaths_of_line hab hbc hna hnb hnc hsp with e | e | e
    · have := hsp.2.1
      rw [e] at this
      simp at this
      exact absurd this hac
    · have := hsp.2.1
      rw [e] at this
      simp at this
      exact absurd this hbc
    · exact e
  unfold getShortestPath
  simp only
  refine ⟨hp, ?_⟩
  rw [hd, hp]
  simp only [pathWeight, weight]
  ring

theorem line_of_three_cities_witness :
    (getShortestPath axisHaversine gABC 0 2).2 = [0, 1, 2] ∧
    (vtx (getShortestPath axisHaversine gABC 0 2).1 2).shortestDistance
      = weight axisHaversine gABC 0 1 + weight axisHaversine gABC 1 2 :=
  line_of_three_cities axisHaversine gABC 0 1 2 (by decide) (by decide!) (by decide)
    (by decide) (by decide) (by decide) (by decide) (Or.inl (by decide)) (by decide)
    (by decide!) (by decide!)

/-! ## Claims on `addEdge` with a missing endpoint, on `getVertex` and on self-loops -/

/-- C11, as the claim states it, fails: `Z` is not the name of a vertex of the two-city
graph, yet `addEdge("A", "Z")` ends like the accepted call `addEdge("A", "B")`: with the
same graph, and nothing is reported. -/
theorem addEdge_missing_endpoint_unreported :
    getVertex gAB "Z" = none ∧ addEdge gAB "A" "Z" = gAB ∧
    addEdge gAB "A" "Z" = addEdge gAB "A" "B" := by
  decide!

/-- C11, amended: `addEdge(a, b)` reports no failure; whenever `a` or `b` is not the name
of a vertex of the graph, the call returns and the graph is what it was. -/
theorem addEdge_missing_endpoint_ignored (g : Graph) (a b : String)
    (h : getVertex g a = none ∨ getVertex g b = none) : addEdge g a b = g :=
  addEdge_of_none h

theorem addEdge_missing_endpoint_ignored_witness :
    getVertex gAB "Z" = none ∧ addEdge gAB "Z" "A" = gAB :=
  ⟨by decide, addEdge_missing_endpoint_ignored gAB "Z" "A" (Or.inl (by decide))⟩

theorem getVertexFrom_none {city : String} :
    ∀ (l : List Vertex) (k : Nat), getVertexFrom city l k = none ↔ ∀ v ∈ l, v.city ≠ city
  | [], _ => by simp [getVertexFrom]
  | v :: rest, k => by
      unfold getVertexFrom
      by_cases hc : v.city = city
      · rw [if_pos hc]
        simp [hc]
      · rw [if_neg hc, getVertexFrom_none rest (k + 1)]
        simp [hc]

theorem getVertexFrom_earliest {city : String} :
    ∀ (l : List Vertex) (k i : Nat), getVertexFrom city l k = some i →
      ∀ j, j < i - k → (l.getD j default).city ≠ city
  | [], _, _, h => by simp [getVertexFrom] at h
  | v :: rest, k, i, h => by
      unfold getVertexFrom at h
      by_cases hc : v.city = city
      · rw [if_pos hc] at h
        have e : k = i := by simpa using h
        intro j hj
        omega
      · rw [if_neg hc] at h
        have hb := (getVertexFrom_some rest (k + 1) i h).1
        intro j hj
        cases j with
        | zero => simpa using hc
        | succ j =>
          have := getVertexFrom_earliest rest (k + 1) i h j (by omega)
          simpa using this

/-- C12: `getVertex(name)` returns not-found exactly when no vertex of the graph has that
name; otherwise it returns a handle of the graph whose vertex has `city = name`, and no
vertex inserted earlier has that name. -/
theorem getVertex_finds_earliest (g : Graph) (name : String) :
    (getVertex g name = none ↔ ∀ v ∈ g, v.city ≠ name) ∧
    (∀ i, getVertex g name = some i →
      i < g.length ∧ (vtx g i).city = name ∧ ∀ j, j < i → (vtx g j).city ≠ name) := by
  refine ⟨getVertexFrom_none g 0, fun i hi => ⟨getVertex_lt hi, getVertex_city hi, ?_⟩⟩
  intro j hj
  exact getVertexFrom_earliest g 0 i hi j (by omega)

theorem getVertex_finds_earliest_witness :
    getVertex gAA "A" = some 0 ∧ (vtx gAA 0).city = "A" ∧ (vtx gAA 1).city = "A" ∧
    (0 < gAA.length ∧ (vtx gAA 0).city = "A" ∧ ∀ j, j < 0 → (vtx gAA j).city ≠ "A") :=
  ⟨by decide, by decide, by decide, (getVertex_finds_earliest gAA "A").2 0 (by decide)⟩

/-- C13, as the claim states it, fails: after `addVertex("A")` and `addEdge("A", "A")` the
vertex `A` is an element of its own neighbor list. -/
theorem addEdge_same_name_makes_loop :
    Built gLoop ∧ 0 ∈ (vtx gLoop 0).neighbors := by
  refine ⟨Built.addEdge _ _ (Built.addVertex _ _ _ Built.empty), by decide⟩

theorem getVertex_ne_of_ne {g : Graph} {a b : String} {v1 v2 : Nat} (hab : a ≠ b)
    (h1 : getVertex g a = some v1) (h2 : getVertex g b = some v2) : v1 ≠ v2 := by
  intro e
  subst e
  exact hab ((getVertex_city h1).symm.trans (getVertex_city h2))

/-- C13, amended: no graph built from the empty graph by `addVertex` calls and by
`addEdge(a, b)` calls with `a ≠ b` contains a self-loop: no vertex is an element of its own
neighbor list. -/
theorem no_self_loop_of_distinct_names (g : Graph) (hg : BuiltDistinct g) (i : Nat) :
    i ∉ (vtx g i).neighbors := by
  induction hg generalizing i with
  | empty => simp [vtx, default_neighbors]
  | addVertex city lat lon _ ih =>
      intro h
      exact ih i ((adj_addVertex _ city lat lon i i).mp h)
  | addEdge c1 c2 hne _ ih =>
      intro h
      rcases (adj_addEdge _ c1 c2 i i).mp h with h' | ⟨v1, v2, e1, e2, hc⟩
      · exact ih i h'
      · have hv := getVertex_ne_of_ne hne e1 e2
        rcases hc with ⟨ha, hb⟩ | ⟨ha, hb⟩
        · exact hv (ha.symm.trans hb)
        · exact hv (hb.symm.trans ha)

theorem no_self_loop_of_distinct_names_witness :
    0 ∉ (vtx gAB 0).neighbors ∧ 1 ∉ (vtx gAB 1).neighbors :=
  have hb : BuiltDistinct gAB :=
    BuiltDistinct.addEdge _ _ (by decide)
      (BuiltDistinct.addVertex _ _ _ (BuiltDistinct.addVertex _ _ _ BuiltDistinct.empty))
  ⟨no_self_loop_of_distinct_names gAB hb 0, no_self_loop_of_distinct_names gAB hb 1⟩

/-! ## Claims on the failure cases of `extractMin` and of the query -/

/-- The outcome `none` of `extractMin` is the out-of-bounds read of `heap[0]`. -/
theorem extractMin_none_iff_read_out_of_bounds (g : Graph) (heap : List Nat) :
    extractMin g heap = none ↔ HeapOp.inBounds heap.length (HeapOp.readSlot 0) = false := by
  rw [extractMin_eq_none]
  cases heap <;> simp [HeapOp.inBounds]

/-- On a non-empty heap every statement of `extractMin` up to `pop_back` is defined. -/
theorem extractMinOps_inBounds (heap : List Nat) (h : heap ≠ []) :
    ∀ op ∈ (extractMinOps heap).take 4, HeapOp.inBounds heap.length op = true := by
  cases heap with
  | nil => exact absurd rfl h
  | cons a t =>
    intro op hop
    simp [extractMinOps, isEmpty] at hop
    rcases hop with rfl | rfl | rfl | rfl <;> simp [HeapOp.inBounds]

/-- C14 fails on the code: on the empty heap `extractMin` prints its message and then goes
on to read `heap[0]`, `heap.back()` and to call `pop_back()` on a vector of size 0; it
does not stop with a failure, and what it returns is undefined. -/
theorem extractMin_empty_reads_slot :
    extractMinOps [] =
      [HeapOp.print "Heap is empty", HeapOp.readSlot 0, HeapOp.readBack, HeapOp.writeSlot 0,
        HeapOp.popBack, HeapOp.heapifyDown 0, HeapOp.returnMin] ∧
    HeapOp.inBounds 0 (HeapOp.readSlot 0) = false ∧
    (∀ g : Graph, extractMin g [] = none) :=
  ⟨by decide, by decide, fun _ => rfl⟩

/-- C15 fails on the code: in the two-city graph the query from the unknown city `Z` ends
in the write through the null source handle, and the query from `A` to the unknown city
`Z` first carries out the whole run from `A` (city `B` is visited and has its distance)
and then ends in the read through the null destination handle.  No failure is reported in
either case. -/
theorem query_with_unknown_city :
    getVertex gAB "Z" = none ∧
    pathQuery axisHaversine gAB "Z" "B" = QueryOutcome.nullSource ∧
    pathQuery axisHaversine gAB "A" "Z"
      = QueryOutcome.nullDestination (calculateShortestPath axisHaversine gAB 0) ∧
    (vtx (calculateShortestPath axisHaversine gAB 0) 1).visited = true ∧
    (vtx (calculateShortestPath axisHaversine gAB 0) 1).shortestDistance < infinity := by
  decide!

/-! ## Claims on `haversine` -/

theorem deg2rad_neg_half (x y : ℚ) : deg2rad (x - y) / 2 = -(deg2rad (y - x) / 2) := by
  unfold deg2rad; ring

/-- In exact arithmetic the formula of `haversine` is symmetric, `haversine(lat1, lon1,
lat2, lon2) = haversine(lat2, lon2, lat1, lon1)`, for every math library whose `sin` is
odd. -/
theorem haversine_symmetric (m : MathLib) (hodd : ∀ x, m.sin (-x) = -m.sin x)
    (lat1 lon1 lat2 lon2 : ℚ) :
    haversine m lat1 lon1 lat2 lon2 = haversine m lat2 lon2 lat1 lon1 := by
  have ha : m.sin (deg2rad (lat2 - lat1) / 2) * m.sin (deg2rad (lat2 - lat1) / 2) +
      m.cos (deg2rad lat1) * m.cos (deg2rad lat2) *
        m.sin (deg2rad (lon2 - lon1) / 2) * m.sin (deg2rad (lon2 - lon1) / 2)
      = m.sin (deg2rad (lat1 - lat2) / 2) * m.sin (deg2rad (lat1 - lat2) / 2) +
      m.cos (deg2rad lat2) * m.cos (deg2rad lat1) *
        m.sin (deg2rad (lon1 - lon2) / 2) * m.sin (deg2rad (lon1 - lon2) / 2) := by
    rw [deg2rad_neg_half lat1 lat2, deg2rad_neg_half lon1 lon2, hodd, hodd]
    ring
  unfold haversine
  simp only
  rw [ha]

theorem seriesMath_sin_odd (x : ℚ) : seriesMath.sin (-x) = -seriesMath.sin x := by
  show -x - (-x) ^ 3 / 6 = -(x - x ^ 3 / 6)
  ring

theorem haversine_symmetric_witness :
    haversine seriesMath 0 0 0 1 = haversine seriesMath 0 1 0 0 :=
  haversine_symmetric seriesMath seriesMath_sin_odd 0 0 0 1

/-- C17: the distance from a point to itself is zero, `haversine(lat, lon, lat, lon) = 0`,
for every math library with `sin 0 = 0`, `sqrt 0 = 0`, `sqrt 1 = 1` and `atan2 0 1 = 0`. -/
theorem haversine_self (m : MathLib) (hsin : m.sin 0 = 0) (hsqrt0 : m.sqrt 0 = 0)
    (hsqrt1 : m.sqrt 1 = 1) (hatan : m.atan2 0 1 = 0) (lat lon : ℚ) :
    haversine m lat lon lat lon = 0 := by
  unfold haversine
  simp only [sub_self, deg2rad, zero_mul, zero_div, hsin, mul_zero, add_zero, hsqrt0,
    sub_zero, hsqrt1, hatan]

theorem haversine_self_witness : haversine seriesMath 30 70 30 70 = 0 :=
  haversine_self seriesMath (by decide!) (by decide!) (by decide!) (by decide!) 30 70

/-- In exact arithmetic the formula of `haversine` gives a non-negative distance for every
pair of coordinates, for every math library whose `sqrt` is non-negative and whose `atan2`
is non-negative on a non-negative first argument.  In the arithmetic of the source the
argument of `sqrt` can be negative: see `haversineA_antipodes`. -/
theorem haversine_nonneg (m : MathLib) (hsqrt : ∀ x, 0 ≤ m.sqrt x)
    (hatan : ∀ y x, 0 ≤ y → 0 ≤ m.atan2 y x) :
    (∀ lat1 lon1 lat2 lon2, 0 ≤ haversine m lat1 lon1 lat2 lon2) ∧
    (∀ (g : Graph) (a b : Nat), 0 ≤ (vtx g a).calculateDistance (haversine m) (vtx g b)) := by
  have h : ∀ lat1 lon1 lat2 lon2, 0 ≤ haversine m lat1 lon1 lat2 lon2 := by
    intro lat1 lon1 lat2 lon2
    unfold haversine
    simp only
    have := hatan _ (m.sqrt (1 - (m.sin (deg2rad (lat2 - lat1) / 2) *
      m.sin (deg2rad (lat2 - lat1) / 2) + m.cos (deg2rad lat1) * m.cos (deg2rad lat2) *
      m.sin (deg2rad (lon2 - lon1) / 2) * m.sin (deg2rad (lon2 - lon1) / 2))))
      (hsqrt (m.sin (deg2rad (lat2 - lat1) / 2) *
      m.sin (deg2rad (lat2 - lat1) / 2) + m.cos (deg2rad lat1) * m.cos (deg2rad lat2) *
      m.sin (deg2rad (lon2 - lon1) / 2) * m.sin (deg2rad (lon2 - lon1) / 2)))
    positivity
  exact ⟨h, fun g a b => h _ _ _ _⟩

theorem seriesMath_sqrt_nonneg (x : ℚ) : 0 ≤ seriesMath.sqrt x := by
  show 0 ≤ (if x ≤ 0 then 0 else (x + 1) / 2)
  by_cases h : x ≤ 0
  · rw [if_pos h]
  · rw [if_neg h]
    have : 0 < x := not_le.mp h
    linarith

theorem seriesMath_atan2_nonneg (y x : ℚ) (hy : 0 ≤ y) : 0 ≤ seriesMath.atan2 y x := by
  show 0 ≤ (if y = 0 ∧ 0 ≤ x then 0
    else if 0 ≤ y then
      (if 0 ≤ x then y / (x + y) else 1 + (-x) / (y - x)) * (314159 / 200000)
    else
      -((if 0 ≤ x then (-y) / (x - y) else 1 + (-x) / (-y - x)) * (314159 / 200000)))
  by_cases h1 : y = 0 ∧ 0 ≤ x
  · rw [if_pos h1]
  · rw [if_neg h1, if_pos hy]
    apply mul_nonneg _ (by norm_num)
    by_cases hx : 0 ≤ x
    · rw [if_pos hx]
      exact div_nonneg hy (by linarith)
    · rw [if_neg hx]
      have hx' : x < 0 := not_le.mp hx
      have : 0 ≤ (-x) / (y - x) := div_nonneg (by linarith) (by linarith)
      linarith

theorem haversine_nonneg_witness :
    0 ≤ haversine seriesMath 0 0 0 1 ∧
    0 ≤ (vtx gAB 0).calculateDistance (haversine seriesMath) (vtx gAB 1) :=
  ⟨(haversine_nonneg seriesMath seriesMath_sqrt_nonneg seriesMath_atan2_nonneg).1 0 0 0 1,
    (haversine_nonneg seriesMath seriesMath_sqrt_nonneg seriesMath_atan2_nonneg).2 gAB 0 1⟩

/-! ## Distances along the returned path -/

theorem prefixInv_modify_flags {cur : Graph} (h : PrefixInv cur) (i : Nat)
    (f : Vertex → Vertex) (hp : ∀ v, (f v).shortestPath = v.shortestPath)
    (hd : ∀ v, (f v).shortestDistance = v.shortestDistance)
    (hv : ∀ v, v.visited = true → (f v).visited = true) : PrefixInv (modify cur i f) := by
  have hpath : ∀ v, (vtx (modify cur i f) v).shortestPath = (vtx cur v).shortestPath := by
    intro v; rw [vtx_modify]; split
    · exact hp _
    · rfl
  have hdist : ∀ v, (vtx (modify cur i f) v).shortestDistance
      = (vtx cur v).shortestDistance := by
    intro v; rw [vtx_modify]; split
    · exact hd _
    · rfl
  have hvis : ∀ v, (vtx cur v).visited = true → (vtx (modify cur i f) v).visited = true := by
    intro v hx; rw [vtx_modify]; split
    · exact hv _ hx
    · exact hx
  intro v p u hvp
  rw [hpath] at hvp
  obtain ⟨h1, h2, h3⟩ := h v p u hvp
  exact ⟨hvis u h1, by rw [hpath]; exact h2, by rw [hdist, hdist]; exact h3⟩

theorem evaluateDistanceAndPath_prefixInv {cur : Graph} (h : PrefixInv cur) (adj c : Nat)
    (w : ℚ) (hw : 0 ≤ w) (hc : (vtx cur c).visited = true)
    (hadj : (vtx cur adj).visited = false) :
    PrefixInv (evaluateDistanceAndPath cur adj c w) := by
  by_cases hrel : (vtx cur c).shortestDistance + w < (vtx cur adj).shortestDistance
  · have hne : ∀ i, i ≠ adj → vtx (evaluateDistanceAndPath cur adj c w) i = vtx cur i :=
      fun i hi => evaluateDistanceAndPath_vtx_ne cur adj c w hi
    have hcadj : c ≠ adj := by
      intro e; rw [e, hadj] at hc; cases hc
    intro v p u hvp
    by_cases hv : v = adj
    · subst hv
      have hlt : v < cur.length := by
        by_contra hge
        have hcur : evaluateDistanceAndPath cur v c w = cur := by
          unfold evaluateDistanceAndPath
          simp only
          rw [if_pos hrel]
          unfold modify
          exact List.set_eq_of_length_le (Nat.le_of_not_lt hge)
        rw [hcur, vtx_of_le (Nat.le_of_not_lt hge)] at hvp
        have : ([] : List Nat) = p ++ [u] := hvp
        simp at this
      rw [evaluateDistanceAndPath_vtx_adj cur v c w hlt hrel] at hvp ⊢
      simp only at hvp ⊢
      have hpu := List.append_inj' hvp rfl
      have hu : c = u := by simpa using hpu.2
      subst hu
      rw [hne c hcadj]
      exact ⟨hc, hpu.1, by linarith⟩
    · rw [hne v hv] at hvp ⊢
      obtain ⟨h1, h2, h3⟩ := h v p u hvp
      have hu : u ≠ adj := by
        intro e; rw [e, hadj] at h1; cases h1
      rw [hne u hu]
      exact ⟨h1, h2, h3⟩
  · rw [evaluateDistanceAndPath_of_not_lt cur adj c w hrel]
    exact h

theorem relaxNeighbor_prefixInv {hav : Haversine} (hnn : ∀ a b c d, 0 ≤ hav a b c d)
    {s : Run} (h : PrefixInv s.graph) (c adj : Nat) (hc : (vtx s.graph c).visited = true) :
    PrefixInv (relaxNeighbor hav c s adj).graph := by
  unfold relaxNeighbor
  split
  · exact h
  · rename_i hvb
    have hv : (vtx s.graph adj).visited = false := by simpa using hvb
    have h1 := evaluateDistanceAndPath_prefixInv h adj c
      ((vtx s.graph c).calculateDistance hav (vtx s.graph adj)) (hnn _ _ _ _) hc hv
    simp only
    split
    · exact h1
    · exact prefixInv_modify_flags h1 adj (fun v => { v with settled := true })
        (fun _ => rfl) (fun _ => rfl) (fun _ hx => hx)

theorem foldl_relaxNeighbor_prefixInv {hav : Haversine} (hnn : ∀ a b c d, 0 ≤ hav a b c d)
    (c : Nat) : ∀ (l : List Nat) (s : Run), PrefixInv s.graph →
      (vtx s.graph c).visited = true → PrefixInv (l.foldl (relaxNeighbor hav c) s).graph
  | [], _, h, _ => h
  | a :: l, s, h, hc => by
      rw [List.foldl_cons]
      apply foldl_relaxNeighbor_prefixInv hnn c l _ (relaxNeighbor_prefixInv hnn h c a hc)
      rw [relaxNeighbor_visited]
      exact hc

theorem step_prefixInv {hav : Haversine} (hnn : ∀ a b c d, 0 ≤ hav a b c d) {s s' : Run}
    (h : PrefixInv s.graph) (hs : step hav s = some s') : PrefixInv s'.graph := by
  unfold step at hs
  split at hs
  · cases hs
  · rename_i c heap1 he
    split at hs
    · cases hs; exact h
    · cases hs
      have h1 : PrefixInv (modify s.graph c (fun v => { v with visited := true })) :=
        prefixInv_modify_flags h c (fun v => { v with visited := true })
          (fun _ => rfl) (fun _ => rfl) (fun _ _ => rfl)
      by_cases hc : c < s.graph.length
      · exact foldl_relaxNeighbor_prefixInv hnn c _
          { graph := modify s.graph c (fun v => { v with visited := true }), heap := heap1 }
          h1 (by dsimp only; rw [vtx_modify_same _ hc])
      · have hn : (vtx (modify s.graph c (fun v => { v with visited := true })) c).neighbors
            = [] := by
          rw [vtx_of_le (by rw [length_modify]; exact Nat.le_of_not_lt hc)]
          rfl
        rw [hn]
        exact h1

/-- After a run on a graph in fresh state with non-negative weights the stored routes are
consistent with each other. -/
theorem run_prefixInv (hav : Haversine) (g : Graph) (src : Nat) (hfresh : FreshGraph g)
    (hnn : ∀ a b c d, 0 ≤ hav a b c d) : PrefixInv (calculateShortestPath hav g src) := by
  unfold calculateShortestPath
  apply loop_induct hav (fun s => PrefixInv s.graph) (fun s s' h hs => step_prefixInv hnn h hs)
  intro v p u hvp
  have hnil : (vtx (initRun g src).graph v).shortestPath = [] := by
    rw [initRun_graph, vtx_modify]
    split
    · exact (freshGraph_vtx hfresh v).2.2.2
    · exact (freshGraph_vtx hfresh v).2.2.2
  rw [hnil] at hvp
  simp at hvp

theorem prefixInv_chain {cur : Graph} (h : PrefixInv cur) :
    ∀ (n v : Nat), (vtx cur v).shortestPath.length = n →
      List.Chain' (fun x y => x ≤ y)
        (((vtx cur v).shortestPath ++ [v]).map (fun x => (vtx cur x).shortestDistance))
  | 0, v, hn => by
      rw [List.length_eq_zero.mp hn]
      simp
  | n + 1, v, hn => by
      rcases List.eq_nil_or_concat (vtx cur v).shortestPath with e | ⟨p, u, e⟩
      · rw [e] at hn; simp at hn
      · rw [List.concat_eq_append] at e
        obtain ⟨_, h2, h3⟩ := h v p u e
        have hlen : (vtx cur u).shortestPath.length = n := by
          rw [h2]
          rw [e] at hn
          simpa using hn
        have ih := prefixInv_chain h n u hlen
        rw [h2] at ih
        rw [e, List.map_append]
        apply List.Chain'.append ih (by simp)
        intro x hx y hy
        simp at hx hy
        rw [← hx, ← hy]
        exact h3

/-! ## Claim on the cumulative distances -/

/-- C19: on a graph in fresh state and with non-negative edge weights, the
`shortestDistance` values of the vertices along the path that `getShortestPath` returns
are non-decreasing from the first vertex to the last. -/
theorem cumulative_distance_nondecreasing (hav : Haversine) (g : Graph) (src dst : Nat)
    (hfresh : FreshGraph g) (hnn : ∀ a b c d, 0 ≤ hav a b c d) :
    List.Pairwise (fun x y => x ≤ y)
      ((getShortestPath hav g src dst).2.map
        (fun v => (vtx (getShortestPath hav g src dst).1 v).shortestDistance)) := by
  unfold getShortestPath getPath
  simp only
  have hc := prefixInv_chain (run_prefixInv hav g src hfresh hnn) _ dst rfl
  exact List.chain'_iff_pairwise.mp hc

theorem axisHaversine_nonneg (a b c d : ℚ) : 0 ≤ axisHaversine a b c d := by
  unfold axisHaversine
  simp only
  have habs : ∀ x : ℚ, 0 ≤ 6371 * (if 0 ≤ x then x else -x) := by
    intro x
    apply mul_nonneg (by norm_num)
    by_cases hx : 0 ≤ x
    · rw [if_pos hx]; exact hx
    · rw [if_neg hx]; linarith
  by_cases h1 : b = d
  · rw [if_pos h1]; exact habs _
  · rw [if_neg h1]
    by_cases h2 : a = 0 ∧ c = 0
    · rw [if_pos h2]; exact habs _
    · rw [if_neg h2]

theorem cumulative_distance_nondecreasing_witness :
    List.Pairwise (fun x y => x ≤ y)
      ((getShortestPath axisHaversine gABC 0 2).2.map
        (fun v => (vtx (getShortestPath axisHaversine gABC 0 2).1 v).shortestDistance)) :=
  cumulative_distance_nondecreasing axisHaversine gABC 0 2 (by decide!) axisHaversine_nonneg

/-! ## Claim on termination -/

theorem loop_of_empty (hav : Haversine) {s : Run} (h : s.heap = []) :
    ∀ fuel, loop hav fuel s = s
  | 0 => rfl
  | fuel + 1 => by rw [loop_succ, step_eq_none.mpr h]

theorem loop_passes (hav : Haversine) :
    ∀ (fuel : Nat) (s : Run), NeighborsValid s.graph → measure s ≤ fuel →
      ∃ n, n ≤ fuel ∧ (loop hav n s).heap = [] ∧ ∀ m, n ≤ m → loop hav m s = loop hav n s
  | 0, s, _, hm => by
      have he : s.heap = [] := by
        unfold measure at hm
        exact List.length_eq_zero.mp (by omega)
      exact ⟨0, le_refl 0, he, fun m _ => loop_of_empty hav he m⟩
  | fuel + 1, s, hg, hm => by
      cases hs : step hav s with
      | none =>
        have he := step_eq_none.mp hs
        exact ⟨0, Nat.zero_le _, he, fun m _ => loop_of_empty hav he m⟩
      | some s1 =>
        have hmeas := step_measure hav hg hs
        obtain ⟨n, hn, hempty, hstable⟩ :=
          loop_passes hav fuel s1 ((step_evolves hav hs).neighborsValid hg) (by omega)
        refine ⟨n + 1, by omega, ?_, ?_⟩
        · rw [loop_succ, hs]; exact hempty
        · intro m hm'
          cases m with
          | zero => omega
          | succ m =>
            rw [loop_succ, loop_succ, hs]
            exact hstable m (by omega)

/-- C20: `calculateShortestPath` terminates on every graph with valid neighbor handles, for
every source and every initial state of the vertices: after at most `g.length + 1` passes
of the `while` loop (one extraction each) the queue is empty, and no further pass takes
place. -/
theorem calculateShortestPath_terminates (hav : Haversine) (g : Graph) (src : Nat)
    (hwf : WellFormed g) :
    ∃ n, n ≤ g.length + 1 ∧ isEmpty (loop hav n (initRun g src)).heap = true ∧
      ∀ m, n ≤ m → loop hav m (initRun g src) = loop hav n (initRun g src) := by
  have hnv : NeighborsValid (initRun g src).graph := by
    intro i j hj
    rw [initRun_graph, length_modify]
    rw [initRun_graph, vtx_modify] at hj
    apply wellFormed_neighborsValid hwf i j
    split at hj
    · exact hj
    · exact hj
  have hmeas : measure (initRun g src) ≤ g.length + 1 := by
    unfold measure
    rw [initRun_heap, initRun_graph]
    have := List.countP_le_length (fun v : Vertex => !v.settled)
      (l := modify g src (fun v => { v with shortestDistance := 0 }))
    rw [length_modify] at this
    simp only [List.length_singleton]
    omega
  obtain ⟨n, hn, hempty, hstable⟩ := loop_passes hav (g.length + 1) (initRun g src) hnv hmeas
  exact ⟨n, hn, by rw [hempty]; rfl, hstable⟩

theorem calculateShortestPath_terminates_witness :
    ∃ n, n ≤ (calculateShortestPath axisHaversine gABC 0).length + 1 ∧
      isEmpty (loop axisHaversine n
        (initRun (calculateShortestPath axisHaversine gABC 0) 2)).heap = true ∧
      ∀ m, n ≤ m →
        loop axisHaversine m (initRun (calculateShortestPath axisHaversine gABC 0) 2)
          = loop axisHaversine n (initRun (calculateShortestPath axisHaversine gABC 0) 2) :=
  calculateShortestPath_terminates axisHaversine (calculateShortestPath axisHaversine gABC 0)
    2 (by decide!)

/-! ## Claim on the frame of `addEdge` with a missing endpoint -/

/-- C30: when `a` or `b` is not the name of any vertex of the graph, `addEdge a b` leaves
the graph as it was: the vertex list is the same, and every vertex has the neighbor list it
had (no edge is inserted on one side only). -/
theorem addEdge_unknown_name_frame (g : Graph) (a b : String)
    (h : (∀ v ∈ g, v.city ≠ a) ∨ (∀ v ∈ g, v.city ≠ b)) :
    addEdge g a b = g ∧ (addEdge g a b).length = g.length ∧
      ∀ i, (vtx (addEdge g a b) i).neighbors = (vtx g i).neighbors := by
  have hnone : getVertex g a = none ∨ getVertex g b = none := by
    rcases h with h | h
    · exact Or.inl ((getVertexFrom_none g 0).mpr h)
    · exact Or.inr ((getVertexFrom_none g 0).mpr h)
  have e := addEdge_of_none hnone
  rw [e]
  exact ⟨rfl, rfl, fun _ => rfl⟩

theorem addEdge_unknown_name_frame_witness :
    ((∀ v ∈ gAB, v.city ≠ "A") ∨ (∀ v ∈ gAB, v.city ≠ "Z")) ∧
    addEdge gAB "A" "Z" = gAB ∧ (addEdge gAB "A" "Z").length = gAB.length ∧
      ∀ i, (vtx (addEdge gAB "A" "Z") i).neighbors = (vtx gAB i).neighbors :=
  ⟨Or.inr (by decide), addEdge_unknown_name_frame gAB "A" "Z" (Or.inr (by decide))⟩

/-! ## Claim on the relaxation step -/

/-- C23: `evaluateDistanceAndPath(adj, src, w)` is the relaxation step. When
`src.shortestDistance + w < adj.shortestDistance` it sets `adj.shortestDistance` to that sum
and `adj.shortestPath` to `src.shortestPath` followed by `src`, and keeps the other fields
of `adj`; otherwise it leaves `adj` as it was; in both cases every other vertex is what it
was, and the vertex list keeps its length. -/
theorem evaluateDistanceAndPath_relaxes (g : Graph) (adj src : Nat) (w : ℚ)
    (hadj : adj < g.length) :
    ((vtx g src).shortestDistance + w < (vtx g adj).shortestDistance →
        vtx (evaluateDistanceAndPath g adj src w) adj =
          { vtx g adj with shortestDistance := (vtx g src).shortestDistance + w,
                           shortestPath := (vtx g src).shortestPath ++ [src] }) ∧
    (¬ (vtx g src).shortestDistance + w < (vtx g adj).shortestDistance →
        evaluateDistanceAndPath g adj src w = g) ∧
    (∀ i, i ≠ adj → vtx (evaluateDistanceAndPath g adj src w) i = vtx g i) ∧
    (evaluateDistanceAndPath g adj src w).length = g.length := by
  refine ⟨fun hlt => evaluateDistanceAndPath_vtx_adj g adj src w hadj hlt,
    fun hlt => evaluateDistanceAndPath_of_not_lt g adj src w hlt,
    fun i hi => evaluateDistanceAndPath_vtx_ne g adj src w hi, ?_⟩
  unfold evaluateDistanceAndPath
  simp only
  split
  · exact length_modify _ _ _
  · rfl

theorem evaluateDistanceAndPath_relaxes_witness :
    1 < (initRun gAB 0).graph.length ∧
    (vtx (initRun gAB 0).graph 0).shortestDistance + 5
      < (vtx (initRun gAB 0).graph 1).shortestDistance ∧
    vtx (evaluateDistanceAndPath (initRun gAB 0).graph 1 0 5) 1 =
      { vtx (initRun gAB 0).graph 1 with
          shortestDistance := (vtx (initRun gAB 0).graph 0).shortestDistance + 5,
          shortestPath := (vtx (initRun gAB 0).graph 0).shortestPath ++ [0] } :=
  ⟨by decide, by decide!,
    (evaluateDistanceAndPath_relaxes (initRun gAB 0).graph 1 0 5 (by decide)).1 (by decide!)⟩

/-! ## Claim on visited vertices -/

/-- C24: once a vertex is marked visited, its record is never written again in the run:
neither a relaxation of any neighbor from any vertex nor any number of further passes of
the loop changes its `shortestDistance` or its `shortestPath`, and it stays visited. -/
theorem visited_vertex_frozen (hav : Haversine) (s : Run) (v : Nat)
    (hv : (vtx s.graph v).visited = true) :
    (∀ cur adj,
      (vtx (relaxNeighbor hav cur s adj).graph v).shortestDistance
          = (vtx s.graph v).shortestDistance ∧
      (vtx (relaxNeighbor hav cur s adj).graph v).shortestPath
          = (vtx s.graph v).shortestPath) ∧
    (∀ n,
      (vtx (loop hav n s).graph v).shortestDistance = (vtx s.graph v).shortestDistance ∧
      (vtx (loop hav n s).graph v).shortestPath = (vtx s.graph v).shortestPath ∧
      (vtx (loop hav n s).graph v).visited = true) := by
  constructor
  · intro cur adj
    rw [(relaxNeighbor_evolves hav cur s adj).visited_frozen v hv]
    exact ⟨rfl, rfl⟩
  · intro n
    rw [(loop_evolves hav n s).visited_frozen v hv]
    exact ⟨rfl, rfl, hv⟩

theorem visited_vertex_frozen_witness :
    (vtx (loop axisHaversine 1 (initRun g5 0)).graph 3).visited = false ∧
    (vtx (loop axisHaversine 2 (initRun g5 0)).graph 3).visited = true ∧
    ((∀ cur adj,
      (vtx (relaxNeighbor axisHaversine cur (loop axisHaversine 2 (initRun g5 0)) adj).graph
          3).shortestDistance
          = (vtx (loop axisHaversine 2 (initRun g5 0)).graph 3).shortestDistance ∧
      (vtx (relaxNeighbor axisHaversine cur (loop axisHaversine 2 (initRun g5 0)) adj).graph
          3).shortestPath
          = (vtx (loop axisHaversine 2 (initRun g5 0)).graph 3).shortestPath) ∧
    (∀ n,
      (vtx (loop axisHaversine n (loop axisHaversine 2 (initRun g5 0))).graph
          3).shortestDistance
          = (vtx (loop axisHaversine 2 (initRun g5 0)).graph 3).shortestDistance ∧
      (vtx (loop axisHaversine n (loop axisHaversine 2 (initRun g5 0))).graph 3).shortestPath
          = (vtx (loop axisHaversine 2 (initRun g5 0)).graph 3).shortestPath ∧
      (vtx (loop axisHaversine n (loop axisHaversine 2 (initRun g5 0))).graph 3).visited
          = true)) :=
  ⟨by decide!, by decide!,
    visited_vertex_frozen axisHaversine (loop axisHaversine 2 (initRun g5 0)) 3 (by decide!)⟩

/-! ## Claim on repeating a query -/

/-- A run from a source that is visited and at distance 0 changes nothing: the one pass
extracts the source and skips it. -/
theorem calculateShortestPath_of_visited_source (hav : Haversine) (g : Graph) (src : Nat)
    (hv : (vtx g src).visited = true) (hd : (vtx g src).shortestDistance = 0) :
    calculateShortestPath hav g src = g := by
  have hg : modify g src (fun v => { v with shortestDistance := 0 }) = g := by
    apply modify_eq_self
    rw [← hd]
  have hinit : initRun g src = { graph := g, heap := [src] } := by
    have h1 := initRun_graph g src
    have h2 := initRun_heap g src
    rw [hg] at h1
    cases hi : initRun g src with
    | mk gr hp =>
      rw [hi] at h1 h2
      simp only at h1 h2
      rw [h1, h2]
  unfold calculateShortestPath
  rw [hinit, loop_succ]
  unfold step
  simp only [extractMin_singleton, hv, if_true]
  rw [loop_of_empty hav rfl]

/-- C29: repeating a query without resetting the state changes nothing. For every graph
whose source vertex has not been visited (as in a graph in fresh state), running
`getShortestPath(S, D)` again on the graph the first run left returns the same path and
leaves every field of every vertex as the first run left it. -/
theorem repeated_query_same_result (hav : Haversine) (g : Graph) (src dst : Nat)
    (hs : src < g.length) (hv : (vtx g src).visited = false) :
    getShortestPath hav (getShortestPath hav g src dst).1 src dst
      = getShortestPath hav g src dst := by
  have h1 := source_after_run hav g src hs hv
  have hrun : calculateShortestPath hav (calculateShortestPath hav g src) src
      = calculateShortestPath hav g src := by
    apply calculateShortestPath_of_visited_source
    · rw [h1]
    · rw [h1]
  unfold getShortestPath
  simp only
  rw [hrun]

theorem repeated_query_same_result_witness :
    0 < g5.length ∧ (vtx g5 0).visited = false ∧
    getShortestPath axisHaversine (getShortestPath axisHaversine g5 0 1).1 0 1
      = getShortestPath axisHaversine g5 0 1 :=
  ⟨by decide, by decide,
    repeated_query_same_result axisHaversine g5 0 1 (by decide) (by decide)⟩

/-! ## The heap operations permute the entries -/

theorem count_set_add (l : List Nat) (i : Nat) (a b : Nat) (h : i < l.length) :
    List.count b (l.set i a) + (if l[i] = b then 1 else 0)
      = List.count b l + (if a = b then 1 else 0) := by
  rw [List.count_set a b l i h]
  have : (if l[i] = b then 1 else 0) ≤ List.count b l := by
    split
    · rename_i e
      exact List.count_pos_iff.mpr (e ▸ List.getElem_mem h)
    · omega
  simp only [beq_iff_eq]
  omega

theorem swap_perm {heap : List Nat} {i j : Nat} (hi : i < heap.length) (hj : j < heap.length) :
    List.Perm (swap heap i j) heap := by
  rw [List.perm_iff_count]
  intro b
  unfold swap
  rw [List.getD_eq_getElem _ _ hi, List.getD_eq_getElem _ _ hj]
  have hj' : j < (heap.set i heap[j]).length := by rw [List.length_set]; exact hj
  have h1 := count_set_add heap i heap[j] b hi
  have h2 := count_set_add (heap.set i heap[j]) j heap[i] b hj'
  have h3 : (heap.set i heap[j])[j] = heap[j] := by
    rw [List.getElem_set]
    split
    · rfl
    · rfl
  rw [h3] at h2
  omega

theorem heapifyUpAux_perm (g : Graph) :
    ∀ (fuel : Nat) (heap : List Nat) (k : Nat), k < heap.length →
      List.Perm (heapifyUpAux g fuel heap k) heap
  | 0, _, _, _ => List.Perm.refl _
  | fuel + 1, heap, k, hk => by
      unfold heapifyUpAux
      split
      · exact List.Perm.refl _
      · rename_i hk0
        have hp : getParent k < k := getParent_lt (Nat.pos_of_ne_zero hk0)
        have hpl : getParent k < heap.length := Nat.lt_trans hp hk
        simp only
        split
        · exact (heapifyUpAux_perm g fuel _ _ (by rw [length_swap]; exact hpl)).trans
            (swap_perm hk hpl)
        · exact List.Perm.refl _

theorem heapifyDownAux_perm (g : Graph) :
    ∀ (fuel : Nat) (heap : List Nat) (k : Nat), k < heap.length →
      List.Perm (heapifyDownAux g fuel heap k) heap
  | 0, _, _, _ => List.Perm.refl _
  | fuel + 1, heap, k, hk => by
      rw [heapifyDownAux_succ]
      split
      · rename_i hs
        have hsl : smallestSlot g heap k < heap.length := by
          rcases smallestSlot_cases g heap k with h | h | h
          · exact absurd h hs
          · omega
          · omega
        exact (heapifyDownAux_perm g fuel _ _ (by rw [length_swap]; exact hsl)).trans
          (swap_perm hk hsl)
      · exact List.Perm.refl _

theorem insert_perm (g : Graph) (heap : List Nat) (e : Nat) :
    List.Perm (insert g heap e) (e :: heap) := by
  unfold insert heapifyUp
  refine (heapifyUpAux_perm g _ _ _ (by simp)).trans ?_
  exact List.perm_append_singleton e heap

theorem extractMin_perm {g : Graph} {heap rest : List Nat} {m : Nat}
    (he : extractMin g heap = some (m, rest)) : List.Perm heap (m :: rest) := by
  cases heap with
  | nil => simp [extractMin] at he
  | cons a t =>
    rw [extractMin_cons] at he
    simp only [Option.some.injEq, Prod.mk.injEq] at he
    rw [← he.1, ← he.2]
    apply List.Perm.cons
    have hperm := moved_last_perm a t
    by_cases ht : t = []
    · subst ht
      simp [heapifyDown, heapifyDownAux_succ, smallestSlot, getLeftChild, getRightChild]
    · have hpos : 0 < (((a :: t).set 0 ((a :: t).getLast?.getD 0)).dropLast).length := by
        rw [hperm.length_eq]
        exact List.length_pos.mpr ht
      unfold heapifyDown
      exact ((heapifyDownAux_perm g _ _ 0 hpos).trans hperm).symm

/-! ## Claims on the heap operations -/

/-- C26: `MinHeap::insert` keeps the heap order and the contents. With the vertices'
distances held fixed, if every entry's `shortestDistance` is at least its parent's before
`insert(v)`, the same holds afterwards; and the entries after the call are the entries
before it plus one occurrence of `v` (as multisets). -/
theorem insert_preserves_heap (g : Graph) (heap : List Nat) (v : Nat) :
    (IsHeap g heap → IsHeap g (insert g heap v)) ∧
    List.Perm (insert g heap v) (v :: heap) ∧
    (∀ x, (insert g heap v).count x = heap.count x + (if x = v then 1 else 0)) := by
  refine ⟨insert_isHeap g heap v, insert_perm g heap v, fun x => ?_⟩
  rw [(insert_perm g heap v).count_eq x, List.count_cons]
  simp only [beq_iff_eq]
  by_cases e : x = v
  · rw [if_pos e, if_pos e.symm]
  · rw [if_neg e, if_neg (fun h => e h.symm)]

theorem insert_preserves_heap_witness :
    IsHeap gDist (insert gDist (insert gDist [] 0) 1) ∧
    IsHeap gDist (insert gDist (insert gDist (insert gDist [] 0) 1) 2) ∧
    insert gDist (insert gDist (insert gDist [] 0) 1) 2 = [1, 0, 2] :=
  ⟨insert_isHeap gDist _ 1 (insert_isHeap gDist [] 0 (fun _ _ h => absurd h (Nat.not_lt_zero _))),
    (insert_preserves_heap gDist (insert gDist (insert gDist [] 0) 1) 2).1
      (insert_isHeap gDist _ 1
        (insert_isHeap gDist [] 0 (fun _ _ h => absurd h (Nat.not_lt_zero _)))),
    by decide!⟩

/-- C27: `MinHeap::extractMin` on a non-empty heap returns, keeps the heap order and
removes exactly one entry. With the vertices' distances held fixed, if the heap order holds
before the call it holds afterwards; the entries before the call are the returned vertex
plus the remaining entries (as multisets); and `isEmpty` is true afterwards exactly when the
heap had one entry. -/
theorem extractMin_preserves_heap (g : Graph) (heap : List Nat) (hne : heap ≠ []) :
    ∃ m rest, extractMin g heap = some (m, rest) ∧
      (IsHeap g heap → IsHeap g rest) ∧
      List.Perm heap (m :: rest) ∧
      (∀ x, rest.count x = heap.count x - (if x = m then 1 else 0)) ∧
      rest.length + 1 = heap.length ∧
      (isEmpty rest = true ↔ heap.length = 1) := by
  cases heap with
  | nil => exact absurd rfl hne
  | cons a t =>
    have he := extractMin_cons g a t
    refine ⟨a, _, he, fun h => extractMin_isHeap h he, extractMin_perm he, fun x => ?_,
      (extractMin_length he).symm, ?_⟩
    · rw [(extractMin_perm he).count_eq x, List.count_cons]
      simp only [beq_iff_eq]
      by_cases e : x = a
      · rw [if_pos e, if_pos e.symm]; omega
      · rw [if_neg e, if_neg (fun h => e h.symm)]; omega
    · have hl := extractMin_length he
      unfold isEmpty
      rw [List.isEmpty_iff, ← List.length_eq_zero]
      omega

theorem extractMin_preserves_heap_witness :
    insert gDist (insert gDist (insert gDist [] 0) 1) 2 ≠ [] ∧
    ∃ m rest, extractMin gDist (insert gDist (insert gDist (insert gDist [] 0) 1) 2)
        = some (m, rest) ∧
      (IsHeap gDist (insert gDist (insert gDist (insert gDist [] 0) 1) 2) → IsHeap gDist rest) ∧
      List.Perm (insert gDist (insert gDist (insert gDist [] 0) 1) 2) (m :: rest) ∧
      (∀ x, rest.count x
        = (insert gDist (insert gDist (insert gDist [] 0) 1) 2).count x
            - (if x = m then 1 else 0)) ∧
      rest.length + 1 = (insert gDist (insert gDist (insert gDist [] 0) 1) 2).length ∧
      (isEmpty rest = true
        ↔ (insert gDist (insert gDist (insert gDist [] 0) 1) 2).length = 1) :=
  ⟨by decide!, extractMin_preserves_heap gDist _ (by decide!)⟩

/-! ## Claims on the queue during a run -/

/-- C21 fails on the code: in the run from `A` on the five-city graph `g5` (fresh state)
the fourth pass of the loop finds the queue `[B, E]` with `B` at 12 degrees of arc and `E`
at 7, which is not in heap order; `extractMin` returns `B` and leaves `E` in the queue,
although `E.shortestDistance` is smaller, and `B` is marked visited while `E` is not.
The distance of `E` dropped from 13 to 7 in the third pass while `E` was in the queue, and
nothing put the heap in order again. -/
theorem extractMin_in_run_not_minimum :
    FreshGraph g5 ∧
    (loop axisHaversine 3 (initRun g5 0)).heap = [1, 4] ∧
    extractMin (loop axisHaversine 3 (initRun g5 0)).graph
      (loop axisHaversine 3 (initRun g5 0)).heap = some (1, [4]) ∧
    (vtx (loop axisHaversine 3 (initRun g5 0)).graph 4).shortestDistance
      < (vtx (loop axisHaversine 3 (initRun g5 0)).graph 1).shortestDistance ∧
    ¬ IsHeap (loop axisHaversine 3 (initRun g5 0)).graph
      (loop axisHaversine 3 (initRun g5 0)).heap ∧
    (vtx (loop axisHaversine 4 (initRun g5 0)).graph 1).visited = true ∧
    (vtx (loop axisHaversine 4 (initRun g5 0)).graph 4).visited = false ∧
    (loop axisHaversine 4 (initRun g5 0)).heap = [4] := by
  refine ⟨by decide, by decide!, by decide!, by decide!, ?_, by decide!, by decide!,
    by decide!⟩
  intro h
  have h1 := h 1 (by decide) (by decide!)
  revert h1
  decide!

/-- C22 fails on the code: in the run from `A` on `g5` the third pass extracts `C` and
relaxes its neighbor `E`, which is in the queue `[B, E]` with its `settled` flag set. The
relaxation lowers `E.shortestDistance` (from 13 degrees of arc to 7) and pushes no entry:
the queue is `[B, E]` as before. -/
theorem improvement_pushes_no_entry :
    extractMin (loop axisHaversine 2 (initRun g5 0)).graph
      (loop axisHaversine 2 (initRun g5 0)).heap = some (2, [1, 4]) ∧
    (vtx (loop axisHaversine 2 (initRun g5 0)).graph 2).neighbors = [4, 0] ∧
    (vtx (relaxNeighbor axisHaversine 2
        { graph := modify (loop axisHaversine 2 (initRun g5 0)).graph 2
            (fun v => { v with visited := true }),
          heap := [1, 4] } 4).graph 4).shortestDistance
      < (vtx (loop axisHaversine 2 (initRun g5 0)).graph 4).shortestDistance ∧
    (relaxNeighbor axisHaversine 2
        { graph := modify (loop axisHaversine 2 (initRun g5 0)).graph 2
            (fun v => { v with visited := true }),
          heap := [1, 4] } 4).heap = [1, 4] ∧
    (loop axisHaversine 3 (initRun g5 0)).heap = [1, 4] := by
  refine ⟨by decide!, by decide!, by decide!, by decide!, by decide!⟩

/-- C22, amended: a relaxation pushes a queue entry for the neighbor only when the
neighbor is unvisited and its `settled` flag is not set, and then it sets the flag; the
entries of the queue are then the old entries plus the neighbor. For a visited neighbor
the relaxation does nothing at all, whatever its flag. Once the flag is set, no relaxation
pushes an entry for the neighbor, whether or not its distance is lowered, and the flag
stays set through all later passes of the loop. -/
theorem relaxation_pushes_on_first_reach_only (hav : Haversine) (cur : Nat) (s : Run)
    (adj : Nat) :
    ((vtx s.graph adj).visited = true → relaxNeighbor hav cur s adj = s) ∧
    ((vtx s.graph adj).visited = false → (vtx s.graph adj).settled = false →
      List.Perm (relaxNeighbor hav cur s adj).heap (adj :: s.heap) ∧
      (adj < s.graph.length → (vtx (relaxNeighbor hav cur s adj).graph adj).settled = true)) ∧
    ((vtx s.graph adj).settled = true →
      (relaxNeighbor hav cur s adj).heap = s.heap ∧
      (∀ n, (vtx (loop hav n s).graph adj).settled = true)) := by
  refine ⟨fun hv => ?_, ?_, ?_⟩
  · unfold relaxNeighbor
    rw [if_pos hv]
  · intro hv hs
    have hs1 : (vtx (evaluateDistanceAndPath s.graph adj cur
        ((vtx s.graph cur).calculateDistance hav (vtx s.graph adj))) adj).settled = false := by
      rw [evaluateDistanceAndPath_settled]; exact hs
    unfold relaxNeighbor
    simp only [hv, hs1, Bool.false_eq_true, if_false]
    refine ⟨insert_perm _ _ _, fun hadj => ?_⟩
    rw [vtx_modify_same _ (by rw [evaluateDistanceAndPath_length]; exact hadj)]
  · intro hs
    refine ⟨?_, fun n => (loop_evolves hav n s).settled_mono adj hs⟩
    have hs1 : (vtx (evaluateDistanceAndPath s.graph adj cur
        ((vtx s.graph cur).calculateDistance hav (vtx s.graph adj))) adj).settled = true := by
      rw [evaluateDistanceAndPath_settled]; exact hs
    unfold relaxNeighbor
    split
    · rfl
    · simp only [hs1, if_true]

theorem relaxation_pushes_on_first_reach_only_witness :
    ((vtx (loop axisHaversine 1 (initRun g5 0)).graph 0).visited = true ∧
      (vtx (loop axisHaversine 1 (initRun g5 0)).graph 0).settled = false ∧
      relaxNeighbor axisHaversine 3 (loop axisHaversine 1 (initRun g5 0)) 0
        = loop axisHaversine 1 (initRun g5 0)) ∧
    (vtx (initRun g5 0).graph 3).visited = false ∧
    (vtx (initRun g5 0).graph 3).settled = false ∧
    List.Perm (relaxNeighbor axisHaversine 0 (initRun g5 0) 3).heap
      (3 :: (initRun g5 0).heap) ∧
    (3 < (initRun g5 0).graph.length →
      (vtx (relaxNeighbor axisHaversine 0 (initRun g5 0) 3).graph 3).settled = true) :=
  ⟨⟨by decide!, by decide!,
      (relaxation_pushes_on_first_reach_only axisHaversine 3
        (loop axisHaversine 1 (initRun g5 0)) 0).1 (by decide!)⟩,
    by decide!, by decide!,
    (relaxation_pushes_on_first_reach_only axisHaversine 0 (initRun g5 0) 3).2.1
      (by decide!) (by decide!)⟩

/-! ## Distances only fall, and paths change only with them -/

theorem improves_refl (g : Graph) : Improves g g :=
  fun _ => ⟨le_refl _, fun h => absurd rfl h⟩

theorem improves_trans {g1 g2 g3 : Graph} (h12 : Improves g1 g2) (h23 : Improves g2 g3) :
    Improves g1 g3 := by
  intro i
  obtain ⟨a1, a2⟩ := h12 i
  obtain ⟨b1, b2⟩ := h23 i
  refine ⟨le_trans b1 a1, fun hne => ?_⟩
  by_cases e : (vtx g2 i).shortestPath = (vtx g1 i).shortestPath
  · exact lt_of_lt_of_le (b2 (fun h => hne (h.trans e))) a1
  · exact lt_of_le_of_lt b1 (a2 e)

theorem improves_modify_flags (g : Graph) (i : Nat) (f : Vertex → Vertex)
    (hp : ∀ v, (f v).shortestPath = v.shortestPath)
    (hd : ∀ v, (f v).shortestDistance = v.shortestDistance) : Improves g (modify g i f) := by
  intro j
  rw [vtx_modify]
  split
  · rw [hp, hd]; exact ⟨le_refl _, fun h => absurd rfl h⟩
  · exact ⟨le_refl _, fun h => absurd rfl h⟩

theorem evaluateDistanceAndPath_improves (g : Graph) (adj src : Nat) (w : ℚ) :
    Improves g (evaluateDistanceAndPath g adj src w) := by
  by_cases hrel : (vtx g src).shortestDistance + w < (vtx g adj).shortestDistance
  · intro i
    unfold evaluateDistanceAndPath
    simp only
    rw [if_pos hrel, vtx_modify]
    split
    · rename_i hc
      rw [← hc.1]
      exact ⟨le_of_lt hrel, fun _ => hrel⟩
    · exact ⟨le_refl _, fun h => absurd rfl h⟩
  · rw [evaluateDistanceAndPath_of_not_lt g adj src w hrel]
    exact improves_refl g

theorem relaxNeighbor_improves (hav : Haversine) (cur : Nat) (s : Run) (adj : Nat) :
    Improves s.graph (relaxNeighbor hav cur s adj).graph := by
  unfold relaxNeighbor
  split
  · exact improves_refl _
  · simp only
    split
    · exact evaluateDistanceAndPath_improves _ _ _ _
    · exact improves_trans (evaluateDistanceAndPath_improves _ _ _ _)
        (improves_modify_flags _ adj (fun v => { v with settled := true })
          (fun _ => rfl) (fun _ => rfl))

theorem foldl_relaxNeighbor_improves (hav : Haversine) (cur : Nat) :
    ∀ (l : List Nat) (s : Run), Improves s.graph (l.foldl (relaxNeighbor hav cur) s).graph
  | [], s => improves_refl _
  | a :: l, s => by
      rw [List.foldl_cons]
      exact improves_trans (relaxNeighbor_improves hav cur s a)
        (foldl_relaxNeighbor_improves hav cur l _)

theorem step_improves (hav : Haversine) {s s' : Run} (h : step hav s = some s') :
    Improves s.graph s'.graph := by
  unfold step at h
  split at h
  · cases h
  · rename_i cur heap1 he
    split at h
    · cases h; exact improves_refl _
    · cases h
      exact improves_trans
        (improves_modify_flags s.graph cur (fun v => { v with visited := true })
          (fun _ => rfl) (fun _ => rfl))
        (foldl_relaxNeighbor_improves hav cur _ { graph := _, heap := heap1 })

theorem loop_improves (hav : Haversine) (s : Run) :
    ∀ fuel, Improves s.graph (loop hav fuel s).graph := fun fuel =>
  loop_induct hav (fun t => Improves s.graph t.graph)
    (fun _ _ h hs => improves_trans h (step_improves hav hs)) fuel s (improves_refl _)

theorem initRun_improves (g : Graph) (src : Nat) (h0 : 0 ≤ (vtx g src).shortestDistance) :
    Improves g (initRun g src).graph := by
  intro i
  rw [initRun_graph, vtx_modify]
  split
  · rename_i hc
    rw [← hc.1]
    exact ⟨h0, fun h => absurd rfl h⟩
  · exact ⟨le_refl _, fun h => absurd rfl h⟩

/-! ## Claim on the monotonicity of a run -/

/-- C25: across the steps of a run no vertex's `shortestDistance` grows, and a vertex's
`shortestPath` differs after a step only when its `shortestDistance` is strictly smaller.
This holds for one relaxation from any state, for one pass of the loop, for any number of
passes, and for the initial assignment `source->shortestDistance = 0` when the source's
distance is not negative (as in fresh state). -/
theorem distance_falls_path_follows (hav : Haversine) (s : Run) (i : Nat) :
    (∀ cur adj,
      (vtx (relaxNeighbor hav cur s adj).graph i).shortestDistance
          ≤ (vtx s.graph i).shortestDistance ∧
      ((vtx (relaxNeighbor hav cur s adj).graph i).shortestPath ≠ (vtx s.graph i).shortestPath →
        (vtx (relaxNeighbor hav cur s adj).graph i).shortestDistance
          < (vtx s.graph i).shortestDistance)) ∧
    (∀ s', step hav s = some s' →
      (vtx s'.graph i).shortestDistance ≤ (vtx s.graph i).shortestDistance ∧
      ((vtx s'.graph i).shortestPath ≠ (vtx s.graph i).shortestPath →
        (vtx s'.graph i).shortestDistance < (vtx s.graph i).shortestDistance)) ∧
    (∀ n,
      (vtx (loop hav n s).graph i).shortestDistance ≤ (vtx s.graph i).shortestDistance ∧
      ((vtx (loop hav n s).graph i).shortestPath ≠ (vtx s.graph i).shortestPath →
        (vtx (loop hav n s).graph i).shortestDistance < (vtx s.graph i).shortestDistance)) ∧
    (∀ src, 0 ≤ (vtx s.graph src).shortestDistance →
      (vtx (initRun s.graph src).graph i).shortestDistance ≤ (vtx s.graph i).shortestDistance ∧
      ((vtx (initRun s.graph src).graph i).shortestPath ≠ (vtx s.graph i).shortestPath →
        (vtx (initRun s.graph src).graph i).shortestDistance
          < (vtx s.graph i).shortestDistance)) :=
  ⟨fun cur adj => relaxNeighbor_improves hav cur s adj i,
    fun _ hs => step_improves hav hs i,
    fun n => loop_improves hav s n i,
    fun src h0 => initRun_improves s.graph src h0 i⟩

theorem distance_falls_path_follows_witness :
    (vtx (loop axisHaversine 1 (loop axisHaversine 2 (initRun g5 0))).graph 4).shortestPath
      ≠ (vtx (loop axisHaversine 2 (initRun g5 0)).graph 4).shortestPath ∧
    (vtx (loop axisHaversine 1 (loop axisHaversine 2 (initRun g5 0))).graph 4).shortestDistance
      < (vtx (loop axisHaversine 2 (initRun g5 0)).graph 4).shortestDistance :=
  ⟨by decide!,
    ((distance_falls_path_follows axisHaversine (loop axisHaversine 2 (initRun g5 0)) 4).2.2.1
      1).2 (by decide!)⟩

/-! ## The stored distance is the weight of the stored route -/

theorem weightInv_modify_flags {hav : Haversine} {g : Graph} {src : Nat} {cur : Graph}
    (h : WeightInv hav g src cur) (i : Nat) (f : Vertex → Vertex)
    (hp : ∀ v, (f v).shortestPath = v.shortestPath)
    (hd : ∀ v, (f v).shortestDistance = v.shortestDistance) :
    WeightInv hav g src (modify cur i f) := by
  have hpath : ∀ v, (vtx (modify cur i f) v).shortestPath = (vtx cur v).shortestPath := by
    intro v; rw [vtx_modify]; split
    · exact hp _
    · rfl
  have hdist : ∀ v, (vtx (modify cur i f) v).shortestDistance
      = (vtx cur v).shortestDistance := by
    intro v; rw [vtx_modify]; split
    · exact hd _
    · rfl
  intro v
  rw [hpath, hdist]
  refine ⟨(h v).1, (h v).2.1, fun p u hvp => ?_⟩
  rw [hdist]
  exact (h v).2.2 p u hvp

theorem evaluateDistanceAndPath_weightInv {hav : Haversine} {g : Graph} {src : Nat}
    {cur : Graph} (h : WeightInv hav g src cur) (hpre : PrefixInv cur) (adj c : Nat)
    (hw : 0 ≤ weight hav g c adj) (hc : (vtx cur c).visited = true)
    (hadj : (vtx cur adj).visited = false) (hedge : Adj g c adj) :
    WeightInv hav g src (evaluateDistanceAndPath cur adj c (weight hav g c adj)) := by
  by_cases hrel : (vtx cur c).shortestDistance + weight hav g c adj
      < (vtx cur adj).shortestDistance
  · by_cases hlt : adj < cur.length
    · have hne : ∀ i, i ≠ adj →
          vtx (evaluateDistanceAndPath cur adj c (weight hav g c adj)) i = vtx cur i :=
        fun i hi => evaluateDistanceAndPath_vtx_ne cur adj c _ hi
      have hcadj : c ≠ adj := by
        intro e; rw [e, hadj] at hc; cases hc
      have hbound := (h adj).1
      intro v
      by_cases hv : v = adj
      · subst hv
        rw [evaluateDistanceAndPath_vtx_adj cur v c _ hlt hrel]
        simp only
        refine ⟨by linarith, fun hnil => ?_, fun p u hvp => ?_⟩
        · simp at hnil
        · have hpu := List.append_inj' hvp rfl
          have hu : c = u := by simpa using hpu.2
          subst hu
          rw [hne c hcadj]
          exact ⟨by linarith, hedge, rfl⟩
      · rw [hne v hv]
        refine ⟨(h v).1, (h v).2.1, fun p u hvp => ?_⟩
        have hu : u ≠ adj := by
          intro e
          have := (hpre v p u hvp).1
          rw [e, hadj] at this
          cases this
        rw [hne u hu]
        exact (h v).2.2 p u hvp
    · have hcur : evaluateDistanceAndPath cur adj c (weight hav g c adj) = cur := by
        unfold evaluateDistanceAndPath
        simp only
        rw [if_pos hrel]
        unfold modify
        exact List.set_eq_of_length_le (Nat.le_of_not_lt hlt)
      rw [hcur]
      exact h
  · rw [evaluateDistanceAndPath_of_not_lt cur adj c _ hrel]
    exact h

theorem relaxNeighbor_weightInv {hav : Haversine} (hnn : ∀ a b c d, 0 ≤ hav a b c d)
    {g : Graph} {src : Nat} {s : Run} (hsame : SameGraph g s.graph)
    (hpre : PrefixInv s.graph) (h : WeightInv hav g src s.graph) (c adj : Nat)
    (hc : (vtx s.graph c).visited = true) (hedge : Adj g c adj) :
    WeightInv hav g src (relaxNeighbor hav c s adj).graph := by
  unfold relaxNeighbor
  split
  · exact h
  · rename_i hvb
    have hv : (vtx s.graph adj).visited = false := by simpa using hvb
    have hw : 0 ≤ weight hav g c adj := hnn _ _ _ _
    have h1 := evaluateDistanceAndPath_weightInv h hpre adj c hw hc hv hedge
    simp only
    rw [hsame.weight_eq hav c adj]
    split
    · exact h1
    · exact weightInv_modify_flags h1 adj (fun v => { v with settled := true })
        (fun _ => rfl) (fun _ => rfl)

theorem foldl_relaxNeighbor_weightInv {hav : Haversine} (hnn : ∀ a b c d, 0 ≤ hav a b c d)
    {g : Graph} {src : Nat} (c : Nat) :
    ∀ (l : List Nat) (s : Run), SameGraph g s.graph → PrefixInv s.graph →
      WeightInv hav g src s.graph → (vtx s.graph c).visited = true →
      (∀ a ∈ l, Adj g c a) → WeightInv hav g src (l.foldl (relaxNeighbor hav c) s).graph
  | [], _, _, _, h, _, _ => h
  | a :: l, s, hsame, hpre, h, hc, hl => by
      rw [List.foldl_cons]
      apply foldl_relaxNeighbor_weightInv hnn c l _
        (hsame.evolves (relaxNeighbor_evolves hav c s a))
        (relaxNeighbor_prefixInv hnn hpre c a hc)
        (relaxNeighbor_weightInv hnn hsame hpre h c a hc (hl a (List.mem_cons_self _ _)))
      · rw [relaxNeighbor_visited]
        exact hc
      · exact fun x hx => hl x (List.mem_cons_of_mem _ hx)

theorem step_weightInv {hav : Haversine} (hnn : ∀ a b c d, 0 ≤ hav a b c d)
    {g : Graph} {src : Nat} {s s' : Run} (hsame : SameGraph g s.graph)
    (hpre : PrefixInv s.graph) (h : WeightInv hav g src s.graph)
    (hs : step hav s = some s') : WeightInv hav g src s'.graph := by
  unfold step at hs
  split at hs
  · cases hs
  · rename_i c heap1 he
    split at hs
    · cases hs; exact h
    · rename_i hvis
      have hv : (vtx s.graph c).visited = false := by simpa using hvis
      cases hs
      have hev := markVisited_evolves s.graph c hv
      have h1 : WeightInv hav g src (modify s.graph c (fun v => { v with visited := true })) :=
        weightInv_modify_flags h c (fun v => { v with visited := true })
          (fun _ => rfl) (fun _ => rfl)
      have hp1 : PrefixInv (modify s.graph c (fun v => { v with visited := true })) :=
        prefixInv_modify_flags hpre c (fun v => { v with visited := true })
          (fun _ => rfl) (fun _ => rfl) (fun _ _ => rfl)
      have hs1 : SameGraph g (modify s.graph c (fun v => { v with visited := true })) :=
        hsame.evolves hev
      by_cases hc : c < s.graph.length
      · apply foldl_relaxNeighbor_weightInv hnn c _
          { graph := modify s.graph c (fun v => { v with visited := true }), heap := heap1 }
          hs1 hp1 h1 (by dsimp only; rw [vtx_modify_same _ hc])
        intro a ha
        unfold Adj
        rw [← (hs1.2 c).2.2]
        exact ha
      · have hn : (vtx (modify s.graph c (fun v => { v with visited := true })) c).neighbors
            = [] := by
          rw [vtx_of_le (by rw [length_modify]; exact Nat.le_of_not_lt hc)]
          rfl
        rw [hn]
        exact h1

theorem run_weightInv (hav : Haversine) (g : Graph) (src : Nat) (hfresh : FreshGraph g)
    (hnn : ∀ a b c d, 0 ≤ hav a b c d) :
    PrefixInv (calculateShortestPath hav g src) ∧
      WeightInv hav g src (calculateShortestPath hav g src) := by
  have hfr : ∀ v, Fresh (vtx g v) := freshGraph_vtx hfresh
  have hinit : SameGraph g (initRun g src).graph ∧ PrefixInv (initRun g src).graph ∧
      WeightInv hav g src (initRun g src).graph := by
    have hpath : ∀ v, (vtx (initRun g src).graph v).shortestPath = [] := by
      intro v
      rw [initRun_graph, vtx_modify]
      split
      · exact (hfr v).2.2.2
      · exact (hfr v).2.2.2
    refine ⟨⟨?_, fun i => ?_⟩, ?_, ?_⟩
    · rw [initRun_graph, length_modify]
    · rw [initRun_graph, vtx_modify]
      split
      · exact ⟨rfl, rfl, rfl⟩
      · exact ⟨rfl, rfl, rfl⟩
    · intro v p u hvp
      rw [hpath] at hvp
      simp at hvp
    · intro v
      refine ⟨?_, fun _ => ?_, fun p u hvp => ?_⟩
      · rw [initRun_graph, vtx_modify]
        split
        · show (0 : ℚ) ≤ infinity
          unfold infinity; norm_num
        · rw [(hfr v).1]
      · rw [initRun_graph, vtx_modify]
        split
        · rename_i hc
          exact Or.inr ⟨hc.1.symm, rfl⟩
        · exact Or.inl (hfr v).1
      · rw [hpath] at hvp
        simp at hvp
  have hfinal := loop_induct hav
    (fun s => SameGraph g s.graph ∧ PrefixInv s.graph ∧ WeightInv hav g src s.graph)
    (fun s s' h hs => ⟨h.1.evolves (step_evolves hav hs), step_prefixInv hnn h.2.1 hs,
      step_weightInv hnn h.1 h.2.1 h.2.2 hs⟩)
    (g.length + 1) (initRun g src) hinit
  exact ⟨hfinal.2.1, hfinal.2.2⟩

theorem weightInv_route {hav : Haversine} {g : Graph} {src : Nat} {cur : Graph}
    (hpre : PrefixInv cur) (h : WeightInv hav g src cur) :
    ∀ (n v : Nat), (vtx cur v).shortestPath.length = n →
      (vtx cur v).shortestDistance < infinity →
      (vtx cur v).shortestDistance = pathWeight hav g ((vtx cur v).shortestPath ++ [v]) ∧
      IsWalk g ((vtx cur v).shortestPath ++ [v]) ∧
      ((vtx cur v).shortestPath ++ [v]).head? = some src
  | 0, v, hn, hlt => by
      have hnil := List.length_eq_zero.mp hn
      rcases (h v).2.1 hnil with hinf | ⟨hsrc, h0⟩
      · rw [hinf] at hlt
        exact absurd hlt (lt_irrefl _)
      · rw [hnil, h0, hsrc]
        exact ⟨rfl, trivial, rfl⟩
  | n + 1, v, hn, _ => by
      rcases List.eq_nil_or_concat (vtx cur v).shortestPath with e | ⟨p, u, e⟩
      · rw [e] at hn; simp at hn
      · rw [List.concat_eq_append] at e
        obtain ⟨_, h2, _⟩ := hpre v p u e
        obtain ⟨hu, hedge, hd⟩ := (h v).2.2 p u e
        have hlen : (vtx cur u).shortestPath.length = n := by
          rw [h2]
          rw [e] at hn
          simpa using hn
        obtain ⟨ih1, ih2, ih3⟩ := weightInv_route hpre h n u hlen hu
        rw [h2] at ih1 ih2 ih3
        rw [e]
        refine ⟨?_, isWalk_snoc g u v p ih2 hedge, ?_⟩
        · rw [pathWeight_snoc, hd, ih1]
        · rw [List.head?_append_of_ne_nil _ (by simp)]
          exact ih3

/-! ## Claim on the reported distance -/

/-- C28: after a run from `S` on a graph in fresh state, with non-negative edge weights,
every vertex `V` whose `shortestDistance` is below `infinity` has as `shortestDistance` the
sum of the edge weights (`calculateDistance`) between consecutive vertices of `getPath(V)`;
the path starts at `S` and each of its vertices is a neighbor of the one before it, so the
reported distance is the length of a route of the graph. -/
theorem reported_distance_is_route_weight (hav : Haversine) (g : Graph) (src : Nat)
    (hfresh : FreshGraph g) (hnn : ∀ a b c d, 0 ≤ hav a b c d) (v : Nat)
    (hv : (vtx (calculateShortestPath hav g src) v).shortestDistance < infinity) :
    (vtx (calculateShortestPath hav g src) v).shortestDistance
      = pathWeight hav g (getPath (calculateShortestPath hav g src) v) ∧
    IsWalk g (getPath (calculateShortestPath hav g src) v) ∧
    (getPath (calculateShortestPath hav g src) v).head? = some src ∧
    (getPath (calculateShortestPath hav g src) v).getLast? = some v := by
  obtain ⟨hpre, hw⟩ := run_weightInv hav g src hfresh hnn
  obtain ⟨h1, h2, h3⟩ := weightInv_route hpre hw _ v rfl hv
  unfold getPath
  exact ⟨h1, h2, h3, by simp⟩

theorem reported_distance_is_route_weight_witness :
    FreshGraph g5 ∧
    (vtx (calculateShortestPath axisHaversine g5 0) 1).shortestDistance < infinity ∧
    (vtx (calculateShortestPath axisHaversine g5 0) 1).shortestDistance
      = pathWeight axisHaversine g5 (getPath (calculateShortestPath axisHaversine g5 0) 1) ∧
    IsWalk g5 (getPath (calculateShortestPath axisHaversine g5 0) 1) ∧
    (getPath (calculateShortestPath axisHaversine g5 0) 1).head? = some 0 ∧
    (getPath (calculateShortestPath axisHaversine g5 0) 1).getLast? = some 1 :=
  ⟨by decide, by decide!,
    reported_distance_is_route_weight axisHaversine g5 0 (by decide) axisHaversine_nonneg 1
      (by decide!)⟩

/-! ## The loading loop of `main` -/

theorem addNode_eq_append (city : String) (latitude longitude : ℚ) :
    ∀ ll : LinkedList, addNode ll city latitude longitude
      = ll ++ [{ city := city, latitude := latitude, longitude := longitude }]
  | [] => rfl
  | temp :: rest => by
      rw [addNode, addNode_eq_append city latitude longitude rest]
      rfl

/-- The loop stops at the node whose `next` is `NULL`, before the call of `addVertex` for
it: the graph receives the nodes in front of the last one, in list order. -/
theorem loadCities_append_last (last : Node) :
    ∀ (front : LinkedList) (graph : Graph), loadCities (front ++ [last]) graph
      = some (graph ++ front.map (fun n => Vertex.new n.city n.latitude n.longitude))
  | [], graph => by simp [loadCities]
  | [n], graph => by simp [loadCities, addVertex]
  | n :: m :: rest, graph => by
      have ih := loadCities_append_last last (m :: rest)
        (addVertex graph n.city n.latitude n.longitude)
      simp only [List.cons_append] at ih ⊢
      rw [loadCities, ih]
      simp [addVertex]

/-! ## Claim on the loading loop -/

/-- C31 fails on the code: `main` builds a list of 73 cities whose last node is `Swat`, and
its loading loop leaves a graph of 72 vertices in which `getVertex` finds `Malakand` (the
node before the last) and does not find `Swat`; the later call `addEdge("Malakand", "Swat")`
of `main` therefore changes nothing. A list of one node leaves the graph empty. -/
theorem loading_loop_skips_last_city :
    mainCities.length = 73 ∧
    (mainCities.getLast?.map (fun n => n.city)) = some "Swat" ∧
    (∃ g, loadCities mainCities [] = some g ∧ g.length = 72 ∧
      getVertex g "Malakand" = some 70 ∧ getVertex g "Swat" = none ∧
      addEdge g "Malakand" "Swat" = g) ∧
    loadCities (addNode [] "Swat" 35.2227 72.4258) [] = some [] := by
  refine ⟨by decide!, by decide!, ?_, rfl⟩
  have hsplit : mainCities = mainCities.dropLast ++
      [{ city := "Swat", latitude := 35.2227, longitude := 72.4258 }] := by decide!
  refine ⟨[] ++ mainCities.dropLast.map (fun n => Vertex.new n.city n.latitude n.longitude),
    ?_, by decide!, by decide!, by decide!, ?_⟩
  · rw [← loadCities_append_last, ← hsplit]
  · exact addEdge_of_none (Or.inr (by decide!))

/-! ## The distance function in binary32 arithmetic -/

theorem antipodeLib_values : AntipodeValues antipodeLib :=
  ⟨by decide!, by decide!, by decide!, by decide!, by decide!, by decide!,
    fun x hx => by simp [antipodeLib, hx]⟩

/-- Between antipodal points at latitudes 78 and -78 degrees the variable `a` of
`haversine` is rounded to the `float` above 1, in each of the four directions that the
graph `gAntipodes` uses. -/
theorem haversineA_antipodes (m : FloatLib) (h : AntipodeValues m) :
    haversineA m (-78) (-180) 78 0 = 8388609 / 8388608 ∧
    haversineA m 78 0 (-78) (-180) = 8388609 / 8388608 ∧
    haversineA m 78 0 (-78) 180 = 8388609 / 8388608 ∧
    haversineA m (-78) 180 78 0 = 8388609 / 8388608 := by
  obtain ⟨hs1, hs1n, hs2, hs2n, hc, hcn, _⟩ := h
  have eUp : toFloat (deg2radFloat (toFloat ((78 : ℚ) - -78)) / 2) = 11419879 / 8388608 := by
    decide!
  have eDown : toFloat (deg2radFloat (toFloat ((-78 : ℚ) - 78)) / 2)
      = -(11419879 / 8388608) := by decide!
  have eEast : toFloat (deg2radFloat (toFloat ((0 : ℚ) - -180)) / 2) = 823549 / 524288 := by
    decide!
  have eWest : toFloat (deg2radFloat (toFloat ((-180 : ℚ) - 0)) / 2)
      = -(823549 / 524288) := by decide!
  have eEast2 : toFloat (deg2radFloat (toFloat ((180 : ℚ) - 0)) / 2) = 823549 / 524288 := by
    decide!
  have eWest2 : toFloat (deg2radFloat (toFloat ((0 : ℚ) - 180)) / 2)
      = -(823549 / 524288) := by decide!
  have eN : deg2radFloat 78 = 11419879 / 8388608 := by decide!
  have eS : deg2radFloat (-78) = -(11419879 / 8388608) := by decide!
  refine ⟨?_, ?_, ?_, ?_⟩
  · unfold haversineA
    simp only [eUp, eEast, eN, eS, hs1, hs2, hc, hcn]
    decide!
  · unfold haversineA
    simp only [eDown, eWest, eN, eS, hs1n, hs2n, hc, hcn]
    decide!
  · unfold haversineA
    simp only [eDown, eEast2, eN, eS, hs1n, hs2, hc, hcn]
    decide!
  · unfold haversineA
    simp only [eUp, eWest2, eN, eS, hs1, hs2n, hc, hcn]
    decide!

theorem haversineFloat_nan_of_a {m : FloatLib} (hsqrt : ∀ x, x < 0 → m.sqrt x = none)
    {lat1 lon1 lat2 lon2 : ℚ}
    (ha : haversineA m lat1 lon1 lat2 lon2 = 8388609 / 8388608) :
    haversineFloat m lat1 lon1 lat2 lon2 = none := by
  have hneg : toFloat (1 - (8388609 / 8388608 : ℚ)) < 0 := by decide!
  unfold haversineFloat
  simp only [ha, hsqrt _ hneg]
  cases m.sqrt (8388609 / 8388608) <;> rfl

/-- With the library values of `AntipodeValues` the function returns NaN in each of the
four directions. -/
theorem haversineFloat_antipodes (m : FloatLib) (h : AntipodeValues m) :
    haversineFloat m (-78) (-180) 78 0 = none ∧
    haversineFloat m 78 0 (-78) (-180) = none ∧
    haversineFloat m 78 0 (-78) 180 = none ∧
    haversineFloat m (-78) 180 78 0 = none := by
  obtain ⟨h1, h2, h3, h4⟩ := haversineA_antipodes m h
  have hsqrt := h.2.2.2.2.2.2
  exact ⟨haversineFloat_nan_of_a hsqrt h1, haversineFloat_nan_of_a hsqrt h2,
    haversineFloat_nan_of_a hsqrt h3, haversineFloat_nan_of_a hsqrt h4⟩

/-! ## The engine with edge weights that may be NaN -/

/-- With edge weights that are numbers the `float` engine is the engine over numbers. -/
theorem relaxNeighborFloat_of_number (hav : Haversine) (cur : Nat) (s : Run) (adj : Nat) :
    relaxNeighborFloat (fun a b c d => some (hav a b c d)) cur s adj
      = relaxNeighbor hav cur s adj := rfl

theorem stepFloat_of_number (hav : Haversine) (s : Run) :
    stepFloat (fun a b c d => some (hav a b c d)) s = step hav s := rfl

theorem loopFloat_of_number (hav : Haversine) :
    ∀ (fuel : Nat) (s : Run),
      loopFloat (fun a b c d => some (hav a b c d)) fuel s = loop hav fuel s
  | 0, _ => rfl
  | fuel + 1, s => by
      unfold loopFloat loop
      rw [stepFloat_of_number]
      split
      · rfl
      · split
        · rfl
        · exact loopFloat_of_number hav fuel _

theorem getShortestPathFloat_of_number (hav : Haversine) (g : Graph) (src dst : Nat) :
    getShortestPathFloat (fun a b c d => some (hav a b c d)) g src dst
      = getShortestPath hav g src dst := by
  unfold getShortestPathFloat getShortestPath calculateShortestPathFloat calculateShortestPath
  rw [loopFloat_of_number]

theorem evaluateDistanceAndPathFloat_evolves (g : Graph) (adj src : Nat) (w : FloatVal)
    (hv : (vtx g adj).visited = false) :
    Evolves g (evaluateDistanceAndPathFloat g adj src w) := by
  cases w with
  | none => exact Evolves.refl g
  | some w => exact evaluateDistanceAndPath_evolves g adj src w hv

theorem evaluateDistanceAndPathFloat_visited (g : Graph) (adj src : Nat) (w : FloatVal)
    (i : Nat) :
    (vtx (evaluateDistanceAndPathFloat g adj src w) i).visited = (vtx g i).visited := by
  cases w with
  | none => rfl
  | some w => exact evaluateDistanceAndPath_visited g adj src w i

theorem relaxNeighborFloat_evolves (hav : FloatHaversine) (cur : Nat) (s : Run) (adj : Nat) :
    Evolves s.graph (relaxNeighborFloat hav cur s adj).graph := by
  unfold relaxNeighborFloat
  split
  · exact Evolves.refl _
  · rename_i hv
    have hv' : (vtx s.graph adj).visited = false := by simpa using hv
    have h1 := evaluateDistanceAndPathFloat_evolves s.graph adj cur
      ((vtx s.graph cur).calculateDistanceFloat hav (vtx s.graph adj)) hv'
    simp only
    split
    · exact h1
    · refine h1.trans (evolves_modify _ adj (fun v => { v with settled := true })
        (fun _ => rfl) (fun _ => rfl) (fun _ => rfl) (fun _ => rfl) (fun _ _ => rfl)
        (le_refl _) ?_)
      rw [evaluateDistanceAndPathFloat_visited]; exact hv'

theorem foldl_relaxNeighborFloat_evolves (hav : FloatHaversine) (cur : Nat) :
    ∀ (l : List Nat) (s : Run),
      Evolves s.graph (l.foldl (relaxNeighborFloat hav cur) s).graph
  | [], s => Evolves.refl _
  | a :: l, s => by
      rw [List.foldl_cons]
      exact (relaxNeighborFloat_evolves hav cur s a).trans
        (foldl_relaxNeighborFloat_evolves hav cur l _)

theorem stepFloat_evolves (hav : FloatHaversine) {s s' : Run}
    (h : stepFloat hav s = some s') : Evolves s.graph s'.graph := by
  unfold stepFloat at h
  split at h
  · cases h
  · rename_i cur heap1 he
    split at h
    · cases h; exact Evolves.refl _
    · rename_i hv
      have hv' : (vtx s.graph cur).visited = false := by simpa using hv
      cases h
      exact (markVisited_evolves s.graph cur hv').trans
        (foldl_relaxNeighborFloat_evolves hav cur _ { graph := _, heap := heap1 })

/-- The run consults the distance function only along the links of the graph: two distance
functions that agree there give the same relaxation. -/
theorem relaxNeighborFloat_congr {hav hav' : FloatHaversine} {g : Graph}
    (h : ∀ i, ∀ j ∈ (vtx g i).neighbors,
      (vtx g i).calculateDistanceFloat hav (vtx g j)
        = (vtx g i).calculateDistanceFloat hav' (vtx g j))
    {s : Run} (hsame : SameGraph g s.graph) {cur adj : Nat}
    (hadj : adj ∈ (vtx g cur).neighbors) :
    relaxNeighborFloat hav cur s adj = relaxNeighborFloat hav' cur s adj := by
  have e : (vtx s.graph cur).calculateDistanceFloat hav (vtx s.graph adj)
      = (vtx s.graph cur).calculateDistanceFloat hav' (vtx s.graph adj) := by
    have := h cur adj hadj
    unfold Vertex.calculateDistanceFloat at this ⊢
    rw [(hsame.2 cur).1, (hsame.2 cur).2.1, (hsame.2 adj).1, (hsame.2 adj).2.1]
    exact this
  unfold relaxNeighborFloat
  rw [e]

theorem foldl_relaxNeighborFloat_congr {hav hav' : FloatHaversine} {g : Graph}
    (h : ∀ i, ∀ j ∈ (vtx g i).neighbors,
      (vtx g i).calculateDistanceFloat hav (vtx g j)
        = (vtx g i).calculateDistanceFloat hav' (vtx g j))
    (cur : Nat) :
    ∀ (l : List Nat) (s : Run), SameGraph g s.graph → (∀ a ∈ l, a ∈ (vtx g cur).neighbors) →
      l.foldl (relaxNeighborFloat hav cur) s = l.foldl (relaxNeighborFloat hav' cur) s
  | [], _, _, _ => rfl
  | a :: l, s, hsame, hl => by
      rw [List.foldl_cons, List.foldl_cons,
        relaxNeighborFloat_congr h hsame (hl a (List.mem_cons_self _ _))]
      exact foldl_relaxNeighborFloat_congr h cur l _
        (hsame.evolves (relaxNeighborFloat_evolves hav' cur s a))
        (fun x hx => hl x (List.mem_cons_of_mem _ hx))

theorem stepFloat_congr {hav hav' : FloatHaversine} {g : Graph}
    (h : ∀ i, ∀ j ∈ (vtx g i).neighbors,
      (vtx g i).calculateDistanceFloat hav (vtx g j)
        = (vtx g i).calculateDistanceFloat hav' (vtx g j))
    {s : Run} (hsame : SameGraph g s.graph) : stepFloat hav s = stepFloat hav' s := by
  unfold stepFloat
  split
  · rfl
  · rename_i cur heap1 he
    split
    · rfl
    · rename_i hv
      have hv' : (vtx s.graph cur).visited = false := by simpa using hv
      have hs1 : SameGraph g (modify s.graph cur (fun v => { v with visited := true })) :=
        hsame.evolves (markVisited_evolves s.graph cur hv')
      simp only
      rw [foldl_relaxNeighborFloat_congr h cur _
        { graph := modify s.graph cur (fun v => { v with visited := true }), heap := heap1 }
        hs1 (fun a ha => by rw [← (hs1.2 cur).2.2]; exact ha)]

theorem loopFloat_congr {hav hav' : FloatHaversine} {g : Graph}
    (h : ∀ i, ∀ j ∈ (vtx g i).neighbors,
      (vtx g i).calculateDistanceFloat hav (vtx g j)
        = (vtx g i).calculateDistanceFloat hav' (vtx g j)) :
    ∀ (fuel : Nat) (s : Run), SameGraph g s.graph →
      loopFloat hav fuel s = loopFloat hav' fuel s
  | 0, _, _ => rfl
  | fuel + 1, s, hsame => by
      unfold loopFloat
      rw [stepFloat_congr h hsame]
      split
      · rfl
      · split
        · rfl
        · rename_i s1 hs1
          exact loopFloat_congr h fuel s1 (hsame.evolves (stepFloat_evolves hav' hs1))

theorem sameGraph_initRun (g : Graph) (src : Nat) : SameGraph g (initRun g src).graph := by
  refine ⟨by rw [initRun_graph, length_modify], fun i => ?_⟩
  rw [initRun_graph, vtx_modify]
  split
  · exact ⟨rfl, rfl, rfl⟩
  · exact ⟨rfl, rfl, rfl⟩

/-! ## Claims on `haversine` in the arithmetic of the source -/

/-- C18 fails on the code: for the points `(-78, -180)` and `(78, 0)`, whose latitudes are
in `[-90, 90]`, the sum `a` is rounded to `1 + 2^-23`; `1 - a` is negative, `sqrt(1 - a)` is
NaN and `haversine` returns NaN, so the test `0 <= result` is false, also for the edge
weight that `calculateDistance` hands to the engine.  This holds for every math library
with the correctly rounded values listed in `AntipodeValues`. -/
theorem haversine_nan_between_antipodes (m : FloatLib) (h : AntipodeValues m) :
    ((-90 : ℚ) ≤ -78 ∧ (78 : ℚ) ≤ 90) ∧
    haversineA m (-78) (-180) 78 0 = 1 + 1 / 2 ^ 23 ∧
    haversineFloat m (-78) (-180) 78 0 = none ∧
    floatLe (some 0) (haversineFloat m (-78) (-180) 78 0) = false ∧
    floatLe (some 0)
      ((vtx gAntipodes 0).calculateDistanceFloat (haversineFloat m) (vtx gAntipodes 1))
      = false := by
  have ha := (haversineA_antipodes m h).1
  have hn := (haversineFloat_antipodes m h).1
  have hw : (vtx gAntipodes 0).calculateDistanceFloat (haversineFloat m) (vtx gAntipodes 1)
      = haversineFloat m (-78) (-180) 78 0 := by
    unfold Vertex.calculateDistanceFloat
    rw [show (vtx gAntipodes 0).latitude = -78 from by decide!,
      show (vtx gAntipodes 0).longitude = -180 from by decide!,
      show (vtx gAntipodes 1).latitude = 78 from by decide!,
      show (vtx gAntipodes 1).longitude = 0 from by decide!]
  refine ⟨⟨by norm_num, by norm_num⟩, ?_, hn, ?_, ?_⟩
  · rw [ha]; norm_num
  · rw [hn]; rfl
  · rw [hw, hn]; rfl

theorem haversine_nan_between_antipodes_witness :
    AntipodeValues antipodeLib ∧
    haversineA antipodeLib (-78) (-180) 78 0 = 1 + 1 / 2 ^ 23 ∧
    haversineFloat antipodeLib (-78) (-180) 78 0 = none ∧
    floatLe (some 0) (haversineFloat antipodeLib (-78) (-180) 78 0) = false :=
  ⟨antipodeLib_values,
    (haversine_nan_between_antipodes antipodeLib antipodeLib_values).2.1,
    (haversine_nan_between_antipodes antipodeLib antipodeLib_values).2.2.1,
    (haversine_nan_between_antipodes antipodeLib antipodeLib_values).2.2.2.1⟩

/-- C16 fails on the code: for the points `(-78, -180)` and `(78, 0)` both
`haversine(lat1, lon1, lat2, lon2)` and `haversine(lat2, lon2, lat1, lon1)` are NaN, and
the comparison `==` of the two results is false.  This holds for every math library with
the correctly rounded values listed in `AntipodeValues`. -/
theorem haversine_swap_compares_unequal (m : FloatLib) (h : AntipodeValues m) :
    haversineFloat m (-78) (-180) 78 0 = none ∧
    haversineFloat m 78 0 (-78) (-180) = none ∧
    floatEq (haversineFloat m (-78) (-180) 78 0) (haversineFloat m 78 0 (-78) (-180))
      = false := by
  obtain ⟨h1, h2, _, _⟩ := haversineFloat_antipodes m h
  refine ⟨h1, h2, ?_⟩
  rw [h1, h2]
  rfl

theorem haversine_swap_compares_unequal_witness :
    AntipodeValues antipodeLib ∧
    floatEq (haversineFloat antipodeLib (-78) (-180) 78 0)
      (haversineFloat antipodeLib 78 0 (-78) (-180)) = false :=
  ⟨antipodeLib_values,
    (haversine_swap_compares_unequal antipodeLib antipodeLib_values).2.2⟩

/-! ## Claim on the line of three cities, in the arithmetic of the source -/

theorem gAntipodes_weights_nan (m : FloatLib) (h : AntipodeValues m) :
    ∀ i, ∀ j ∈ (vtx gAntipodes i).neighbors,
      (vtx gAntipodes i).calculateDistanceFloat (haversineFloat m) (vtx gAntipodes j)
        = (vtx gAntipodes i).calculateDistanceFloat (fun _ _ _ _ => none)
            (vtx gAntipodes j) := by
  obtain ⟨hAB, hBA, hBC, hCB⟩ := haversineFloat_antipodes m h
  have eA : (vtx gAntipodes 0).latitude = -78 ∧ (vtx gAntipodes 0).longitude = -180 :=
    ⟨by decide!, by decide!⟩
  have eB : (vtx gAntipodes 1).latitude = 78 ∧ (vtx gAntipodes 1).longitude = 0 :=
    ⟨by decide!, by decide!⟩
  have eC : (vtx gAntipodes 2).latitude = -78 ∧ (vtx gAntipodes 2).longitude = 180 :=
    ⟨by decide!, by decide!⟩
  intro i j hj
  unfold Vertex.calculateDistanceFloat
  match i with
  | 0 =>
    rw [show (vtx gAntipodes 0).neighbors = [1] from by decide] at hj
    have ej : j = 1 := by simpa using hj
    subst ej
    rw [eA.1, eA.2, eB.1, eB.2]
    exact hAB
  | 1 =>
    rw [show (vtx gAntipodes 1).neighbors = [0, 2] from by decide] at hj
    have ej : j = 0 ∨ j = 2 := by simpa using hj
    rcases ej with ej | ej
    · subst ej
      rw [eA.1, eA.2, eB.1, eB.2]
      exact hBA
    · subst ej
      rw [eC.1, eC.2, eB.1, eB.2]
      exact hBC
  | 2 =>
    rw [show (vtx gAntipodes 2).neighbors = [1] from by decide] at hj
    have ej : j = 1 := by simpa using hj
    subst ej
    rw [eC.1, eC.2, eB.1, eB.2]
    exact hCB
  | n + 3 =>
    have hlen : gAntipodes.length ≤ n + 3 := by
      rw [show gAntipodes.length = 3 from by decide]
      omega
    rw [vtx_of_le hlen] at hj
    simp [default_neighbors] at hj

/-- C5 fails on the code: the three cities `A(-78, -180)`, `B(78, 0)`, `C(-78, 180)` in
fresh state with exactly the roads `A-B` and `B-C`.  Both edge weights are NaN, so no
relaxation passes its test: the run ends with an empty queue, `getShortestPath(A, C)`
returns `[C]` instead of `[A, B, C]`, and `C.shortestDistance` is still `infinity`.  This
holds for every math library with the correctly rounded values listed in
`AntipodeValues`. -/
theorem line_query_between_antipodes (m : FloatLib) (h : AntipodeValues m) :
    FreshGraph gAntipodes ∧
    ((vtx gAntipodes 0).neighbors = [1] ∧ (vtx gAntipodes 1).neighbors = [0, 2] ∧
      (vtx gAntipodes 2).neighbors = [1]) ∧
    (loopFloat (haversineFloat m) (gAntipodes.length + 1) (initRun gAntipodes 0)).heap = [] ∧
    (getShortestPathFloat (haversineFloat m) gAntipodes 0 2).2 = [2] ∧
    (vtx (getShortestPathFloat (haversineFloat m) gAntipodes 0 2).1 2).shortestDistance
      = infinity := by
  have hloop := loopFloat_congr (gAntipodes_weights_nan m h) (gAntipodes.length + 1)
    (initRun gAntipodes 0) (sameGraph_initRun gAntipodes 0)
  refine ⟨by decide, ⟨by decide, by decide, by decide⟩, ?_, ?_, ?_⟩
  · rw [hloop]
    decide!
  · unfold getShortestPathFloat calculateShortestPathFloat
    rw [hloop]
    decide!
  · unfold getShortestPathFloat calculateShortestPathFloat
    rw [hloop]
    decide!

theorem line_query_between_antipodes_witness :
    AntipodeValues antipodeLib ∧
    (getShortestPathFloat (haversineFloat antipodeLib) gAntipodes 0 2).2 = [2] ∧
    (vtx (getShortestPathFloat (haversineFloat antipodeLib) gAntipodes 0 2).1
      2).shortestDistance = infinity :=
  ⟨antipodeLib_values,
    (line_query_between_antipodes antipodeLib antipodeLib_values).2.2.2.1,
    (line_query_between_antipodes antipodeLib antipodeLib_values).2.2.2.2⟩

end Map
